import Mathlib

/-!
Verification of the left-leaning red-black BST symbol table implemented in
`src/searching/RedBlackBST.py`.

The Python class is embedded shallowly:

* `TreeNode` becomes the inductive `RBNode K V`; a `None` pointer is `RBNode.nil`.
* A stored value is `Option V` because Python stores arbitrary objects
  (including `None`) in `node.val`; the public `put`/`get`/`delete`/... take the
  key as `Option K` because Python callers may pass `None`.
* Every Python operation that can raise becomes a function into `Except Err _`.
  `Err` mirrors the exception classes the source raises:
  `ValueError` (null key), `IndexError` (underflow / no floor / bad rank),
  `AttributeError` (attribute access on `None`, or call of an undefined
  method such as `_nodeSize`), `AssertionError` (a failed `assert`).
* Mutation is modelled by returning the updated subtree root, exactly the
  discipline the recursive Python code itself follows.
-/

/-- The exception classes raised by `RedBlackBST.py`. -/
inductive Err where
  | valueError
  | indexError
  | attributeError
  | assertionError
deriving DecidableEq, Repr

/-- `TreeNode` of `RedBlackBST.py`: key, associated value, left and right
subtrees, color of the parent link (`true` = red), and subtree count.
A Python `None` pointer is `nil`. -/
inductive RBNode (K V : Type) where
  | nil : RBNode K V
  | node (key : K) (val : Option V) (left : RBNode K V) (right : RBNode K V)
      (color : Bool) (size : Nat) : RBNode K V
deriving DecidableEq, Repr

/-- `RedBlackBST.RED`. -/
def RED : Bool := true

/-- `RedBlackBST.BLACK`. -/
def BLACK : Bool := false

namespace RBNode

variable {K V : Type}

/-- Reading `node.left` where the Python code has already ensured the node is
not `None` (or where `isRed` short-circuiting makes the read harmless). -/
def leftC : RBNode K V → RBNode K V
  | .nil => .nil
  | .node _ _ l _ _ _ => l

/-- Reading `node.right` under the same conditions as `leftC`. -/
def rightC : RBNode K V → RBNode K V
  | .nil => .nil
  | .node _ _ _ r _ _ => r

/-- Structural node count of a subtree (the specification-side measure; the
source's `size` field is `nodeSize` below). -/
def count : RBNode K V → Nat
  | .nil => 0
  | .node _ _ l r _ _ => 1 + count l + count r

/-- In-order list of `(key, value)` pairs stored in a subtree. -/
def entries : RBNode K V → List (K × Option V)
  | .nil => []
  | .node k v l r _ _ => entries l ++ (k, v) :: entries r

/-- In-order list of keys stored in a subtree. -/
def keysList (t : RBNode K V) : List K := (entries t).map Prod.fst

end RBNode

open RBNode

variable {K V : Type}

/-- `isRed(node)`: `False` for `None`, else the stored color (lines 24-30). -/
def isRed : RBNode K V → Bool
  | .nil => false
  | .node _ _ _ _ c _ => c

/-- `_size(node)`: `0` for `None`, else the stored `size` field (lines 36-40). -/
def nodeSize : RBNode K V → Nat
  | .nil => 0
  | .node _ _ _ _ _ s => s

/-- `size()`: `_size(self.root)` (lines 32-34). -/
def sizeW (t : RBNode K V) : Nat := nodeSize t

/-- `is_empty()` (lines 42-44). -/
def isEmptyW (t : RBNode K V) : Bool :=
  match t with
  | .nil => true
  | _ => false

/-- `rotate_left(h)` (lines 251-261).  `assert h and self.isRed(h.right)`
raises `AssertionError` when `h` is `None` or `h.right` is not red; otherwise
`x = h.right; h.right = x.left; x.left = h; x.color = h.color; h.color = RED;
x.size = h.size; h.size = 1 + _size(h.left) + _size(h.right)`. -/
def rotate_left : RBNode K V → Except Err (RBNode K V)
  | .node k v l (.node rk rv rl rr rc rs) c s =>
    if rc then
      .ok (.node rk rv (.node k v l rl RED (1 + nodeSize l + nodeSize rl)) rr c s)
    else .error .assertionError
  | _ => .error .assertionError

/-- `rotate_right(h)` (lines 263-273), mirror of `rotate_left` with
`assert h and self.isRed(h.left)`. -/
def rotate_right : RBNode K V → Except Err (RBNode K V)
  | .node k v (.node lk lv ll lr lc ls) r c s =>
    if lc then
      .ok (.node lk lv ll (.node k v lr r RED (1 + nodeSize lr + nodeSize r)) c s)
    else .error .assertionError
  | _ => .error .assertionError

/-- `flip_colors(h)` (lines 275-284): toggles the colors of `h`, `h.left`,
`h.right`; Python raises `AttributeError` if `h` or either child is `None`. -/
def flip_colors : RBNode K V → Except Err (RBNode K V)
  | .node k v (.node lk lv ll lr lc ls) (.node rk rv rl rr rc rs) c s =>
    .ok (.node k v (.node lk lv ll lr (!lc) ls) (.node rk rv rl rr (!rc) rs) (!c) s)
  | _ => .error .attributeError

/-- `move_red_left(h)` (lines 286-296): `flip_colors(h)`; then if
`isRed(h.right.left)` (an `AttributeError` if `h.right` is `None`):
`h.right = rotate_right(h.right); h = rotate_left(h); flip_colors(h)`. -/
def move_red_left (h : RBNode K V) : Except Err (RBNode K V) := do
  let h1 ← flip_colors h
  match h1 with
  | .nil => .error .attributeError
  | .node k v l r c s =>
    match r with
    | .nil => .error .attributeError
    | .node rk rv rl rr rc rs =>
      if isRed rl then do
        let r2 ← rotate_right (.node rk rv rl rr rc rs)
        let h2 ← rotate_left (.node k v l r2 c s)
        flip_colors h2
      else
        .ok (.node k v l (.node rk rv rl rr rc rs) c s)

/-- `move_red_right(h)` (lines 298-307): `flip_colors(h)`; then if
`isRed(h.left.left)` (an `AttributeError` if `h.left` is `None`):
`h = rotate_right(h); flip_colors(h)`. -/
def move_red_right (h : RBNode K V) : Except Err (RBNode K V) := do
  let h1 ← flip_colors h
  match h1 with
  | .nil => .error .attributeError
  | .node k v l r c s =>
    match l with
    | .nil => .error .attributeError
    | .node lk lv ll lr lc ls =>
      if isRed ll then do
        let h2 ← rotate_right (.node k v (.node lk lv ll lr lc ls) r c s)
        flip_colors h2
      else
        .ok (.node k v (.node lk lv ll lr lc ls) r c s)

/-- The statement `h.size = 1 + self._size(h.left) + self._size(h.right)`
(line 135 and line 320); inert on `nil` (never reached there). -/
def updateSize : RBNode K V → RBNode K V
  | .nil => .nil
  | .node k v l r c _ => .node k v l r c (1 + nodeSize l + nodeSize r)

/-- `balance(h)` (lines 309-322): the three insert fix-ups followed by a size
recomputation.  Called by the delete family, always on a real node; on `None`
Python would raise `AttributeError` reading `h.right`. -/
def balance : RBNode K V → Except Err (RBNode K V)
  | .nil => .error .attributeError
  | .node k v l r c s =>
    match (if isRed r && !isRed l then rotate_left (.node k v l r c s)
           else Except.ok (.node k v l r c s)) with
    | .error e => .error e
    | .ok t1 =>
      match (if isRed t1.leftC && isRed t1.leftC.leftC then rotate_right t1
             else Except.ok t1) with
      | .error e => .error e
      | .ok t2 =>
        match (if isRed t2.leftC && isRed t2.rightC then flip_colors t2
               else Except.ok t2) with
        | .error e => .error e
        | .ok t3 => .ok (updateSize t3)

/-! ### Search and insertion (lines 46-136) -/

/-- `_get(node, key)` (lines 56-74): raises `ValueError` on a `None` key (the
check is re-made at every level), returns `None` on a search miss, `node.val`
on a hit. -/
def rbGet_ [LinearOrder K] (t : RBNode K V) (key : Option K) : Except Err (Option V) :=
  match key with
  | none => .error .valueError
  | some k =>
    match t with
    | .nil => .ok none
    | .node nk nv l r _ _ =>
      if k < nk then rbGet_ l key
      else if nk < k then rbGet_ r key
      else .ok nv

/-- `get(key)` (lines 46-54). -/
def rbGet [LinearOrder K] (t : RBNode K V) (key : Option K) : Except Err (Option V) :=
  rbGet_ t key

/-- `contains(key)` (lines 76-86): `ValueError` on `None`, else
`get(key) != None`. -/
def rbContains [LinearOrder K] (t : RBNode K V) (key : Option K) : Except Err Bool :=
  match key with
  | none => .error .valueError
  | some _ => do
    let v ← rbGet t key
    pure v.isSome

/-- `_put(node, key, val)` (lines 112-136): BST descent inserting a new red
leaf of size 1 (or overwriting the value), then the three fix-ups of lines
128-133, then the size recomputation of line 135. -/
def rbPut_ [LinearOrder K] (t : RBNode K V) (k : K) (v : V) : Except Err (RBNode K V) :=
  match t with
  | .nil => .ok (.node k (some v) .nil .nil RED 1)
  | .node nk nv l r c s =>
    match (if k < nk then
             (match rbPut_ l k v with
              | .error e => .error e
              | .ok l2 => Except.ok (RBNode.node nk nv l2 r c s))
           else if nk < k then
             (match rbPut_ r k v with
              | .error e => .error e
              | .ok r2 => Except.ok (RBNode.node nk nv l r2 c s))
           else Except.ok (RBNode.node k (some v) l r c s)) with
    | .error e => .error e
    | .ok t0 =>
      match (if isRed t0.rightC && !isRed t0.leftC then rotate_left t0
             else Except.ok t0) with
      | .error e => .error e
      | .ok t1 =>
        match (if isRed t1.leftC && isRed t1.leftC.leftC then rotate_right t1
               else Except.ok t1) with
        | .error e => .error e
        | .ok t2 =>
          match (if isRed t2.leftC && isRed t2.rightC then flip_colors t2
                 else Except.ok t2) with
          | .error e => .error e
          | .ok t3 => .ok (updateSize t3)

/-- `put(key, val)` (lines 93-110): `ValueError` on a `None` key; a `None`
value routes to `delete(key)` (handled after the delete family below); else
`self.root = _put(root, key, val); self.root.color = BLACK`.  This helper is
the non-`None`-value path. -/
def rbPutVal [LinearOrder K] (t : RBNode K V) (k : K) (v : V) : Except Err (RBNode K V) := do
  let t1 ← rbPut_ t k v
  match t1 with
  | .nil => .error .attributeError
  | .node k2 v2 l2 r2 _ s2 => pure (.node k2 v2 l2 r2 BLACK s2)

/-! ### Reduction lemmas for the `Except` monad. -/

@[simp] theorem exBind_ok {α β : Type} (a : α) (f : α → Except Err β) :
    (Except.ok a >>= f) = f a := rfl

@[simp] theorem exBind_error {α β : Type} (e : Err) (f : α → Except Err β) :
    ((Except.error e : Except Err α) >>= f) = Except.error e := rfl

@[simp] theorem exPure_def {α : Type} (a : α) :
    (pure a : Except Err α) = Except.ok a := rfl

@[simp] theorem exBindF_ok {α β : Type} (a : α) (f : α → Except Err β) :
    Except.bind (Except.ok a) f = f a := rfl

@[simp] theorem exBindF_error {α β : Type} (e : Err) (f : α → Except Err β) :
    Except.bind (Except.error e : Except Err α) f = Except.error e := rfl

@[simp] theorem exMap_ok {α β : Type} (a : α) (f : α → β) :
    Except.map f (Except.ok a : Except Err α) = Except.ok (f a) := rfl

@[simp] theorem exMap_error {α β : Type} (e : Err) (f : α → β) :
    Except.map f (Except.error e : Except Err α) = Except.error e := rfl

/-! ### Count preservation of the local transforms (used for termination). -/

theorem rotate_left_count {t u : RBNode K V} (h : rotate_left t = .ok u) :
    count u = count t := by
  unfold rotate_left at h
  split at h
  · split at h
    · cases h; simp [count]; omega
    · cases h
  · cases h

theorem rotate_right_count {t u : RBNode K V} (h : rotate_right t = .ok u) :
    count u = count t := by
  unfold rotate_right at h
  split at h
  · split at h
    · cases h; simp [count]; omega
    · cases h
  · cases h

theorem flip_colors_count {t u : RBNode K V} (h : flip_colors t = .ok u) :
    count u = count t := by
  unfold flip_colors at h
  split at h
  · cases h; simp [count]
  · cases h

theorem move_red_left_count {t u : RBNode K V} (h : move_red_left t = .ok u) :
    count u = count t := by
  unfold move_red_left at h
  cases hf : flip_colors t with
  | error e => rw [hf] at h; cases h
  | ok t1 =>
    rw [hf] at h
    have hc1 := flip_colors_count hf
    simp only [exBind_ok] at h
    match t1, hc1 with
    | .nil, hc1 => cases h
    | .node k v l r c s, hc1 =>
      match r, hc1 with
      | .nil, hc1 => cases h
      | .node rk rv rl rr rc rs, hc1 =>
        dsimp only at h
        split at h
        · cases hr2 : rotate_right (RBNode.node rk rv rl rr rc rs) with
          | error e => rw [hr2] at h; cases h
          | ok r2 =>
            rw [hr2] at h
            simp only [exBind_ok] at h
            cases hl2 : rotate_left (RBNode.node k v l r2 c s) with
            | error e => rw [hl2] at h; cases h
            | ok h2 =>
              rw [hl2] at h
              simp only [exBind_ok] at h
              have := flip_colors_count h
              have := rotate_left_count hl2
              have := rotate_right_count hr2
              simp [count] at *
              omega
        · cases h
          simp [count] at hc1 ⊢
          omega

theorem move_red_right_count {t u : RBNode K V} (h : move_red_right t = .ok u) :
    count u = count t := by
  unfold move_red_right at h
  cases hf : flip_colors t with
  | error e => rw [hf] at h; cases h
  | ok t1 =>
    rw [hf] at h
    have hc1 := flip_colors_count hf
    simp only [exBind_ok] at h
    match t1, hc1 with
    | .nil, hc1 => cases h
    | .node k v l r c s, hc1 =>
      match l, hc1 with
      | .nil, hc1 => cases h
      | .node lk lv ll lr lc ls, hc1 =>
        dsimp only at h
        split at h
        · cases hr2 : rotate_right (RBNode.node k v (.node lk lv ll lr lc ls) r c s) with
          | error e => rw [hr2] at h; cases h
          | ok h2 =>
            rw [hr2] at h
            simp only [exBind_ok] at h
            have := flip_colors_count h
            have := rotate_right_count hr2
            simp [count] at *
            omega
        · cases h
          simp [count] at hc1 ⊢
          omega

/-! ### Deletion (lines 141-245) and min/max (lines 371-405) -/

/-- `_minKey(node)` (lines 380-387): node with the smallest key in the
subtree; a `None` argument would raise reading `node.left`. -/
def rbMinNode : RBNode K V → Except Err (RBNode K V)
  | .nil => .error .attributeError
  | .node k v .nil r c s => .ok (.node k v .nil r c s)
  | .node _ _ (.node lk lv ll lr lc ls) _ _ _ => rbMinNode (.node lk lv ll lr lc ls)

/-- `_maxKey(node)` (lines 398-405), mirror of `_minKey`. -/
def rbMaxNode : RBNode K V → Except Err (RBNode K V)
  | .nil => .error .attributeError
  | .node k v l .nil c s => .ok (.node k v l .nil c s)
  | .node _ _ _ (.node rk rv rl rr rc rs) _ _ => rbMaxNode (.node rk rv rl rr rc rs)

/-- `minKey()` (lines 371-378): `IndexError` on an empty table, else
`_minKey(root).key`. -/
def rbMinKey (t : RBNode K V) : Except Err K :=
  match t with
  | .nil => .error .indexError
  | _ =>
    match rbMinNode t with
    | .error e => .error e
    | .ok .nil => .error .attributeError
    | .ok (.node k _ _ _ _ _) => .ok k

/-- `maxKey()` (lines 389-396). -/
def rbMaxKey (t : RBNode K V) : Except Err K :=
  match t with
  | .nil => .error .indexError
  | _ =>
    match rbMaxNode t with
    | .error e => .error e
    | .ok .nil => .error .attributeError
    | .ok (.node k _ _ _ _ _) => .ok k

/-- `_deleteMin(h)` (lines 205-215): if `h.left` is `None` return `None`;
otherwise the guarded `move_red_left` of line 211 (whose condition
`not isRed(h.left) and not isRed(h.left.left)` is evaluated with Python
short-circuiting), then `h.left = _deleteMin(h.left)` and `balance(h)`. -/
def rbDeleteMin_ (h : RBNode K V) : Except Err (RBNode K V) :=
  match h with
  | .nil => .error .attributeError
  | .node hk hv hl hr hc hs =>
    match hl with
    | .nil => .ok .nil
    | .node lk lv ll lr lc ls =>
      match hmv : (if isRed (RBNode.node lk lv ll lr lc ls) then
                     Except.ok (RBNode.node hk hv (.node lk lv ll lr lc ls) hr hc hs)
                   else if isRed ll then
                     Except.ok (RBNode.node hk hv (.node lk lv ll lr lc ls) hr hc hs)
                   else move_red_left (RBNode.node hk hv (.node lk lv ll lr lc ls) hr hc hs)) with
      | .error e => .error e
      | .ok .nil => .error .attributeError
      | .ok (.node k1 v1 l1 r1 c1 s1) =>
        match rbDeleteMin_ l1 with
        | .error e => .error e
        | .ok l2 => balance (RBNode.node k1 v1 l2 r1 c1 s1)
termination_by count h
decreasing_by
  simp_wf
  rename_i hk hv hr hc hs lk lv ll lr lc ls
  have hcnt : count (RBNode.node k1 v1 l1 r1 c1 s1)
      = count (RBNode.node hk hv (RBNode.node lk lv ll lr lc ls) hr hc hs) := by
    split at hmv
    · exact (congrArg count (Except.ok.inj hmv)).symm
    · split at hmv
      · exact (congrArg count (Except.ok.inj hmv)).symm
      · exact move_red_left_count hmv
  simp only [count] at hcnt ⊢
  omega

/-- `_deleteMax(h)` (lines 233-245): note line 238 really calls
`rotate_left(h)` when `h.left` is red (whose `assert isRed(h.right)` then
fails unless `h.right` happens to be red). -/
def rbDeleteMax_ (h : RBNode K V) : Except Err (RBNode K V) :=
  match h with
  | .nil => .error .attributeError
  | .node hk hv hl hr hc hs =>
    match hrot : (if isRed hl then rotate_left (RBNode.node hk hv hl hr hc hs)
                  else Except.ok (RBNode.node hk hv hl hr hc hs)) with
    | .error e => .error e
    | .ok .nil => .error .attributeError
    | .ok (.node k1 v1 l1 r1 c1 s1) =>
      match r1 with
      | .nil => .ok .nil
      | .node rk rv rl rr rc rs =>
        match hmv : (if isRed (RBNode.node rk rv rl rr rc rs) then
                       Except.ok (RBNode.node k1 v1 l1 (.node rk rv rl rr rc rs) c1 s1)
                     else if isRed rl then
                       Except.ok (RBNode.node k1 v1 l1 (.node rk rv rl rr rc rs) c1 s1)
                     else move_red_right (RBNode.node k1 v1 l1 (.node rk rv rl rr rc rs) c1 s1)) with
        | .error e => .error e
        | .ok .nil => .error .attributeError
        | .ok (.node k2 v2 l2 r2 c2 s2) =>
          match rbDeleteMax_ r2 with
          | .error e => .error e
          | .ok r3 => balance (RBNode.node k2 v2 l2 r3 c2 s2)
termination_by count h
decreasing_by
  simp_wf
  rename_i hk hv hl hr hc hs hrotOld
  have hcnt1 : count (RBNode.node k1 v1 l1 (RBNode.node rk rv rl rr rc rs) c1 s1)
      = count (RBNode.node hk hv hl hr hc hs) := by
    split at hrot
    · exact rotate_left_count hrot
    · exact (congrArg count (Except.ok.inj hrot)).symm
  have hcnt2 : count (RBNode.node k2 v2 l2 r2 c2 s2)
      = count (RBNode.node k1 v1 l1 (RBNode.node rk rv rl rr rc rs) c1 s1) := by
    split at hmv
    · exact (congrArg count (Except.ok.inj hmv)).symm
    · split at hmv
      · exact (congrArg count (Except.ok.inj hmv)).symm
      · exact move_red_right_count hmv
  simp only [count] at hcnt1 hcnt2 ⊢
  omega

/-- `_delete(h, key)` (lines 159-187), with all the `None` dereferences of the
original preserved: the guard of line 168 reads `h.left.left` (crashing when
`h.left` is `None`), the guard of line 176 reads `h.right.left` (crashing when
`h.right` is `None`), and key comparisons after `rotate_right` /
`move_red_right` are made against the *new* subtree root exactly as in the
source. -/
def rbDelete_ [LinearOrder K] (h : RBNode K V) (k : K) : Except Err (RBNode K V) :=
  match h with
  | .nil => .error .attributeError
  | .node hk hv hl hr hc hs =>
    if k < hk then
      match hmv : (match hl with
                   | .nil => Except.error Err.attributeError
                   | .node lk lv ll lr lc ls =>
                     if isRed (RBNode.node lk lv ll lr lc ls) then
                       Except.ok (RBNode.node hk hv (.node lk lv ll lr lc ls) hr hc hs)
                     else if isRed ll then
                       Except.ok (RBNode.node hk hv (.node lk lv ll lr lc ls) hr hc hs)
                     else move_red_left (RBNode.node hk hv (.node lk lv ll lr lc ls) hr hc hs)) with
      | .error e => .error e
      | .ok .nil => .error .attributeError
      | .ok (.node k1 v1 l1 r1 c1 s1) =>
        match rbDelete_ l1 k with
        | .error e => .error e
        | .ok l2 => balance (RBNode.node k1 v1 l2 r1 c1 s1)
    else
      match hrot : (if isRed hl then rotate_right (RBNode.node hk hv hl hr hc hs)
                    else Except.ok (RBNode.node hk hv hl hr hc hs)) with
      | .error e => .error e
      | .ok .nil => .error .attributeError
      | .ok (.node k1 v1 l1 r1 c1 s1) =>
        if decide (k = k1) && isEmptyW r1 then .ok .nil
        else
          match hmv2 : (match r1 with
                        | .nil => Except.error Err.attributeError
                        | .node rk rv rl rr rc rs =>
                          if isRed (RBNode.node rk rv rl rr rc rs) then
                            Except.ok (RBNode.node k1 v1 l1 (.node rk rv rl rr rc rs) c1 s1)
                          else if isRed rl then
                            Except.ok (RBNode.node k1 v1 l1 (.node rk rv rl rr rc rs) c1 s1)
                          else move_red_right
                              (RBNode.node k1 v1 l1 (.node rk rv rl rr rc rs) c1 s1)) with
          | .error e => .error e
          | .ok .nil => .error .attributeError
          | .ok (.node k2 v2 l2 r2 c2 s2) =>
            if k = k2 then
              match rbMinNode r2 with
              | .error e => .error e
              | .ok .nil => .error .attributeError
              | .ok (.node xk xv _ _ _ _) =>
                match rbDeleteMin_ r2 with
                | .error e => .error e
                | .ok r3 => balance (RBNode.node xk xv l2 r3 c2 s2)
            else
              match rbDelete_ r2 k with
              | .error e => .error e
              | .ok r3 => balance (RBNode.node k2 v2 l2 r3 c2 s2)
termination_by count h
decreasing_by
  · simp_wf
    rename_i hk hv hl hr hc hs hklt
    have hcnt : count (RBNode.node k1 v1 l1 r1 c1 s1)
        = count (RBNode.node hk hv hl hr hc hs) := by
      cases hl with
      | nil => cases hmv
      | node lk lv ll lr lc ls =>
        dsimp only at hmv
        split at hmv
        · exact (congrArg count (Except.ok.inj hmv)).symm
        · split at hmv
          · exact (congrArg count (Except.ok.inj hmv)).symm
          · exact move_red_left_count hmv
    simp only [count] at hcnt ⊢
    omega
  · simp_wf
    rename_i hk hv hl hr hc hs hge hg1 hne
    have hcnt1 : count (RBNode.node k1 v1 l1 r1 c1 s1)
        = count (RBNode.node hk hv hl hr hc hs) := by
      split at hrot
      · exact rotate_right_count hrot
      · exact (congrArg count (Except.ok.inj hrot)).symm
    have hcnt2 : count (RBNode.node k2 v2 l2 r2 c2 s2)
        = count (RBNode.node k1 v1 l1 r1 c1 s1) := by
      cases r1 with
      | nil => cases hmv2
      | node rk rv rl rr rc rs =>
        dsimp only at hmv2
        split at hmv2
        · exact (congrArg count (Except.ok.inj hmv2)).symm
        · split at hmv2
          · exact (congrArg count (Except.ok.inj hmv2)).symm
          · exact move_red_right_count hmv2
    simp only [count] at hcnt1 hcnt2 ⊢
    omega

/-- `delete(key)` (lines 141-157): `ValueError` on a `None` key; then the
wrapper reads `self.root.left`, so on an *empty* table it raises
`AttributeError`; if both root children are black the root is first colored
red; after `_delete` a non-empty root is colored black. -/
def rbDelete [LinearOrder K] (t : RBNode K V) (key : Option K) : Except Err (RBNode K V) :=
  match key with
  | none => .error .valueError
  | some k =>
    match t with
    | .nil => .error .attributeError
    | .node rk rv rl rr rc rs =>
      let t0 : RBNode K V :=
        if !isRed rl && !isRed rr then .node rk rv rl rr RED rs
        else .node rk rv rl rr rc rs
      match rbDelete_ t0 k with
      | .error e => .error e
      | .ok .nil => .ok .nil
      | .ok (.node k2 v2 l2 r2 _ s2) => .ok (.node k2 v2 l2 r2 BLACK s2)

/-- `put(key, val)` (lines 93-110): `ValueError` on a `None` key; a `None`
value routes to `delete(key)`; otherwise `_put` followed by blackening the
root. -/
def rbPut [LinearOrder K] (t : RBNode K V) (key : Option K) (val : Option V) :
    Except Err (RBNode K V) :=
  match key with
  | none => .error .valueError
  | some k =>
    match val with
    | none => rbDelete t key
    | some v => rbPutVal t k v

/-- `deleteMin()` (lines 190-203): `IndexError` on an empty table; colors the
root red when both its children are black; blackens a non-empty result. -/
def rbDeleteMin (t : RBNode K V) : Except Err (RBNode K V) :=
  match t with
  | .nil => .error .indexError
  | .node rk rv rl rr rc rs =>
    let t0 : RBNode K V :=
      if !isRed rl && !isRed rr then .node rk rv rl rr RED rs
      else .node rk rv rl rr rc rs
    match rbDeleteMin_ t0 with
    | .error e => .error e
    | .ok .nil => .ok .nil
    | .ok (.node k2 v2 l2 r2 _ s2) => .ok (.node k2 v2 l2 r2 BLACK s2)

/-- `deleteMax()` (lines 218-231), mirror of `deleteMin()`. -/
def rbDeleteMax (t : RBNode K V) : Except Err (RBNode K V) :=
  match t with
  | .nil => .error .indexError
  | .node rk rv rl rr rc rs =>
    let t0 : RBNode K V :=
      if !isRed rl && !isRed rr then .node rk rv rl rr RED rs
      else .node rk rv rl rr rc rs
    match rbDeleteMax_ t0 with
    | .error e => .error e
    | .ok .nil => .ok .nil
    | .ok (.node k2 v2 l2 r2 _ s2) => .ok (.node k2 v2 l2 r2 BLACK s2)

/-! ### Ordered queries (lines 410-608) -/

/-- `_floor(node, key)` (lines 428-443).  Note the source returns `None` when
the recursive right search misses and the *current* node when it hits —
not the found node. -/
def rbFloor_ [LinearOrder K] (t : RBNode K V) (k : K) : RBNode K V :=
  match t with
  | .nil => .nil
  | .node nk nv l r c s =>
    if k = nk then .node nk nv l r c s
    else if k < nk then rbFloor_ l k
    else
      match rbFloor_ r k with
      | .nil => .nil
      | .node _ _ _ _ _ _ => .node nk nv l r c s

/-- `floor(key)` (lines 410-426): `ValueError` on `None` key, `IndexError` on
an empty table or when `_floor` returns `None`. -/
def rbFloor [LinearOrder K] (t : RBNode K V) (key : Option K) : Except Err K :=
  match key with
  | none => .error .valueError
  | some k =>
    match t with
    | .nil => .error .indexError
    | _ =>
      match rbFloor_ t k with
      | .nil => .error .indexError
      | .node nk _ _ _ _ _ => .ok nk

/-- `_ceil(node, key)` (lines 463-478), with the same inverted branch as
`_floor`: a successful left search returns the *current* node and a missed
left search returns `None`. -/
def rbCeil_ [LinearOrder K] (t : RBNode K V) (k : K) : RBNode K V :=
  match t with
  | .nil => .nil
  | .node nk nv l r c s =>
    if k = nk then .node nk nv l r c s
    else if k < nk then
      match rbCeil_ l k with
      | .nil => .nil
      | .node _ _ _ _ _ _ => .node nk nv l r c s
    else rbCeil_ r k

/-- `ceil(key)` (lines 445-461). -/
def rbCeil [LinearOrder K] (t : RBNode K V) (key : Option K) : Except Err K :=
  match key with
  | none => .error .valueError
  | some k =>
    match t with
    | .nil => .error .indexError
    | _ =>
      match rbCeil_ t k with
      | .nil => .error .indexError
      | .node nk _ _ _ _ _ => .ok nk

/-- The calls `self._nodeSize(...)` in `_select` (line 505) and `_rank`
(lines 540, 542): the class never defines a method `_nodeSize`, so Python
raises `AttributeError` at each of these calls. -/
def nodeSizeMissing (_ : RBNode K V) : Except Err Nat := .error .attributeError

/-- `_select(node, rank)` (lines 495-512): returns `None` on a `None` node,
otherwise immediately evaluates `self._nodeSize(node.left)`. -/
def rbSelect_ [LinearOrder K] (t : RBNode K V) (rank : Nat) : Except Err (Option K) :=
  match t with
  | .nil => .ok none
  | .node nk _ l r _ _ => do
    let leftSize ← nodeSizeMissing l
    if leftSize > rank then rbSelect_ l rank
    else if leftSize < rank then rbSelect_ r (rank - leftSize - 1)
    else pure (some nk)

/-- `select(rank)` (lines 483-493): `IndexError` unless `0 <= rank < size()`
(the lower bound is automatic for `Nat`), else `_select(root, rank)`. -/
def rbSelect [LinearOrder K] (t : RBNode K V) (rank : Nat) : Except Err (Option K) :=
  if rank < sizeW t then rbSelect_ t rank else .error .indexError

/-- `_rank(node, key)` (lines 529-542): `0` on a `None` node; recursing left
on `key < node.key`; both other branches call the undefined `_nodeSize`. -/
def rbRank_ [LinearOrder K] (t : RBNode K V) (k : K) : Except Err Nat :=
  match t with
  | .nil => .ok 0
  | .node nk _ l r _ _ =>
    if k < nk then rbRank_ l k
    else if nk < k then do
      let a ← nodeSizeMissing l
      let b ← rbRank_ r k
      pure (1 + a + b)
    else nodeSizeMissing l

/-- `rank(key)` (lines 518-527): `ValueError` on `None`, else `_rank`. -/
def rbRank [LinearOrder K] (t : RBNode K V) (key : Option K) : Except Err Nat :=
  match key with
  | none => .error .valueError
  | some k => rbRank_ t k

/-- `_keys(node, queue, lo, hi)` (lines 594-608), as the list of keys appended
to `queue`.  The guard on line 601 returns (pruning the whole subtree) as
soon as the *current* node's key falls outside `[lo, hi]`. -/
def keysRange_ [LinearOrder K] (t : RBNode K V) (lo hi : K) : List K :=
  match t with
  | .nil => []
  | .node nk _ l r _ _ =>
    if lo > nk ∨ hi < nk then []
    else
      (if lo < nk then keysRange_ l lo hi else [])
        ++ (if lo ≤ nk ∧ nk ≤ hi then [nk] else [])
        ++ (if hi ≥ nk then keysRange_ r lo hi else [])

/-- `rangeKeys(lo, hi)` (lines 576-592): `ValueError` if either bound is
`None`, else the `_keys` traversal started on an empty queue. -/
def rbRangeKeys [LinearOrder K] (t : RBNode K V) (lo hi : Option K) : Except Err (List K) :=
  match lo with
  | none => .error .valueError
  | some lo' =>
    match hi with
    | none => .error .valueError
    | some hi' => .ok (keysRange_ t lo' hi')

/-- `keys()` (lines 566-573): `[]` on an empty table, else
`rangeKeys(minKey(), maxKey())`. -/
def rbKeys [LinearOrder K] (t : RBNode K V) : Except Err (List K) :=
  match t with
  | .nil => .ok []
  | _ => do
    let lo ← rbMinKey t
    let hi ← rbMaxKey t
    rbRangeKeys t (some lo) (some hi)

/-! ### `level_order()` (lines 338-360) -/

/-- The children pushed for one dequeued node (lines 352-355):
`if node.left: queue.append(node.left); if node.right: queue.append(node.right)`. -/
def pushChildren : RBNode K V → List (RBNode K V)
  | .nil => []
  | .node _ _ l r _ _ =>
    (match l with | .nil => [] | .node .. => [l])
      ++ (match r with | .nil => [] | .node .. => [r])

/-- The read `node.key` of line 349: `AttributeError` when the dequeued
element is `None` (which happens exactly for the initial queue `[root]` of an
empty table). -/
def keyOf : RBNode K V → Except Err K
  | .nil => .error .attributeError
  | .node k _ _ _ _ _ => .ok k

/-- The `tmp` list built by the inner `for` loop of lines 347-349. -/
def levelKeys : List (RBNode K V) → Except Err (List K)
  | [] => .ok []
  | t :: q => do
    let k ← keyOf t
    let ks ← levelKeys q
    pure (k :: ks)

/-- The queue contents after the inner `for` loop processed one full level. -/
def nextQueue : List (RBNode K V) → List (RBNode K V)
  | [] => []
  | t :: q => pushChildren t ++ nextQueue q

/-- Termination measure for the `while queue:` loop. -/
def qMeasure (q : List (RBNode K V)) : Nat := 2 * (q.map count).sum + q.length

theorem qMeasure_append (a b : List (RBNode K V)) :
    qMeasure (a ++ b) = qMeasure a + qMeasure b := by
  simp [qMeasure, Nat.mul_add]
  omega

theorem qMeasure_pushChildren (t : RBNode K V) :
    qMeasure (pushChildren t) ≤ 2 * count t := by
  cases t with
  | nil => simp [pushChildren, qMeasure]
  | node k v l r c s =>
    have hl : qMeasure (match l with | .nil => [] | .node .. => [l]) ≤ 2 * count l + 1 := by
      cases l <;> simp [qMeasure]
    have hr : qMeasure (match r with | .nil => [] | .node .. => [r]) ≤ 2 * count r + 1 := by
      cases r <;> simp [qMeasure]
    calc qMeasure (pushChildren (RBNode.node k v l r c s))
        = qMeasure (match l with | .nil => ([] : List (RBNode K V)) | .node .. => [l])
          + qMeasure (match r with | .nil => ([] : List (RBNode K V)) | .node .. => [r]) := by
          simp only [pushChildren]
          exact qMeasure_append _ _
      _ ≤ 2 * count l + 1 + (2 * count r + 1) := Nat.add_le_add hl hr
      _ ≤ 2 * count (RBNode.node k v l r c s) := by simp [count]; omega

theorem qMeasure_nextQueue (q : List (RBNode K V)) :
    qMeasure (nextQueue q) ≤ 2 * (q.map count).sum := by
  induction q with
  | nil => simp [nextQueue, qMeasure]
  | cons t q ih =>
    calc qMeasure (nextQueue (t :: q)) = qMeasure (pushChildren t) + qMeasure (nextQueue q) := by
          simp only [nextQueue]; exact qMeasure_append _ _
      _ ≤ 2 * count t + 2 * (q.map count).sum :=
          Nat.add_le_add (qMeasure_pushChildren t) ih
      _ = 2 * ((t :: q).map count).sum := by simp [Nat.mul_add]

/-- The `while queue:` loop of `level_order` (lines 343-358): each recursive
call processes one whole level, appending the level's key list to the
result. -/
def levelLoop : List (RBNode K V) → Except Err (List (List K))
  | [] => .ok []
  | t :: q => do
    let tmp ← levelKeys (t :: q)
    let rest ← levelLoop (nextQueue (t :: q))
    pure (tmp :: rest)
termination_by q => qMeasure q
decreasing_by
  have h1 := qMeasure_nextQueue (t :: q)
  have h2 : 2 * ((t :: q).map count).sum < qMeasure (t :: q) := by
    simp [qMeasure]
  omega

/-- `level_order()` (lines 338-360): the queue starts as `deque([self.root])`
whether or not the table is empty. -/
def rbLevelOrder (t : RBNode K V) : Except Err (List (List K)) := levelLoop [t]

/-! ### The concrete scenario of the module's own `__main__` block
(lines 713-732): ten `put`s followed by `delete('E')`. -/

/-- The table built by scenario 1 of the specification: insert
`('L',11), ('P',10), ('M',9), ('X',7), ('H',5), ('C',4), ('R',3), ('A',8),
('E',12), ('S',0)` in order, then `delete('E')`. -/
def scenario1 : Except Err (RBNode Char Nat) := do
  let t ← rbPut .nil (some 'L') (some 11)
  let t ← rbPut t (some 'P') (some 10)
  let t ← rbPut t (some 'M') (some 9)
  let t ← rbPut t (some 'X') (some 7)
  let t ← rbPut t (some 'H') (some 5)
  let t ← rbPut t (some 'C') (some 4)
  let t ← rbPut t (some 'R') (some 3)
  let t ← rbPut t (some 'A') (some 8)
  let t ← rbPut t (some 'E') (some 12)
  let t ← rbPut t (some 'S') (some 0)
  rbDelete t (some 'E')

/-! ### Specification-side invariant checkers (decidable versions of the
global invariants of the data model). -/

/-- Strictly increasing list of keys. -/
def sortedLtB [LinearOrder K] : List K → Bool
  | [] => true
  | [_] => true
  | a :: b :: xs => decide (a < b) && sortedLtB (b :: xs)

/-- Size-field consistency: `size(node) == 1 + size(left) + size(right)` at
every node (the property `_countCheck` verifies, lines 649-655). -/
def sizeOkB : RBNode K V → Bool
  | .nil => true
  | .node _ _ l r _ s => (s == 1 + nodeSize l + nodeSize r) && sizeOkB l && sizeOkB r

/-- No red right link, and no red node with a red left child, anywhere. -/
def okColB : RBNode K V → Bool
  | .nil => true
  | .node _ _ l r c _ => okColB l && okColB r && !isRed r && (!c || !isRed l)

/-- Black height, `none` when some two root-to-`None` paths disagree (a node
counts itself when black, as in `isBalanced`, lines 688-709). -/
def bh : RBNode K V → Option Nat
  | .nil => some 0
  | .node _ _ l r c _ =>
    match bh l, bh r with
    | some a, some b => if a = b then some (if c then a else a + 1) else none
    | _, _ => none

/-- No stored node has value `None`. -/
def noNoneB : RBNode K V → Bool
  | .nil => true
  | .node _ v l r _ _ => v.isSome && noNoneB l && noNoneB r

/-- All the global invariants of §3 of the specification together: strict BST
order, size-field consistency, no red right link, no two consecutive red left
links, uniform black height, black root. -/
def invOkB [LinearOrder K] (t : RBNode K V) : Bool :=
  sortedLtB (keysList t) && sizeOkB t && okColB t && (bh t).isSome && !isRed t

/-- The tree `scenario1` actually evaluates to (see `scenario1_eval`). -/
def scenario1Tree : RBNode Char Nat :=
  .node 'M' (some 9)
    (.node 'H' (some 5)
      (.node 'C' (some 4) (.node 'A' (some 8) .nil .nil true 1) .nil false 2)
      (.node 'L' (some 11) .nil .nil false 1) false 4)
    (.node 'R' (some 3)
      (.node 'P' (some 10) .nil .nil false 1)
      (.node 'X' (some 7) (.node 'S' (some 0) .nil .nil true 1) .nil false 2) false 4)
    false 9

theorem scenario1_eval : scenario1 = .ok scenario1Tree := by
  show rbDelete (RBNode.node
    'M' (some 9)
    (.node 'H' (some 5)
      (.node 'C' (some 4) (.node 'A' (some 8) .nil .nil false 1)
        (.node 'E' (some 12) .nil .nil false 1) true 3)
      (.node 'L' (some 11) .nil .nil false 1) false 5)
    (.node 'R' (some 3)
      (.node 'P' (some 10) .nil .nil false 1)
      (.node 'X' (some 7) (.node 'S' (some 0) .nil .nil true 1) .nil false 2) false 4)
    false 10) (some 'E') = .ok scenario1Tree
  simp [rbDelete, rbDelete_, move_red_right, move_red_left, rotate_left, rotate_right,
    flip_colors, balance, updateSize, rbMinNode, isRed, nodeSize, leftC, rightC, isEmptyW,
    RED, BLACK, scenario1Tree]

/-! ### Claim theorems: concrete divergences -/

/-- Claim C1.  On the scenario-1 tree (ten puts then `delete('E')`), `rank('M')`
and `select(3)` do not return `3` and `'M'`: both raise `AttributeError`,
because `_rank` and `_select` call `self._nodeSize`, a method the class never
defines.  Moreover even the intended count of stored keys strictly below `'M'`
is `4` (the keys A, C, H, L), not `3`, and the key of rank 3 is `'L'`, not
`'M'`. -/
theorem C1_rank_select_nodeSize_undefined :
    scenario1.bind (fun t => rbRank t (some 'M')) = .error .attributeError
  ∧ scenario1.bind (fun t => rbSelect t 3) = .error .attributeError
  ∧ scenario1.map (fun t => ((keysList t).filter (fun x => x < 'M')).length) = .ok 4
  ∧ scenario1.map (fun t => (keysList t).get? 3) = .ok (some 'L') := by
  rw [scenario1_eval]
  refine ⟨?_, ?_, ?_, ?_⟩ <;> rfl

set_option maxHeartbeats 1000000 in
/-- Claim C2.  `_deleteMax` (line 238) calls `rotate_left(h)` when `h.left` is
red, not `rotate_right(h)`; `rotate_left`'s own `assert h and isRed(h.right)`
then fails, so `deleteMax()` raises `AssertionError` instead of removing the
maximum: already on the table `{1: 1, 2: 2}` (and on `{1, 2, 3, 4}`, the
four-key prefix of the claimed 1..1000 scenario). -/
theorem C2_deleteMax_rotate_left_assertion :
    (do let t ← rbPut (.nil : RBNode Nat Nat) (some 1) (some 1)
        let t ← rbPut t (some 2) (some 2)
        rbDeleteMax t) = .error .assertionError
  ∧ (do let t ← rbPut (.nil : RBNode Nat Nat) (some 1) (some 1)
        let t ← rbPut t (some 2) (some 2)
        let t ← rbPut t (some 3) (some 3)
        let t ← rbPut t (some 4) (some 4)
        rbDeleteMax t) = .error .assertionError := by
  constructor
  · simp [rbPut, rbPutVal, rbPut_, rbDeleteMax, rbDeleteMax_, rotate_left, rotate_right,
      move_red_right, flip_colors, balance, updateSize, isRed, nodeSize, leftC, rightC,
      RED, BLACK]
  · simp [rbPut, rbPutVal, rbPut_, rbDeleteMax, rbDeleteMax_, rotate_left, rotate_right,
      move_red_right, flip_colors, balance, updateSize, isRed, nodeSize, leftC, rightC,
      RED, BLACK]

/-- Claim C3.  `delete` on an absent key is not a no-op: on the empty table the
wrapper dereferences `self.root.left` (`AttributeError`), and on `{2: 2}` the
guards of `_delete` dereference `h.left.left` / `h.right.left` through a
`None` child (`AttributeError`), for an absent key on either side. -/
theorem C3_delete_absent_key_raises :
    rbDelete (.nil : RBNode Nat Nat) (some 1) = .error .attributeError
  ∧ ((rbPut (.nil : RBNode Nat Nat) (some 2) (some 2)).bind
      (fun t => rbDelete t (some 1))) = .error .attributeError
  ∧ ((rbPut (.nil : RBNode Nat Nat) (some 2) (some 2)).bind
      (fun t => rbDelete t (some 3))) = .error .attributeError := by
  refine ⟨rfl, ?_, ?_⟩
  · simp [rbPut, rbPutVal, rbPut_, rbDelete, rbDelete_, isRed, nodeSize, leftC, rightC,
      isEmptyW, RED, BLACK]
  · simp [rbPut, rbPutVal, rbPut_, rbDelete, rbDelete_, isRed, nodeSize, leftC, rightC,
      isEmptyW, move_red_right, flip_colors, RED, BLACK]

/-- Claim C4.  `rangeKeys` does not return all stored keys in `[lo, hi]`: on
the table `{B: 1, C: 2}` (root `'C'`, red left child `'B'`) the guard
`if lo > node.key or hi < node.key: return` of `_keys` prunes the whole tree
at the root because `'B' = hi < 'C'`, so `rangeKeys('A', 'B')` returns `[]`
although `'B'` is stored and `'A' <= 'B' <= 'B'`. -/
theorem C4_rangeKeys_drops_in_range_key :
    ((do let t ← rbPut (.nil : RBNode Char Nat) (some 'B') (some 1)
         rbPut t (some 'C') (some 2)).bind
      (fun t => rbRangeKeys t (some 'A') (some 'B'))) = .ok []
  ∧ ((do let t ← rbPut (.nil : RBNode Char Nat) (some 'B') (some 1)
         rbPut t (some 'C') (some 2)).map keysList) = .ok ['B', 'C']
  ∧ 'A' ≤ 'B' ∧ ('B' : Char) ≤ 'B' := by
  refine ⟨rfl, rfl, by decide, by decide⟩

/-- Claim C6.  `floor` and `ceil` do not return the largest key `≤` / smallest
key `≥` the argument: `_floor` (lines 438-443) returns `None` when the
recursive right search misses (instead of the current node) and the current
node when it hits (instead of the found node), and `_ceil` mirrors this.  On
the scenario-1 tree both `floor('D')` and `ceil('D')` raise `IndexError`
instead of returning `'C'` / `'H'`; the same happens already on the singleton
table `{C: 1}`. -/
theorem C6_floor_ceil_inverted :
    scenario1.bind (fun t => rbFloor t (some 'D')) = .error .indexError
  ∧ scenario1.bind (fun t => rbCeil t (some 'D')) = .error .indexError
  ∧ ((rbPut (.nil : RBNode Char Nat) (some 'C') (some 1)).bind
      (fun t => rbFloor t (some 'D'))) = .error .indexError
  ∧ ((rbPut (.nil : RBNode Char Nat) (some 'C') (some 1)).bind
      (fun t => rbCeil t (some 'B'))) = .error .indexError := by
  rw [scenario1_eval]
  refine ⟨rfl, rfl, rfl, rfl⟩

/-- Claim C7.  `minKey()` on the empty table raises the underflow
`IndexError`; `put(None, v)` and `get(None)` raise `ValueError` (the source's
invalid-argument error).  In this embedding an operation that raises returns
no tree at all, so no structural mutation is observable. -/
theorem C7_underflow_and_invalid_argument {K V : Type} [LinearOrder K] :
    rbMinKey (.nil : RBNode K V) = .error .indexError
  ∧ (∀ (t : RBNode K V) (v : Option V), rbPut t none v = .error .valueError)
  ∧ (∀ t : RBNode K V, rbGet t none = .error .valueError) :=
  ⟨rfl, fun _ _ => rfl, fun t => by cases t <;> rfl⟩

/-! ### Specification of `level_order`: keys grouped by depth. -/

/-- Keys of a subtree at depth `d`, listed left to right. -/
def katd : RBNode K V → Nat → List K
  | .nil, _ => []
  | .node k _ _ _ _ _, 0 => [k]
  | .node _ _ l r _ _, d + 1 => katd l d ++ katd r d

/-- Number of levels of a subtree (`0` for `nil`). -/
def depthCount : RBNode K V → Nat
  | .nil => 0
  | .node _ _ l r _ _ => 1 + max (depthCount l) (depthCount r)

/-- Concatenation of the keys of all trees of a queue at one depth. -/
def levelOf (d : Nat) : List (RBNode K V) → List K
  | [] => []
  | t :: q => katd t d ++ levelOf d q

/-- Largest `depthCount` over a queue. -/
def qDepth : List (RBNode K V) → Nat
  | [] => 0
  | t :: q => max (depthCount t) (qDepth q)

theorem katd_zero (k : K) (v : Option V) (l r : RBNode K V) (c : Bool) (s : Nat) :
    katd (RBNode.node k v l r c s) 0 = [k] := rfl

theorem katd_eq_nil_of_le {t : RBNode K V} {d : Nat} (h : depthCount t ≤ d) :
    katd t d = [] := by
  induction t generalizing d with
  | nil => cases d <;> rfl
  | node k v l r c s ihl ihr =>
    cases d with
    | zero => simp [depthCount] at h
    | succ d =>
      simp only [depthCount] at h
      simp only [katd]
      rw [ihl (by omega), ihr (by omega)]
      rfl

theorem levelOf_append (d : Nat) (a b : List (RBNode K V)) :
    levelOf d (a ++ b) = levelOf d a ++ levelOf d b := by
  induction a with
  | nil => rfl
  | cons t a ih => simp [levelOf, ih]

theorem qDepth_append (a b : List (RBNode K V)) :
    qDepth (a ++ b) = max (qDepth a) (qDepth b) := by
  induction a with
  | nil => simp [qDepth]
  | cons t a ih => simp [qDepth, ih]; omega

/-- Keys of a tree at depth `d + 1` are the keys of its pushed children at
depth `d`. -/
theorem katd_succ_pushChildren (t : RBNode K V) (d : Nat) :
    katd t (d + 1) = levelOf d (pushChildren t) := by
  cases t with
  | nil => rfl
  | node k v l r c s =>
    simp only [katd, pushChildren]
    rw [levelOf_append]
    cases l <;> cases r <;> simp [levelOf, katd]

/-- One level down: depth `d + 1` of a queue is depth `d` of the next queue. -/
theorem levelOf_succ_nextQueue (q : List (RBNode K V)) (d : Nat) :
    levelOf (d + 1) q = levelOf d (nextQueue q) := by
  induction q with
  | nil => rfl
  | cons t q ih =>
    simp only [levelOf, nextQueue]
    rw [levelOf_append, ih, katd_succ_pushChildren]

theorem qDepth_pushChildren (t : RBNode K V) (ht : t ≠ .nil) :
    depthCount t = 1 + qDepth (pushChildren t) := by
  cases t with
  | nil => exact absurd rfl ht
  | node k v l r c s =>
    simp only [depthCount, pushChildren]
    rw [qDepth_append]
    cases l <;> cases r <;> simp [qDepth, depthCount] <;> omega

theorem qDepth_nextQueue {q : List (RBNode K V)} (hq : q ≠ [])
    (hnn : ∀ t ∈ q, t ≠ .nil) :
    qDepth q = 1 + qDepth (nextQueue q) := by
  induction q with
  | nil => exact absurd rfl hq
  | cons t q ih =>
    have ht : t ≠ .nil := hnn t (by simp)
    simp only [qDepth, nextQueue]
    rw [qDepth_append, qDepth_pushChildren t ht]
    cases q with
    | nil => simp [qDepth, nextQueue]
    | cons u q' =>
      rw [ih (by simp) (fun x hx => hnn x (by simp [hx]))]
      have : 1 ≤ depthCount t := by
        cases t with
        | nil => exact absurd rfl ht
        | node => simp [depthCount]
      omega

theorem nextQueue_nonNil (q : List (RBNode K V)) :
    ∀ u ∈ nextQueue q, u ≠ .nil := by
  induction q with
  | nil => simp [nextQueue]
  | cons t q ih =>
    intro u hu
    simp only [nextQueue, List.mem_append] at hu
    rcases hu with hu | hu
    · cases t with
      | nil => simp [pushChildren] at hu
      | node k v l r c s =>
        simp only [pushChildren, List.mem_append] at hu
        rcases hu with hu | hu
        · cases l <;> simp_all
        · cases r <;> simp_all
    · exact ih u hu

theorem levelKeys_ok {q : List (RBNode K V)} (hnn : ∀ t ∈ q, t ≠ .nil) :
    levelKeys q = .ok (levelOf 0 q) := by
  induction q with
  | nil => rfl
  | cons t q ih =>
    have ht := hnn t (by simp)
    cases t with
    | nil => exact absurd rfl ht
    | node k v l r c s =>
      simp only [levelKeys, keyOf, exBind_ok]
      rw [ih (fun x hx => hnn x (by simp [hx]))]
      simp [levelOf, katd]

/-- The loop of `level_order` computes, level by level, exactly the keys
grouped by depth. -/
theorem levelLoop_ok (n : Nat) :
    ∀ q : List (RBNode K V), qMeasure q ≤ n → (∀ t ∈ q, t ≠ .nil) →
      levelLoop q = .ok ((List.range (qDepth q)).map (fun d => levelOf d q)) := by
  induction n with
  | zero =>
    intro q hm hnn
    cases q with
    | nil => simp [levelLoop, qDepth]
    | cons t q => simp [qMeasure] at hm
  | succ n ih =>
    intro q hm hnn
    cases q with
    | nil => simp [levelLoop, qDepth]
    | cons t q =>
      rw [levelLoop]
      rw [levelKeys_ok hnn]
      simp only [exBind_ok]
      have hdec : qMeasure (nextQueue (t :: q)) ≤ n := by
        have h1 := qMeasure_nextQueue (t :: q)
        have h2 : 2 * (((t :: q).map count).sum) < qMeasure (t :: q) := by
          simp [qMeasure]
        omega
      rw [ih (nextQueue (t :: q)) hdec (nextQueue_nonNil _)]
      simp only [exBind_ok, exPure_def]
      rw [qDepth_nextQueue (by simp) hnn, Nat.add_comm 1 (qDepth (nextQueue (t :: q))),
        List.range_succ_eq_map, List.map_cons, List.map_map]
      refine congrArg Except.ok (congrArg₂ List.cons rfl ?_)
      apply List.map_congr_left
      intro d _
      simp only [Function.comp_apply, Nat.succ_eq_add_one]
      exact (levelOf_succ_nextQueue (t :: q) d).symm

theorem keysList_node (k : K) (v : Option V) (l r : RBNode K V) (c : Bool) (s : Nat) :
    keysList (RBNode.node k v l r c s) = keysList l ++ k :: keysList r := by
  simp [keysList, entries]

theorem join_map_append_perm (f g : Nat → List K) (xs : List Nat) :
    ((xs.map (fun d => f d ++ g d)).flatten).Perm ((xs.map f).flatten ++ (xs.map g).flatten) := by
  induction xs with
  | nil => simp
  | cons x xs ih =>
    simp only [List.map_cons, List.flatten_cons]
    refine (ih.append_left (f x ++ g x)).trans ?_
    have inner : (g x ++ ((xs.map f).flatten ++ (xs.map g).flatten)).Perm
        ((xs.map f).flatten ++ (g x ++ (xs.map g).flatten)) := by
      rw [← List.append_assoc, ← List.append_assoc]
      exact List.perm_append_comm.append_right _
    rw [List.append_assoc (f x), List.append_assoc (f x)]
    exact inner.append_left (f x)

theorem join_map_range_ext (f : Nat → List K) {n M : Nat} (h : n ≤ M)
    (h0 : ∀ d, n ≤ d → f d = []) :
    (((List.range M).map f)).flatten = (((List.range n).map f)).flatten := by
  induction M with
  | zero =>
    have : n = 0 := by omega
    subst this; rfl
  | succ M ih =>
    rcases Nat.lt_or_ge M n with hlt | hge
    · have : n = M + 1 := by omega
      subst this; rfl
    · rw [List.range_succ, List.map_append, List.flatten_append, ih hge]
      simp [h0 M hge]

/-- The keys of a tree grouped by depth are a permutation of its stored
keys. -/
theorem levels_join_perm (t : RBNode K V) :
    (((List.range (depthCount t)).map (katd t)).flatten).Perm (keysList t) := by
  induction t with
  | nil => simp [depthCount, keysList, entries]
  | node k v l r c s ihl ihr =>
    simp only [depthCount]
    rw [Nat.add_comm 1 (max (depthCount l) (depthCount r)), List.range_succ_eq_map]
    simp only [List.map_cons, List.map_map, List.flatten_cons, katd_zero]
    have hcomp : ((List.range (max (depthCount l) (depthCount r))).map
        (katd (RBNode.node k v l r c s) ∘ Nat.succ))
        = ((List.range (max (depthCount l) (depthCount r))).map
            (fun d => katd l d ++ katd r d)) := by
      apply List.map_congr_left
      intro d _
      rfl
    rw [hcomp, keysList_node]
    have hl2 : (((List.range (max (depthCount l) (depthCount r))).map (katd l))).flatten
        = (((List.range (depthCount l)).map (katd l))).flatten :=
      join_map_range_ext _ (Nat.le_max_left _ _) (fun d hd => katd_eq_nil_of_le hd)
    have hr2 : (((List.range (max (depthCount l) (depthCount r))).map (katd r))).flatten
        = (((List.range (depthCount r)).map (katd r))).flatten :=
      join_map_range_ext _ (Nat.le_max_right _ _) (fun d hd => katd_eq_nil_of_le hd)
    refine ((join_map_append_perm (katd l) (katd r) _).append_left [k]).trans ?_
    rw [hl2, hr2]
    refine ((ihl.append ihr).append_left [k]).trans ?_
    simpa using (@List.perm_middle _ k (keysList l) (keysList r)).symm

/-- Claim C10.  `level_order()` on the empty table dereferences the `None`
root and raises `AttributeError` rather than returning an empty sequence
(the initial queue is `deque([self.root])`); on every non-empty tree it
returns the stored keys grouped by depth — level `d` of the result is
`katd t d`, the keys at depth `d` listed left to right — and their
concatenation is a permutation of the stored keys, so every stored key
appears exactly once. -/
theorem C10_level_order {K V : Type} :
    rbLevelOrder (.nil : RBNode K V) = .error .attributeError
  ∧ ∀ t : RBNode K V, t ≠ .nil →
      rbLevelOrder t = .ok ((List.range (depthCount t)).map (katd t))
      ∧ (((List.range (depthCount t)).map (katd t)).flatten).Perm (keysList t) := by
  constructor
  · simp [rbLevelOrder, levelLoop, levelKeys, keyOf]
  · intro t ht
    refine ⟨?_, levels_join_perm t⟩
    have h := levelLoop_ok (qMeasure [t]) [t] le_rfl (by simpa using ht)
    rw [rbLevelOrder, h]
    have hq : qDepth [t] = depthCount t := by simp [qDepth]
    rw [hq]
    refine congrArg Except.ok (List.map_congr_left ?_)
    intro d _
    simp [levelOf]

/-- Witness for claim C10: the theorem applied to the one-node table. -/
theorem C10_witness :
    rbLevelOrder (RBNode.node 'A' (some (1 : Nat)) .nil .nil false 1) = .ok [['A']] :=
  ((C10_level_order.2 (RBNode.node 'A' (some 1) .nil .nil false 1) (by decide)).1).trans rfl

/-! ### Association-list specification layer for `put`/`get`. -/

/-- The `Prop`-level BST-order invariant: the in-order key list is strictly
increasing. -/
def IsBSTp [LinearOrder K] (t : RBNode K V) : Prop := (keysList t).Pairwise (· < ·)

/-- Sorted-association-list insertion-or-update, the effect `_put` has on
`entries`. -/
def insUpd [LinearOrder K] : List (K × Option V) → K → Option V → List (K × Option V)
  | [], k, v => [(k, v)]
  | (a, b) :: es, k, v =>
    if k < a then (k, v) :: (a, b) :: es
    else if a < k then (a, b) :: insUpd es k v
    else (k, v) :: es

/-- First-match association lookup, the effect `_get` has on `entries`. -/
def lookupE [DecidableEq K] : List (K × Option V) → K → Option V
  | [], _ => none
  | (a, b) :: es, k => if k = a then b else lookupE es k

section ListLemmas

variable [LinearOrder K]

theorem mem_insUpd {es : List (K × Option V)} {k : K} {v : Option V} {p : K × Option V}
    (h : p ∈ insUpd es k v) : p = (k, v) ∨ p ∈ es := by
  induction es with
  | nil => simpa [insUpd] using h
  | cons e es ih =>
    obtain ⟨a, b⟩ := e
    simp only [insUpd] at h
    split at h
    · rcases List.mem_cons.mp h with h | h
      · exact Or.inl h
      · exact Or.inr h
    · split at h
      · rcases List.mem_cons.mp h with h | h
        · exact Or.inr (by simp [h])
        · rcases ih h with h | h
          · exact Or.inl h
          · exact Or.inr (by simp [h])
      · rcases List.mem_cons.mp h with h | h
        · exact Or.inl h
        · exact Or.inr (by simp [h])

theorem keys_insUpd {es : List (K × Option V)} {k : K} {v : Option V} {a : K} :
    a ∈ (insUpd es k v).map Prod.fst ↔ a = k ∨ a ∈ es.map Prod.fst := by
  induction es with
  | nil => simp [insUpd]
  | cons e es ih =>
    obtain ⟨x, b⟩ := e
    simp only [insUpd]
    split
    · simp [or_comm, or_assoc, or_left_comm]
    · split
      · simp only [List.map_cons, List.mem_cons, ih]
        tauto
      · have hx : k = x := le_antisymm (not_lt.mp (by assumption)) (not_lt.mp (by assumption))
        subst hx
        simp only [List.map_cons, List.mem_cons]
        tauto

theorem pairwise_insUpd {es : List (K × Option V)} {k : K} {v : Option V}
    (h : (es.map Prod.fst).Pairwise (· < ·)) :
    ((insUpd es k v).map Prod.fst).Pairwise (· < ·) := by
  induction es with
  | nil => simp [insUpd]
  | cons e es ih =>
    obtain ⟨a, b⟩ := e
    simp only [List.map_cons, List.pairwise_cons] at h
    simp only [insUpd]
    split
    · simp only [List.map_cons, List.pairwise_cons]
      refine ⟨?_, h.1, h.2⟩
      intro x hx
      rcases List.mem_cons.mp hx with hx | hx
      · simpa [hx] using (by assumption : k < a)
      · exact lt_trans (by assumption) (h.1 x hx)
    · split
      · simp only [List.map_cons, List.pairwise_cons]
        refine ⟨?_, ih h.2⟩
        intro x hx
        rcases keys_insUpd.mp hx with hx | hx
        · subst hx; assumption
        · exact h.1 x hx
      · have hx : k = a := le_antisymm (not_lt.mp (by assumption)) (not_lt.mp (by assumption))
        subst hx
        simp only [List.map_cons, List.pairwise_cons]
        exact h
 
theorem length_insUpd {es : List (K × Option V)} {k : K} {v : Option V}
    (h : (es.map Prod.fst).Pairwise (· < ·)) :
    (insUpd es k v).length = es.length + (if k ∈ es.map Prod.fst then 0 else 1) := by
  induction es with
  | nil => simp [insUpd]
  | cons e es ih =>
    obtain ⟨a, b⟩ := e
    simp only [List.map_cons, List.pairwise_cons] at h
    simp only [insUpd]
    split
    · have hk : k ∉ (((a, b) :: es).map Prod.fst) := by
        simp only [List.map_cons, List.mem_cons]
        rintro (rfl | hx)
        · exact absurd (by assumption) (lt_irrefl k)
        · exact absurd (lt_trans (by assumption) (h.1 k hx)) (lt_irrefl k)
      simp only [List.map_cons] at hk
      simp [hk]
    · split
      · have hka : ¬(k = a) := fun he => absurd (he ▸ (by assumption : a < k)) (lt_irrefl a)
        simp only [List.length_cons, ih h.2, List.map_cons, List.mem_cons]
        simp only [hka, false_or]
        split <;> omega
      · have hx : k = a := le_antisymm (not_lt.mp (by assumption)) (not_lt.mp (by assumption))
        subst hx
        simp

theorem lookupE_insUpd_self {es : List (K × Option V)} {k : K} {v : Option V} :
    lookupE (insUpd es k v) k = v := by
  induction es with
  | nil => simp [insUpd, lookupE]
  | cons e es ih =>
    obtain ⟨a, b⟩ := e
    simp only [insUpd]
    split
    · simp [lookupE]
    · split
      · have hka : ¬(k = a) := fun he => absurd (he ▸ (by assumption : a < k)) (lt_irrefl a)
        simp [lookupE, hka, ih]
      · simp [lookupE]

theorem lookupE_insUpd_other {es : List (K × Option V)} {k k' : K} {v : Option V}
    (hne : k' ≠ k) : lookupE (insUpd es k v) k' = lookupE es k' := by
  induction es with
  | nil => simp [insUpd, lookupE, hne]
  | cons e es ih =>
    obtain ⟨a, b⟩ := e
    simp only [insUpd]
    split
    · simp [lookupE, hne]
    · split
      · by_cases hk'a : k' = a <;> simp [lookupE, hk'a, ih]
      · have hx : k = a := le_antisymm (not_lt.mp (by assumption)) (not_lt.mp (by assumption))
        subst hx
        simp [lookupE, hne]

theorem insUpd_append_right {es1 es2 : List (K × Option V)} {k : K} {v : Option V}
    (h : ∀ p ∈ es2, k < p.1) :
    insUpd (es1 ++ es2) k v = insUpd es1 k v ++ es2 := by
  induction es1 with
  | nil =>
    cases es2 with
    | nil => rfl
    | cons e es =>
      obtain ⟨a, b⟩ := e
      have := h (a, b) (by simp)
      simp [insUpd, this]
  | cons e es1 ih =>
    obtain ⟨a, b⟩ := e
    simp only [List.cons_append, insUpd]
    split
    · rfl
    · split
      · rw [List.append_eq, ih]
        simp
      · rfl

theorem insUpd_append_left {es1 es2 : List (K × Option V)} {k : K} {v : Option V}
    (h : ∀ p ∈ es1, p.1 < k) :
    insUpd (es1 ++ es2) k v = es1 ++ insUpd es2 k v := by
  induction es1 with
  | nil => rfl
  | cons e es1 ih =>
    obtain ⟨a, b⟩ := e
    have ha : a < k := h (a, b) (by simp)
    have h1 : ¬(k < a) := not_lt.mpr (le_of_lt ha)
    simp only [List.cons_append, insUpd, h1, ha, if_false, if_true]
    rw [List.append_eq, ih (fun p hp => h p (by simp [hp]))]

theorem lookupE_append_of_none {es1 es2 : List (K × Option V)} {k : K}
    (h : lookupE es2 k = none) :
    lookupE (es1 ++ es2) k = lookupE es1 k := by
  induction es1 with
  | nil => simpa [lookupE]
  | cons e es1 ih =>
    obtain ⟨a, b⟩ := e
    by_cases hk : k = a <;> simp [lookupE, hk, ih]

theorem lookupE_append_of_not_mem {es1 es2 : List (K × Option V)} {k : K}
    (h : k ∉ es1.map Prod.fst) :
    lookupE (es1 ++ es2) k = lookupE es2 k := by
  induction es1 with
  | nil => rfl
  | cons e es1 ih =>
    obtain ⟨a, b⟩ := e
    simp only [List.map_cons, List.mem_cons] at h
    push_neg at h
    simp [lookupE, h.1, ih h.2]

theorem lookupE_none_of_not_mem {es : List (K × Option V)} {k : K}
    (h : k ∉ es.map Prod.fst) : lookupE es k = none := by
  induction es with
  | nil => rfl
  | cons e es ih =>
    obtain ⟨a, b⟩ := e
    simp only [List.map_cons, List.mem_cons] at h
    push_neg at h
    simp [lookupE, h.1, ih h.2]

theorem lookupE_isSome_mem {es : List (K × Option V)} {k : K}
    (hnn : ∀ p ∈ es, p.2 ≠ none) (hmem : k ∈ es.map Prod.fst) :
    lookupE es k ≠ none := by
  induction es with
  | nil => simp at hmem
  | cons e es ih =>
    obtain ⟨a, b⟩ := e
    by_cases hk : k = a
    · simpa [lookupE, hk] using hnn (a, b) (by simp)
    · simp only [List.map_cons, List.mem_cons] at hmem
      rcases hmem with h | h
      · exact absurd h hk
      · simpa [lookupE, hk] using ih (fun p hp => hnn p (by simp [hp])) h

end ListLemmas

/-! ### BST decomposition and the `_get` specification. -/

theorem isBSTp_node [LinearOrder K] {k : K} {v : Option V} {l r : RBNode K V}
    {c : Bool} {s : Nat} :
    IsBSTp (RBNode.node k v l r c s) ↔
      IsBSTp l ∧ IsBSTp r ∧ (∀ x ∈ keysList l, x < k) ∧ (∀ y ∈ keysList r, k < y) := by
  constructor
  · intro h
    rw [IsBSTp, keysList_node, List.pairwise_append] at h
    obtain ⟨hl, hkr, hcross⟩ := h
    rw [List.pairwise_cons] at hkr
    exact ⟨hl, hkr.2, fun x hx => hcross x hx k (by simp), hkr.1⟩
  · rintro ⟨hl, hr, hlk, hkr⟩
    rw [IsBSTp, keysList_node, List.pairwise_append, List.pairwise_cons]
    refine ⟨hl, ⟨hkr, hr⟩, ?_⟩
    intro x hx y hy
    rcases List.mem_cons.mp hy with rfl | hy
    · exact hlk x hx
    · exact lt_trans (hlk x hx) (hkr y hy)

theorem entries_node (k : K) (v : Option V) (l r : RBNode K V) (c : Bool) (s : Nat) :
    entries (RBNode.node k v l r c s) = entries l ++ (k, v) :: entries r := rfl

theorem rbGet__spec [LinearOrder K] {t : RBNode K V} (hb : IsBSTp t) (k : K) :
    rbGet_ t (some k) = .ok (lookupE (entries t) k) := by
  induction t with
  | nil => rfl
  | node nk nv l r c s ihl ihr =>
    rw [isBSTp_node] at hb
    obtain ⟨hl, hr, hlk, hkr⟩ := hb
    rcases lt_trichotomy k nk with hlt | heq | hgt
    · rw [entries_node, lookupE_append_of_none]
      · simpa [rbGet_, hlt] using ihl hl
      · refine lookupE_none_of_not_mem ?_
        simp only [List.map_cons, List.mem_cons]
        rintro (rfl | hx)
        · exact absurd hlt (lt_irrefl k)
        · exact absurd (lt_trans hlt (hkr k hx)) (lt_irrefl k)
    · subst heq
      rw [entries_node, lookupE_append_of_not_mem]
      · simp [rbGet_, lookupE]
      · intro hx
        exact absurd (hlk k hx) (lt_irrefl k)
    · rw [entries_node, lookupE_append_of_not_mem]
      · have hne : ¬(k = nk) := fun he => absurd (he ▸ hgt) (lt_irrefl nk)
        simp only [lookupE, hne, if_false]
        simpa [rbGet_, hgt, not_lt.mpr (le_of_lt hgt)] using ihr hr
      · intro hx
        exact absurd (lt_trans (hlk k hx) hgt) (lt_irrefl k)

/-! ### Entry and size preservation of the local transforms. -/

/-- Children-only size consistency: both subtrees have consistent size
fields; the root's own field may be stale (as it is mid-`_put`). -/
def sok2 : RBNode K V → Bool
  | .nil => true
  | .node _ _ l r _ _ => sizeOkB l && sizeOkB r

theorem sizeOkB_node {k : K} {v : Option V} {l r : RBNode K V} {c : Bool} {s : Nat} :
    sizeOkB (RBNode.node k v l r c s) = true ↔
      s = 1 + nodeSize l + nodeSize r ∧ sizeOkB l = true ∧ sizeOkB r = true := by
  simp [sizeOkB, Bool.and_eq_true, and_assoc, Nat.beq_eq_true_eq]

theorem sok2_of_sizeOkB {t : RBNode K V} (h : sizeOkB t = true) : sok2 t = true := by
  cases t with
  | nil => rfl
  | node k v l r c s =>
    rw [sizeOkB_node] at h
    simp [sok2, h.2.1, h.2.2]

theorem entries_rotate_left {t u : RBNode K V} (h : rotate_left t = .ok u) :
    entries u = entries t := by
  unfold rotate_left at h
  split at h
  · split at h
    · cases h; simp [entries_node, List.append_assoc]
    · cases h
  · cases h

theorem entries_rotate_right {t u : RBNode K V} (h : rotate_right t = .ok u) :
    entries u = entries t := by
  unfold rotate_right at h
  split at h
  · split at h
    · cases h; simp [entries_node, List.append_assoc]
    · cases h
  · cases h

theorem entries_flip_colors {t u : RBNode K V} (h : flip_colors t = .ok u) :
    entries u = entries t := by
  unfold flip_colors at h
  split at h
  · cases h; simp [entries_node]
  · cases h

theorem entries_updateSize (t : RBNode K V) : entries (updateSize t) = entries t := by
  cases t <;> rfl

theorem entries_move_red_left {t u : RBNode K V} (h : move_red_left t = .ok u) :
    entries u = entries t := by
  unfold move_red_left at h
  cases hf : flip_colors t with
  | error e => rw [hf] at h; cases h
  | ok t1 =>
    rw [hf] at h
    have he1 := entries_flip_colors hf
    simp only [exBind_ok] at h
    match t1, he1 with
    | .nil, he1 => cases h
    | .node k v l r c s, he1 =>
      match r, he1 with
      | .nil, he1 => cases h
      | .node rk rv rl rr rc rs, he1 =>
        dsimp only at h
        split at h
        · cases hr2 : rotate_right (.node rk rv rl rr rc rs) with
          | error e => rw [hr2] at h; cases h
          | ok r2 =>
            rw [hr2] at h
            simp only [exBind_ok] at h
            cases hl2 : rotate_left (.node k v l r2 c s) with
            | error e => rw [hl2] at h; cases h
            | ok h2 =>
              rw [hl2] at h
              simp only [exBind_ok] at h
              have e3 := entries_flip_colors h
              have e2 := entries_rotate_left hl2
              have e1 := entries_rotate_right hr2
              rw [e3, e2, entries_node, e1, ← entries_node k v l (.node rk rv rl rr rc rs) c s,
                he1]
        · cases h
          rw [← he1]
  
theorem entries_move_red_right {t u : RBNode K V} (h : move_red_right t = .ok u) :
    entries u = entries t := by
  unfold move_red_right at h
  cases hf : flip_colors t with
  | error e => rw [hf] at h; cases h
  | ok t1 =>
    rw [hf] at h
    have he1 := entries_flip_colors hf
    simp only [exBind_ok] at h
    match t1, he1 with
    | .nil, he1 => cases h
    | .node k v l r c s, he1 =>
      match l, he1 with
      | .nil, he1 => cases h
      | .node lk lv ll lr lc ls, he1 =>
        dsimp only at h
        split at h
        · cases hr2 : rotate_right (.node k v (.node lk lv ll lr lc ls) r c s) with
          | error e => rw [hr2] at h; cases h
          | ok h2 =>
            rw [hr2] at h
            simp only [exBind_ok] at h
            have e3 := entries_flip_colors h
            have e1 := entries_rotate_right hr2
            rw [e3, e1, he1]
        · cases h
          rw [← he1]

theorem ite_ok_entries {c : Bool} {F : RBNode K V → Except Err (RBNode K V)}
    {t u : RBNode K V}
    (hF : F t = .ok u → entries u = entries t)
    (h : (if c then F t else Except.ok t) = .ok u) : entries u = entries t := by
  split at h
  · exact hF h
  · exact congrArg entries (Except.ok.inj h).symm

theorem entries_balance {t u : RBNode K V} (h : balance t = .ok u) :
    entries u = entries t := by
  match t with
  | .nil => cases h
  | .node k v l r c s =>
    simp only [balance] at h
    cases h1 : (if isRed r && !isRed l then rotate_left (RBNode.node k v l r c s)
        else Except.ok (RBNode.node k v l r c s)) with
    | error e => rw [h1] at h; cases h
    | ok t1 =>
      rw [h1] at h
      dsimp only at h
      have e1 : entries t1 = entries (RBNode.node k v l r c s) :=
        ite_ok_entries entries_rotate_left h1
      cases h2 : (if isRed t1.leftC && isRed t1.leftC.leftC then rotate_right t1
          else Except.ok t1) with
      | error e => rw [h2] at h; cases h
      | ok t2 =>
        rw [h2] at h
        dsimp only at h
        have e2 : entries t2 = entries t1 := ite_ok_entries entries_rotate_right h2
        cases h3 : (if isRed t2.leftC && isRed t2.rightC then flip_colors t2
            else Except.ok t2) with
        | error e => rw [h3] at h; cases h
        | ok t3 =>
          rw [h3] at h
          dsimp only at h
          have e3 : entries t3 = entries t2 := ite_ok_entries entries_flip_colors h3
          cases h
          rw [entries_updateSize, e3, e2, e1]

theorem ite_ok_imp {P : RBNode K V → Prop} {c : Bool}
    {F : RBNode K V → Except Err (RBNode K V)} {t u : RBNode K V}
    (hF : F t = .ok u → P t → P u)
    (h : (if c then F t else Except.ok t) = .ok u) : P t → P u := by
  split at h
  · exact hF h
  · intro hp; rwa [← Except.ok.inj h]

theorem nodeSize_node (k : K) (v : Option V) (l r : RBNode K V) (c : Bool) (s : Nat) :
    nodeSize (RBNode.node k v l r c s) = s := rfl

theorem nodeSize_eq_count {t : RBNode K V} (h : sizeOkB t = true) : nodeSize t = count t := by
  induction t with
  | nil => rfl
  | node k v l r c s ihl ihr =>
    rw [sizeOkB_node] at h
    show s = count (RBNode.node k v l r c s)
    rw [h.1, ihl h.2.1, ihr h.2.2]
    rfl

theorem nodeSize_rotate_left {t u : RBNode K V} (h : rotate_left t = .ok u) :
    nodeSize u = nodeSize t := by
  unfold rotate_left at h
  split at h
  · split at h
    · cases h; rfl
    · cases h
  · cases h

theorem nodeSize_rotate_right {t u : RBNode K V} (h : rotate_right t = .ok u) :
    nodeSize u = nodeSize t := by
  unfold rotate_right at h
  split at h
  · split at h
    · cases h; rfl
    · cases h
  · cases h

theorem nodeSize_flip_colors {t u : RBNode K V} (h : flip_colors t = .ok u) :
    nodeSize u = nodeSize t := by
  unfold flip_colors at h
  split at h
  · cases h; rfl
  · cases h

theorem sizeOkB_flip_colors {t u : RBNode K V} (h : flip_colors t = .ok u)
    (hs : sizeOkB t = true) : sizeOkB u = true := by
  unfold flip_colors at h
  split at h
  · cases h
    simp only [sizeOkB_node, nodeSize_node] at hs ⊢
    exact hs
  · cases h

theorem sok2_flip_colors {t u : RBNode K V} (h : flip_colors t = .ok u)
    (hs : sok2 t = true) : sok2 u = true := by
  unfold flip_colors at h
  split at h
  · cases h
    simp only [sok2, Bool.and_eq_true, sizeOkB_node, nodeSize_node] at hs ⊢
    exact hs
  · cases h

theorem sok2_rotate_left {t u : RBNode K V} (h : rotate_left t = .ok u)
    (hs : sok2 t = true) : sok2 u = true := by
  unfold rotate_left at h
  split at h
  · split at h
    · cases h
      simp only [sok2, Bool.and_eq_true, sizeOkB_node, nodeSize_node] at hs ⊢
      obtain ⟨hl, hr⟩ := hs
      exact ⟨⟨trivial, hl, hr.2.1⟩, hr.2.2⟩
    · cases h
  · cases h

theorem sok2_rotate_right {t u : RBNode K V} (h : rotate_right t = .ok u)
    (hs : sok2 t = true) : sok2 u = true := by
  unfold rotate_right at h
  split at h
  · split at h
    · cases h
      simp only [sok2, Bool.and_eq_true, sizeOkB_node, nodeSize_node] at hs ⊢
      obtain ⟨hl, hr⟩ := hs
      exact ⟨hl.2.1, trivial, hl.2.2, hr⟩
    · cases h
  · cases h

theorem sizeOkB_rotate_left {t u : RBNode K V} (h : rotate_left t = .ok u)
    (hs : sizeOkB t = true) : sizeOkB u = true := by
  unfold rotate_left at h
  split at h
  · split at h
    · cases h
      simp only [sizeOkB_node, nodeSize_node] at hs ⊢
      obtain ⟨hse, hl, hr⟩ := hs
      obtain ⟨hre, hrl, hrr⟩ := hr
      exact ⟨by omega, ⟨trivial, hl, hrl⟩, hrr⟩
    · cases h
  · cases h

theorem sizeOkB_rotate_right {t u : RBNode K V} (h : rotate_right t = .ok u)
    (hs : sizeOkB t = true) : sizeOkB u = true := by
  unfold rotate_right at h
  split at h
  · split at h
    · cases h
      simp only [sizeOkB_node, nodeSize_node] at hs ⊢
      obtain ⟨hse, hl, hr⟩ := hs
      obtain ⟨hle, hll, hlr⟩ := hl
      exact ⟨by omega, hll, trivial, hlr, hr⟩
    · cases h
  · cases h

theorem sok2_updateSize {t : RBNode K V} (hs : sok2 t = true) :
    sizeOkB (updateSize t) = true := by
  cases t with
  | nil => rfl
  | node k v l r c s =>
    simp only [sok2, Bool.and_eq_true] at hs
    rw [updateSize, sizeOkB_node]
    exact ⟨rfl, hs.1, hs.2⟩

theorem sizeOkB_move_red_left {t u : RBNode K V} (h : move_red_left t = .ok u)
    (hs : sizeOkB t = true) : sizeOkB u = true := by
  unfold move_red_left at h
  cases hf : flip_colors t with
  | error e => rw [hf] at h; cases h
  | ok t1 =>
    rw [hf] at h
    have hs1 := sizeOkB_flip_colors hf hs
    simp only [exBind_ok] at h
    match t1, hs1 with
    | .nil, hs1 => cases h
    | .node k v l r c s, hs1 =>
      match r, hs1 with
      | .nil, hs1 => cases h
      | .node rk rv rl rr rc rs, hs1 =>
        dsimp only at h
        split at h
        · cases hr2 : rotate_right (.node rk rv rl rr rc rs) with
          | error e => rw [hr2] at h; cases h
          | ok r2 =>
            rw [hr2] at h
            simp only [exBind_ok] at h
            cases hl2 : rotate_left (.node k v l r2 c s) with
            | error e => rw [hl2] at h; cases h
            | ok h2 =>
              rw [hl2] at h
              simp only [exBind_ok] at h
              rw [sizeOkB_node] at hs1
              have hr2s : sizeOkB r2 = true := sizeOkB_rotate_right hr2 hs1.2.2
              have hmid : sizeOkB (RBNode.node k v l r2 c s) = true := by
                rw [sizeOkB_node]
                refine ⟨?_, hs1.2.1, hr2s⟩
                rw [hs1.1, nodeSize_rotate_right hr2]
              exact sizeOkB_flip_colors h (sizeOkB_rotate_left hl2 hmid)
        · cases h
          exact hs1

theorem sizeOkB_move_red_right {t u : RBNode K V} (h : move_red_right t = .ok u)
    (hs : sizeOkB t = true) : sizeOkB u = true := by
  unfold move_red_right at h
  cases hf : flip_colors t with
  | error e => rw [hf] at h; cases h
  | ok t1 =>
    rw [hf] at h
    have hs1 := sizeOkB_flip_colors hf hs
    simp only [exBind_ok] at h
    match t1, hs1 with
    | .nil, hs1 => cases h
    | .node k v l r c s, hs1 =>
      match l, hs1 with
      | .nil, hs1 => cases h
      | .node lk lv ll lr lc ls, hs1 =>
        dsimp only at h
        split at h
        · cases hr2 : rotate_right (.node k v (.node lk lv ll lr lc ls) r c s) with
          | error e => rw [hr2] at h; cases h
          | ok h2 =>
            rw [hr2] at h
            simp only [exBind_ok] at h
            exact sizeOkB_flip_colors h (sizeOkB_rotate_right hr2 hs1)
        · cases h
          exact hs1

theorem sizeOkB_balance {t u : RBNode K V} (h : balance t = .ok u)
    (hs : sok2 t = true) : sizeOkB u = true := by
  match t with
  | .nil => cases h
  | .node k v l r c s =>
    simp only [balance] at h
    cases h1 : (if isRed r && !isRed l then rotate_left (RBNode.node k v l r c s)
        else Except.ok (RBNode.node k v l r c s)) with
    | error e => rw [h1] at h; cases h
    | ok t1 =>
      rw [h1] at h
      dsimp only at h
      have e1 : sok2 t1 = true := ite_ok_imp (P := fun x => sok2 x = true)
        (fun hf hp => sok2_rotate_left hf hp) h1 hs
      cases h2 : (if isRed t1.leftC && isRed t1.leftC.leftC then rotate_right t1
          else Except.ok t1) with
      | error e => rw [h2] at h; cases h
      | ok t2 =>
        rw [h2] at h
        dsimp only at h
        have e2 : sok2 t2 = true := ite_ok_imp (P := fun x => sok2 x = true)
          (fun hf hp => sok2_rotate_right hf hp) h2 e1
        cases h3 : (if isRed t2.leftC && isRed t2.rightC then flip_colors t2
            else Except.ok t2) with
        | error e => rw [h3] at h; cases h
        | ok t3 =>
          rw [h3] at h
          dsimp only at h
          have e3 : sok2 t3 = true := ite_ok_imp (P := fun x => sok2 x = true)
            (fun hf hp => sok2_flip_colors hf hp) h3 e2
          cases h
          exact sok2_updateSize e3

/-! ### The `_put` characterization. -/

theorem rbPut__facts [LinearOrder K] {t t' : RBNode K V} {k : K} {v : V}
    (h : rbPut_ t k v = .ok t') (hb : IsBSTp t) (hs : sizeOkB t = true) :
    entries t' = insUpd (entries t) k (some v) ∧ sizeOkB t' = true := by
  induction t generalizing t' with
  | nil =>
    simp only [rbPut_] at h
    cases h
    exact ⟨rfl, rfl⟩
  | node nk nv l r c s ihl ihr =>
    rw [isBSTp_node] at hb
    obtain ⟨hbl, hbr, hlk, hkr⟩ := hb
    rw [sizeOkB_node] at hs
    obtain ⟨hse, hsl, hsr⟩ := hs
    simp only [rbPut_] at h
    rcases lt_trichotomy k nk with hlt | heq | hgt
    · rw [if_pos hlt] at h
      cases hpl : rbPut_ l k v with
      | error e => rw [hpl] at h; dsimp only at h; cases h
      | ok l2 =>
        rw [hpl] at h
        dsimp only at h
        obtain ⟨hel2, hsl2⟩ := ihl hpl hbl hsl
        have hT0e : entries (RBNode.node nk nv l2 r c s)
            = insUpd (entries (RBNode.node nk nv l r c s)) k (some v) := by
          rw [entries_node, entries_node, hel2, insUpd_append_right]
          intro p hp
          rcases List.mem_cons.mp hp with hp | hp
          · rw [hp]; exact hlt
          · exact lt_trans hlt (hkr p.1 (List.mem_map_of_mem Prod.fst hp))
        have hT0s : sok2 (RBNode.node nk nv l2 r c s) = true := by
          simp [sok2, hsl2, hsr]
        cases hf1 : (if isRed (RBNode.node nk nv l2 r c s).rightC && !isRed (RBNode.node nk nv l2 r c s).leftC
            then rotate_left (RBNode.node nk nv l2 r c s) else Except.ok (RBNode.node nk nv l2 r c s)) with
        | error e => rw [hf1] at h; cases h
        | ok t1 =>
          rw [hf1] at h
          dsimp only at h
          have e1 := ite_ok_entries entries_rotate_left hf1
          have s1 := ite_ok_imp (P := fun x => sok2 x = true)
            (fun a b => sok2_rotate_left a b) hf1 hT0s
          cases hf2 : (if isRed t1.leftC && isRed t1.leftC.leftC
              then rotate_right t1 else Except.ok t1) with
          | error e => rw [hf2] at h; cases h
          | ok t2 =>
            rw [hf2] at h
            dsimp only at h
            have e2 := ite_ok_entries entries_rotate_right hf2
            have s2 := ite_ok_imp (P := fun x => sok2 x = true)
              (fun a b => sok2_rotate_right a b) hf2 s1
            cases hf3 : (if isRed t2.leftC && isRed t2.rightC
                then flip_colors t2 else Except.ok t2) with
            | error e => rw [hf3] at h; cases h
            | ok t3 =>
              rw [hf3] at h
              dsimp only at h
              have e3 := ite_ok_entries entries_flip_colors hf3
              have s3 := ite_ok_imp (P := fun x => sok2 x = true)
                (fun a b => sok2_flip_colors a b) hf3 s2
              cases h
              refine ⟨?_, sok2_updateSize s3⟩
              rw [entries_updateSize, e3, e2, e1, hT0e]
    · subst heq
      rw [if_neg (lt_irrefl k), if_neg (lt_irrefl k)] at h
      dsimp only at h
      have hT0e : entries (RBNode.node k (some v) l r c s)
          = insUpd (entries (RBNode.node k nv l r c s)) k (some v) := by
        rw [entries_node, entries_node, insUpd_append_left]
        · congr 1
          simp [insUpd, lt_irrefl]
        · intro p hp
          exact hlk p.1 (List.mem_map_of_mem Prod.fst hp)
      have hT0s : sok2 (RBNode.node k (some v) l r c s) = true := by
        simp [sok2, hsl, hsr]
      cases hf1 : (if isRed (RBNode.node k (some v) l r c s).rightC && !isRed (RBNode.node k (some v) l r c s).leftC
          then rotate_left (RBNode.node k (some v) l r c s) else Except.ok (RBNode.node k (some v) l r c s)) with
      | error e => rw [hf1] at h; cases h
      | ok t1 =>
        rw [hf1] at h
        dsimp only at h
        have e1 := ite_ok_entries entries_rotate_left hf1
        have s1 := ite_ok_imp (P := fun x => sok2 x = true)
          (fun a b => sok2_rotate_left a b) hf1 hT0s
        cases hf2 : (if isRed t1.leftC && isRed t1.leftC.leftC
            then rotate_right t1 else Except.ok t1) with
        | error e => rw [hf2] at h; cases h
        | ok t2 =>
          rw [hf2] at h
          dsimp only at h
          have e2 := ite_ok_entries entries_rotate_right hf2
          have s2 := ite_ok_imp (P := fun x => sok2 x = true)
            (fun a b => sok2_rotate_right a b) hf2 s1
          cases hf3 : (if isRed t2.leftC && isRed t2.rightC
              then flip_colors t2 else Except.ok t2) with
          | error e => rw [hf3] at h; cases h
          | ok t3 =>
            rw [hf3] at h
            dsimp only at h
            have e3 := ite_ok_entries entries_flip_colors hf3
            have s3 := ite_ok_imp (P := fun x => sok2 x = true)
              (fun a b => sok2_flip_colors a b) hf3 s2
            cases h
            refine ⟨?_, sok2_updateSize s3⟩
            rw [entries_updateSize, e3, e2, e1, hT0e]
    · rw [if_neg (lt_asymm hgt), if_pos hgt] at h
      cases hpr : rbPut_ r k v with
      | error e => rw [hpr] at h; dsimp only at h; cases h
      | ok r2 =>
        rw [hpr] at h
        dsimp only at h
        obtain ⟨her2, hsr2⟩ := ihr hpr hbr hsr
        have hT0e : entries (RBNode.node nk nv l r2 c s)
            = insUpd (entries (RBNode.node nk nv l r c s)) k (some v) := by
          rw [entries_node, entries_node, her2,
            insUpd_append_left (fun p hp =>
              lt_trans (hlk p.1 (List.mem_map_of_mem Prod.fst hp)) hgt)]
          congr 1
          simp [insUpd, lt_asymm hgt, hgt]
        have hT0s : sok2 (RBNode.node nk nv l r2 c s) = true := by
          simp [sok2, hsl, hsr2]
        cases hf1 : (if isRed (RBNode.node nk nv l r2 c s).rightC && !isRed (RBNode.node nk nv l r2 c s).leftC
            then rotate_left (RBNode.node nk nv l r2 c s) else Except.ok (RBNode.node nk nv l r2 c s)) with
        | error e => rw [hf1] at h; cases h
        | ok t1 =>
          rw [hf1] at h
          dsimp only at h
          have e1 := ite_ok_entries entries_rotate_left hf1
          have s1 := ite_ok_imp (P := fun x => sok2 x = true)
            (fun a b => sok2_rotate_left a b) hf1 hT0s
          cases hf2 : (if isRed t1.leftC && isRed t1.leftC.leftC
              then rotate_right t1 else Except.ok t1) with
          | error e => rw [hf2] at h; cases h
          | ok t2 =>
            rw [hf2] at h
            dsimp only at h
            have e2 := ite_ok_entries entries_rotate_right hf2
            have s2 := ite_ok_imp (P := fun x => sok2 x = true)
              (fun a b => sok2_rotate_right a b) hf2 s1
            cases hf3 : (if isRed t2.leftC && isRed t2.rightC
                then flip_colors t2 else Except.ok t2) with
            | error e => rw [hf3] at h; cases h
            | ok t3 =>
              rw [hf3] at h
              dsimp only at h
              have e3 := ite_ok_entries entries_flip_colors hf3
              have s3 := ite_ok_imp (P := fun x => sok2 x = true)
                (fun a b => sok2_flip_colors a b) hf3 s2
              cases h
              refine ⟨?_, sok2_updateSize s3⟩
              rw [entries_updateSize, e3, e2, e1, hT0e]

/-! ### Totality of `_put`: the fix-up chain never raises. -/

def isOkNode : Except Err (RBNode K V) → Bool
  | .ok (.node _ _ _ _ _ _) => true
  | _ => false

theorem isOkNode_spec {e : Except Err (RBNode K V)} (h : isOkNode e = true) :
    ∃ k v l r c s, e = .ok (.node k v l r c s) := by
  match e with
  | .error _ => cases h
  | .ok .nil => cases h
  | .ok (.node k v l r c s) => exact ⟨k, v, l, r, c, s, rfl⟩

theorem cond1_isOk {k : K} {v : Option V} {l r : RBNode K V} {c : Bool} {s : Nat} :
    isOkNode (if isRed (RBNode.node k v l r c s).rightC && !isRed (RBNode.node k v l r c s).leftC
      then rotate_left (RBNode.node k v l r c s)
      else Except.ok (RBNode.node k v l r c s)) = true := by
  by_cases hc : (isRed (RBNode.node k v l r c s).rightC
      && !isRed (RBNode.node k v l r c s).leftC) = true
  · rw [if_pos hc]
    have hr : isRed r = true := by
      have h1 := ((Bool.and_eq_true _ _).mp hc).1
      simpa [RBNode.rightC] using h1
    cases r with
    | nil => simp [isRed] at hr
    | node rk rv rl rr rc rs =>
      simp only [isRed] at hr
      simp [rotate_left, hr, isOkNode]
  · rw [if_neg hc]; rfl

theorem cond2_isOk {k : K} {v : Option V} {l r : RBNode K V} {c : Bool} {s : Nat} :
    isOkNode (if isRed (RBNode.node k v l r c s).leftC
        && isRed (RBNode.node k v l r c s).leftC.leftC
      then rotate_right (RBNode.node k v l r c s)
      else Except.ok (RBNode.node k v l r c s)) = true := by
  by_cases hc : (isRed (RBNode.node k v l r c s).leftC
      && isRed (RBNode.node k v l r c s).leftC.leftC) = true
  · rw [if_pos hc]
    have hl : isRed l = true := by
      have h1 := ((Bool.and_eq_true _ _).mp hc).1
      simpa [RBNode.leftC] using h1
    cases l with
    | nil => simp [isRed] at hl
    | node lk lv ll lr lc ls =>
      simp only [isRed] at hl
      simp [rotate_right, hl, isOkNode]
  · rw [if_neg hc]; rfl

theorem cond3_isOk {k : K} {v : Option V} {l r : RBNode K V} {c : Bool} {s : Nat} :
    isOkNode (if isRed (RBNode.node k v l r c s).leftC
        && isRed (RBNode.node k v l r c s).rightC
      then flip_colors (RBNode.node k v l r c s)
      else Except.ok (RBNode.node k v l r c s)) = true := by
  by_cases hc : (isRed (RBNode.node k v l r c s).leftC
      && isRed (RBNode.node k v l r c s).rightC) = true
  · rw [if_pos hc]
    have hl : isRed l = true := by
      have h1 := ((Bool.and_eq_true _ _).mp hc).1
      simpa [RBNode.leftC] using h1
    have hr : isRed r = true := by
      have h1 := ((Bool.and_eq_true _ _).mp hc).2
      simpa [RBNode.rightC] using h1
    cases l with
    | nil => simp [isRed] at hl
    | node lk lv ll lr lc ls =>
      cases r with
      | nil => simp [isRed] at hr
      | node rk rv rl rr rc rs => simp [flip_colors, isOkNode]
  · rw [if_neg hc]; rfl

theorem rbPut__total [LinearOrder K] (t : RBNode K V) (k : K) (v : V) :
    isOkNode (rbPut_ t k v) = true := by
  induction t with
  | nil => rfl
  | node nk nv l r c s ihl ihr =>
    simp only [rbPut_]
    rcases lt_trichotomy k nk with hlt | heq | hgt
    · rw [if_pos hlt]
      obtain ⟨a, b, l2, r2, c2, s2, hpl⟩ := isOkNode_spec ihl
      rw [hpl]
      dsimp only
      obtain ⟨a1, b1, l1, r1, c1, s1, hc1⟩ := isOkNode_spec cond1_isOk
      rw [hc1]
      dsimp only
      obtain ⟨a2, b2, l3, r3, c3, s3, hc2⟩ := isOkNode_spec cond2_isOk
      rw [hc2]
      dsimp only
      obtain ⟨a3, b3, l4, r4, c4, s4, hc3⟩ := isOkNode_spec cond3_isOk
      rw [hc3]
      rfl
    · rw [if_neg (heq ▸ lt_irrefl k), if_neg (heq ▸ lt_irrefl k)]
      dsimp only
      obtain ⟨a1, b1, l1, r1, c1, s1, hc1⟩ := isOkNode_spec cond1_isOk
      rw [hc1]
      dsimp only
      obtain ⟨a2, b2, l3, r3, c3, s3, hc2⟩ := isOkNode_spec cond2_isOk
      rw [hc2]
      dsimp only
      obtain ⟨a3, b3, l4, r4, c4, s4, hc3⟩ := isOkNode_spec cond3_isOk
      rw [hc3]
      rfl
    · rw [if_neg (lt_asymm hgt), if_pos hgt]
      obtain ⟨a, b, l2, r2, c2, s2, hpr⟩ := isOkNode_spec ihr
      rw [hpr]
      dsimp only
      obtain ⟨a1, b1, l1, r1, c1, s1, hc1⟩ := isOkNode_spec cond1_isOk
      rw [hc1]
      dsimp only
      obtain ⟨a2, b2, l3, r3, c3, s3, hc2⟩ := isOkNode_spec cond2_isOk
      rw [hc2]
      dsimp only
      obtain ⟨a3, b3, l4, r4, c4, s4, hc3⟩ := isOkNode_spec cond3_isOk
      rw [hc3]
      rfl

/-! ### Absence of `None` values, and size versus entry count. -/

theorem noNoneB_iff {t : RBNode K V} :
    noNoneB t = true ↔ ∀ p ∈ entries t, p.2 ≠ none := by
  induction t with
  | nil => simp [noNoneB, entries]
  | node k v l r c s ihl ihr =>
    simp only [noNoneB, Bool.and_eq_true, ihl, ihr, Option.isSome_iff_ne_none,
      entries_node, List.mem_append, List.mem_cons]
    constructor
    · rintro ⟨⟨hv, hl⟩, hr⟩ p hp
      rcases hp with hp | hp | hp
      · exact hl p hp
      · rw [hp]; exact hv
      · exact hr p hp
    · intro h
      exact ⟨⟨h (k, v) (Or.inr (Or.inl rfl)), fun p hp => h p (Or.inl hp)⟩,
        fun p hp => h p (Or.inr (Or.inr hp))⟩

theorem count_eq_entries_length (t : RBNode K V) : count t = (entries t).length := by
  induction t with
  | nil => rfl
  | node k v l r c s ihl ihr =>
    show 1 + count l + count r = (entries l ++ (k, v) :: entries r).length
    rw [ihl, ihr, List.length_append, List.length_cons]
    omega

/-! ### The `put` wrapper on a real value. -/

theorem rbPutVal_facts [LinearOrder K] {t : RBNode K V} (k : K) (v : V)
    (hb : IsBSTp t) (hs : sizeOkB t = true) :
    ∃ t', rbPutVal t k v = .ok t' ∧
      entries t' = insUpd (entries t) k (some v) ∧ sizeOkB t' = true ∧
      isRed t' = false := by
  obtain ⟨a, b, l2, r2, c2, s2, hp⟩ := isOkNode_spec (rbPut__total t k v)
  obtain ⟨he0, hs0⟩ := rbPut__facts hp hb hs
  refine ⟨RBNode.node a b l2 r2 BLACK s2, ?_, ?_, ?_, rfl⟩
  · simp [rbPutVal, hp]
  · rw [entries_node]
    rw [entries_node] at he0
    exact he0
  · rw [sizeOkB_node]
    rw [sizeOkB_node] at hs0
    exact hs0

/-- **C8.** For every well-formed map state (strict BST order and consistent
size fields — true of every state the API can build), every key `k` and every
genuine value `v`: `put(k, v)` succeeds, a following `get(k)` returns `v`, and
`size()` is unchanged when `k` was already present and grows by exactly `1`
when `k` is new (an existing key is overwritten in place). -/
theorem C8_put_get_roundtrip [LinearOrder K] (t : RBNode K V) (k : K) (v : V)
    (hb : IsBSTp t) (hs : sizeOkB t = true) :
    ∃ t', rbPut t (some k) (some v) = .ok t' ∧
      rbGet t' (some k) = .ok (some v) ∧
      sizeW t' = (if k ∈ keysList t then sizeW t else sizeW t + 1) := by
  obtain ⟨t', hput, he, hs', _⟩ := rbPutVal_facts k v hb hs
  have hb' : IsBSTp t' := by
    show ((entries t').map Prod.fst).Pairwise (· < ·)
    rw [he]
    exact pairwise_insUpd hb
  refine ⟨t', ?_, ?_, ?_⟩
  · simpa [rbPut] using hput
  · have := rbGet__spec hb' k
    rw [he, lookupE_insUpd_self] at this
    exact this
  · have h1 : sizeW t' = (entries t').length := by
      show nodeSize t' = _
      rw [nodeSize_eq_count hs', count_eq_entries_length]
    have h2 : sizeW t = (entries t).length := by
      show nodeSize t = _
      rw [nodeSize_eq_count hs, count_eq_entries_length]
    rw [h1, h2, he, length_insUpd hb]
    by_cases hm : k ∈ keysList t
    · have hm' : k ∈ (entries t).map Prod.fst := hm
      rw [if_pos hm', if_pos hm, Nat.add_zero]
    · have hm' : k ∉ (entries t).map Prod.fst := hm
      rw [if_neg hm', if_neg hm]

/-- Witness for C8 at the empty table with `k = 0`, `v = 7`. -/
theorem C8_witness :
    ∃ t', rbPut (.nil : RBNode Nat Nat) (some 0) (some 7) = .ok t' ∧
      rbGet t' (some 0) = .ok (some 7) ∧
      sizeW t' = (if 0 ∈ keysList (.nil : RBNode Nat Nat)
        then sizeW (.nil : RBNode Nat Nat) else sizeW (.nil : RBNode Nat Nat) + 1) :=
  C8_put_get_roundtrip .nil 0 7 List.Pairwise.nil rfl

/-! ### What a successful delete does to the entry list and the size fields. -/

theorem rbDeleteMin__facts {t t' : RBNode K V} (h : rbDeleteMin_ t = .ok t')
    (hs : sizeOkB t = true) :
    (entries t').Sublist (entries t).tail ∧ sizeOkB t' = true := by
  suffices H : ∀ n (t t' : RBNode K V), count t ≤ n → rbDeleteMin_ t = .ok t' →
      sizeOkB t = true → (entries t').Sublist (entries t).tail ∧ sizeOkB t' = true by
    exact H (count t) t t' le_rfl h hs
  intro n
  induction n with
  | zero =>
    intro t t' hc h hs
    match t with
    | .nil => simp [rbDeleteMin_] at h
    | .node hk hv hl hr hc0 hs0 => simp [count] at hc
  | succ n ih =>
    intro t t' hc h hs
    match t with
    | .nil => simp [rbDeleteMin_] at h
    | .node hk hv .nil hr hc0 hs0 =>
      simp only [rbDeleteMin_] at h
      cases h
      exact ⟨List.nil_sublist _, rfl⟩
    | .node hk hv (.node lk lv ll lr lc ls) hr hc0 hs0 =>
      simp only [rbDeleteMin_] at h
      split at h
      · cases h
      · cases h
      · rename_i k1 v1 l1 r1 c1 s1 hmv
        have hent1 : entries (RBNode.node k1 v1 l1 r1 c1 s1)
            = entries (RBNode.node hk hv (.node lk lv ll lr lc ls) hr hc0 hs0) := by
          split at hmv
          · exact congrArg entries (Except.ok.inj hmv).symm
          · split at hmv
            · exact congrArg entries (Except.ok.inj hmv).symm
            · exact entries_move_red_left hmv
        have hsz1 : sizeOkB (RBNode.node k1 v1 l1 r1 c1 s1) = true := by
          split at hmv
          · rw [← Except.ok.inj hmv]; exact hs
          · split at hmv
            · rw [← Except.ok.inj hmv]; exact hs
            · exact sizeOkB_move_red_left hmv hs
        have hcnt1 : count (RBNode.node k1 v1 l1 r1 c1 s1)
            = count (RBNode.node hk hv (.node lk lv ll lr lc ls) hr hc0 hs0) := by
          rw [count_eq_entries_length, count_eq_entries_length, hent1]
        cases hrec : rbDeleteMin_ l1 with
        | error e => rw [hrec] at h; cases h
        | ok l2 =>
          rw [hrec] at h
          dsimp only at h
          rw [sizeOkB_node] at hsz1
          obtain ⟨hse1, hsl1, hsr1⟩ := hsz1
          have hcl1 : count l1 ≤ n := by
            simp only [count] at hcnt1 hc
            omega
          obtain ⟨hsub2, hsz2⟩ := ih l1 l2 hcl1 hrec hsl1
          have hokb : sizeOkB t' = true := by
            refine sizeOkB_balance h ?_
            simp [sok2, hsz2, hsr1]
          refine ⟨?_, hokb⟩
          rw [entries_balance h, ← hent1, entries_node, entries_node]
          match l1, hrec, hsub2 with
          | .nil, hrec, _ => simp [rbDeleteMin_] at hrec
          | .node ak av al ar ac as2, hrec, hsub2 =>
            have hne : entries (RBNode.node ak av al ar ac as2) ≠ [] := by
              rw [entries_node]
              simp
            cases hel : entries (RBNode.node ak av al ar ac as2) with
            | nil => exact absurd hel hne
            | cons p ps =>
              rw [hel, List.tail_cons] at hsub2
              exact hsub2.append (List.Sublist.refl _)

theorem rbDeleteMax__facts {t t' : RBNode K V} (h : rbDeleteMax_ t = .ok t')
    (hs : sizeOkB t = true) :
    (entries t').Sublist (entries t) ∧ sizeOkB t' = true := by
  suffices H : ∀ n (t t' : RBNode K V), count t ≤ n → rbDeleteMax_ t = .ok t' →
      sizeOkB t = true → (entries t').Sublist (entries t) ∧ sizeOkB t' = true by
    exact H (count t) t t' le_rfl h hs
  intro n
  induction n with
  | zero =>
    intro t t' hc h hs
    match t with
    | .nil => simp [rbDeleteMax_] at h
    | .node hk hv hl hr hc0 hs0 => simp [count] at hc
  | succ n ih =>
    intro t t' hc h hs
    match t with
    | .nil => simp [rbDeleteMax_] at h
    | .node hk hv hl hr hc0 hs0 =>
      simp only [rbDeleteMax_] at h
      split at h
      · cases h
      · cases h
      · rename_i k1 v1 l1 r1 c1 s1 hrot
        have hent1 : entries (RBNode.node k1 v1 l1 r1 c1 s1)
            = entries (RBNode.node hk hv hl hr hc0 hs0) := by
          split at hrot
          · exact entries_rotate_left hrot
          · exact congrArg entries (Except.ok.inj hrot).symm
        have hsz1 : sizeOkB (RBNode.node k1 v1 l1 r1 c1 s1) = true := by
          split at hrot
          · exact sizeOkB_rotate_left hrot hs
          · rw [← Except.ok.inj hrot]; exact hs
        cases r1 with
        | nil =>
          dsimp only at h
          cases h
          exact ⟨List.nil_sublist _, rfl⟩
        | node rk rv rl rr rc rs =>
          dsimp only at h
          split at h
          · cases h
          · cases h
          · rename_i k2 v2 l2 r2 c2 s2 hmv
            have hent2 : entries (RBNode.node k2 v2 l2 r2 c2 s2)
                = entries (RBNode.node k1 v1 l1 (.node rk rv rl rr rc rs) c1 s1) := by
              split at hmv
              · exact congrArg entries (Except.ok.inj hmv).symm
              · split at hmv
                · exact congrArg entries (Except.ok.inj hmv).symm
                · exact entries_move_red_right hmv
            have hsz2 : sizeOkB (RBNode.node k2 v2 l2 r2 c2 s2) = true := by
              split at hmv
              · rw [← Except.ok.inj hmv]; exact hsz1
              · split at hmv
                · rw [← Except.ok.inj hmv]; exact hsz1
                · exact sizeOkB_move_red_right hmv hsz1
            cases hrec : rbDeleteMax_ r2 with
            | error e => rw [hrec] at h; cases h
            | ok r3 =>
              rw [hrec] at h
              dsimp only at h
              rw [sizeOkB_node] at hsz2
              obtain ⟨hse2, hsl2, hsr2⟩ := hsz2
              have hcr2 : count r2 ≤ n := by
                have h1 : count (RBNode.node k2 v2 l2 r2 c2 s2)
                    = count (RBNode.node k1 v1 l1 (.node rk rv rl rr rc rs) c1 s1) := by
                  rw [count_eq_entries_length, count_eq_entries_length, hent2]
                have h2 : count (RBNode.node k1 v1 l1 (.node rk rv rl rr rc rs) c1 s1)
                    = count (RBNode.node hk hv hl hr hc0 hs0) := by
                  rw [count_eq_entries_length, count_eq_entries_length, hent1]
                simp only [count] at h1 h2 hc
                omega
              obtain ⟨hsub3, hsz3⟩ := ih r2 r3 hcr2 hrec hsr2
              refine ⟨?_, sizeOkB_balance h (by simp [sok2, hsl2, hsz3])⟩
              rw [entries_balance h, ← hent1, ← hent2, entries_node, entries_node]
              exact (List.Sublist.refl _).append (List.Sublist.cons₂ _ hsub3)

theorem rbMinNode_entries {t : RBNode K V} {xk : K} {xv : Option V}
    {ml mr : RBNode K V} {mc : Bool} {ms : Nat}
    (h : rbMinNode t = .ok (.node xk xv ml mr mc ms)) :
    ∃ rest, entries t = (xk, xv) :: rest := by
  induction t with
  | nil => simp [rbMinNode] at h
  | node tk tv tl tr tc ts ihl ihr =>
    match tl, h, ihl with
    | .nil, h, _ =>
      simp only [rbMinNode] at h
      have h2 := Except.ok.inj h
      injection h2 with e1 e2 e3 e4 e5 e6
      subst e1
      subst e2
      exact ⟨entries tr, by rw [entries_node]; rfl⟩
    | .node lk lv ll lr lc ls, h, ihl =>
      simp only [rbMinNode] at h
      obtain ⟨rest, hrest⟩ := ihl h
      exact ⟨rest ++ (tk, tv) :: entries tr, by rw [entries_node, hrest]; rfl⟩

theorem rbDelete__facts [LinearOrder K] {t t' : RBNode K V} {k : K}
    (h : rbDelete_ t k = .ok t') (hs : sizeOkB t = true) :
    (entries t').Sublist (entries t) ∧ sizeOkB t' = true := by
  suffices H : ∀ n (t t' : RBNode K V), count t ≤ n → rbDelete_ t k = .ok t' →
      sizeOkB t = true → (entries t').Sublist (entries t) ∧ sizeOkB t' = true by
    exact H (count t) t t' le_rfl h hs
  intro n
  induction n with
  | zero =>
    intro t t' hc h hs
    match t with
    | .nil => simp only [rbDelete_] at h; cases h
    | .node hk hv hl hr hc0 hs0 => simp [count] at hc
  | succ n ih =>
    intro t t' hc h hs
    match t with
    | .nil => simp only [rbDelete_] at h; cases h
    | .node hk hv .nil hr hc0 hs0 =>
      simp only [rbDelete_] at h
      split at h
      · cases h
      ·
        split at h
        · cases h
        · cases h
        · rename_i k1 v1 l1 r1 c1 s1 hrot
          have hent1 : entries (RBNode.node k1 v1 l1 r1 c1 s1)
              = entries (RBNode.node hk hv .nil hr hc0 hs0) := by
            split at hrot
            · exact entries_rotate_right hrot
            · exact congrArg entries (Except.ok.inj hrot).symm
          have hsz1 : sizeOkB (RBNode.node k1 v1 l1 r1 c1 s1) = true := by
            split at hrot
            · exact sizeOkB_rotate_right hrot hs
            · rw [← Except.ok.inj hrot]; exact hs
          split at h
          · cases h
            exact ⟨List.nil_sublist _, rfl⟩
          · split at h
            · cases h
            · cases h
            · rename_i k2 v2 l2 r2 c2 s2 hmv2
              have hent2 : entries (RBNode.node k2 v2 l2 r2 c2 s2)
                  = entries (RBNode.node k1 v1 l1 r1 c1 s1) := by
                cases r1 with
                | nil => cases hmv2
                | node rk rv rl rr rc rs =>
                  dsimp only at hmv2
                  split at hmv2
                  · exact congrArg entries (Except.ok.inj hmv2).symm
                  · split at hmv2
                    · exact congrArg entries (Except.ok.inj hmv2).symm
                    · exact entries_move_red_right hmv2
              have hsz2 : sizeOkB (RBNode.node k2 v2 l2 r2 c2 s2) = true := by
                cases r1 with
                | nil => cases hmv2
                | node rk rv rl rr rc rs =>
                  dsimp only at hmv2
                  split at hmv2
                  · rw [← Except.ok.inj hmv2]; exact hsz1
                  · split at hmv2
                    · rw [← Except.ok.inj hmv2]; exact hsz1
                    · exact sizeOkB_move_red_right hmv2 hsz1
              rw [sizeOkB_node] at hsz2
              obtain ⟨hse2, hsl2, hsr2⟩ := hsz2
              split at h
              · cases hmin : rbMinNode r2 with
                | error e => rw [hmin] at h; cases h
                | ok u =>
                  rw [hmin] at h
                  cases u with
                  | nil => dsimp only at h; cases h
                  | node xk xv m1 m2 m3 m4 =>
                    dsimp only at h
                    cases hdm : rbDeleteMin_ r2 with
                    | error e => rw [hdm] at h; cases h
                    | ok r3 =>
                      rw [hdm] at h
                      dsimp only at h
                      obtain ⟨hsub3, hsz3⟩ := rbDeleteMin__facts hdm hsr2
                      obtain ⟨rest, hrest⟩ := rbMinNode_entries hmin
                      refine ⟨?_, sizeOkB_balance h (by simp [sok2, hsl2, hsz3])⟩
                      rw [entries_balance h, ← hent1, ← hent2, entries_node, entries_node]
                      refine (List.Sublist.refl _).append ?_
                      refine List.Sublist.cons _ ?_
                      rw [hrest]
                      rw [hrest, List.tail_cons] at hsub3
                      exact List.Sublist.cons₂ _ hsub3
              · cases hrec : rbDelete_ r2 k with
                | error e => rw [hrec] at h; cases h
                | ok r3 =>
                  rw [hrec] at h
                  dsimp only at h
                  have hcr2 : count r2 ≤ n := by
                    have h1 : count (RBNode.node k2 v2 l2 r2 c2 s2)
                        = count (RBNode.node k1 v1 l1 r1 c1 s1) := by
                      rw [count_eq_entries_length, count_eq_entries_length, hent2]
                    have h2 : count (RBNode.node k1 v1 l1 r1 c1 s1)
                        = count (RBNode.node hk hv .nil hr hc0 hs0) := by
                      rw [count_eq_entries_length, count_eq_entries_length, hent1]
                    simp only [count] at h1 h2 hc
                    omega
                  obtain ⟨hsub3, hsz3⟩ := ih r2 r3 hcr2 hrec hsr2
                  refine ⟨?_, sizeOkB_balance h (by simp [sok2, hsl2, hsz3])⟩
                  rw [entries_balance h, ← hent1, ← hent2, entries_node, entries_node]
                  exact (List.Sublist.refl _).append (List.Sublist.cons₂ _ hsub3)
    | .node hk hv (.node lk lv ll lr lc ls) hr hc0 hs0 =>
      simp only [rbDelete_] at h
      split at h
      · -- k < root key: descend left after a possible move_red_left
        split at h
        · cases h
        · cases h
        · rename_i k1 v1 l1 r1 c1 s1 hmv
          have hent1 : entries (RBNode.node k1 v1 l1 r1 c1 s1)
              = entries (RBNode.node hk hv (.node lk lv ll lr lc ls) hr hc0 hs0) := by
            split at hmv
            · exact congrArg entries (Except.ok.inj hmv).symm
            · split at hmv
              · exact congrArg entries (Except.ok.inj hmv).symm
              · exact entries_move_red_left hmv
          have hsz1 : sizeOkB (RBNode.node k1 v1 l1 r1 c1 s1) = true := by
            split at hmv
            · rw [← Except.ok.inj hmv]; exact hs
            · split at hmv
              · rw [← Except.ok.inj hmv]; exact hs
              · exact sizeOkB_move_red_left hmv hs
          cases hrec : rbDelete_ l1 k with
          | error e => rw [hrec] at h; cases h
          | ok l2 =>
            rw [hrec] at h
            dsimp only at h
            rw [sizeOkB_node] at hsz1
            obtain ⟨hse1, hsl1, hsr1⟩ := hsz1
            have hcl1 : count l1 ≤ n := by
              have h1 : count (RBNode.node k1 v1 l1 r1 c1 s1)
                  = count (RBNode.node hk hv (.node lk lv ll lr lc ls) hr hc0 hs0) := by
                rw [count_eq_entries_length, count_eq_entries_length, hent1]
              simp only [count] at h1 hc
              omega
            obtain ⟨hsub2, hsz2⟩ := ih l1 l2 hcl1 hrec hsl1
            refine ⟨?_, sizeOkB_balance h (by simp [sok2, hsz2, hsr1])⟩
            rw [entries_balance h, ← hent1, entries_node, entries_node]
            exact hsub2.append (List.Sublist.refl _)
      · -- k >= root key
        split at h
        · cases h
        · cases h
        · rename_i k1 v1 l1 r1 c1 s1 hrot
          have hent1 : entries (RBNode.node k1 v1 l1 r1 c1 s1)
              = entries (RBNode.node hk hv (.node lk lv ll lr lc ls) hr hc0 hs0) := by
            split at hrot
            · exact entries_rotate_right hrot
            · exact congrArg entries (Except.ok.inj hrot).symm
          have hsz1 : sizeOkB (RBNode.node k1 v1 l1 r1 c1 s1) = true := by
            split at hrot
            · exact sizeOkB_rotate_right hrot hs
            · rw [← Except.ok.inj hrot]; exact hs
          split at h
          · cases h
            exact ⟨List.nil_sublist _, rfl⟩
          · split at h
            · cases h
            · cases h
            · rename_i k2 v2 l2 r2 c2 s2 hmv2
              have hent2 : entries (RBNode.node k2 v2 l2 r2 c2 s2)
                  = entries (RBNode.node k1 v1 l1 r1 c1 s1) := by
                cases r1 with
                | nil => cases hmv2
                | node rk rv rl rr rc rs =>
                  dsimp only at hmv2
                  split at hmv2
                  · exact congrArg entries (Except.ok.inj hmv2).symm
                  · split at hmv2
                    · exact congrArg entries (Except.ok.inj hmv2).symm
                    · exact entries_move_red_right hmv2
              have hsz2 : sizeOkB (RBNode.node k2 v2 l2 r2 c2 s2) = true := by
                cases r1 with
                | nil => cases hmv2
                | node rk rv rl rr rc rs =>
                  dsimp only at hmv2
                  split at hmv2
                  · rw [← Except.ok.inj hmv2]; exact hsz1
                  · split at hmv2
                    · rw [← Except.ok.inj hmv2]; exact hsz1
                    · exact sizeOkB_move_red_right hmv2 hsz1
              rw [sizeOkB_node] at hsz2
              obtain ⟨hse2, hsl2, hsr2⟩ := hsz2
              split at h
              · cases hmin : rbMinNode r2 with
                | error e => rw [hmin] at h; cases h
                | ok u =>
                  rw [hmin] at h
                  cases u with
                  | nil => dsimp only at h; cases h
                  | node xk xv m1 m2 m3 m4 =>
                    dsimp only at h
                    cases hdm : rbDeleteMin_ r2 with
                    | error e => rw [hdm] at h; cases h
                    | ok r3 =>
                      rw [hdm] at h
                      dsimp only at h
                      obtain ⟨hsub3, hsz3⟩ := rbDeleteMin__facts hdm hsr2
                      obtain ⟨rest, hrest⟩ := rbMinNode_entries hmin
                      refine ⟨?_, sizeOkB_balance h (by simp [sok2, hsl2, hsz3])⟩
                      rw [entries_balance h, ← hent1, ← hent2, entries_node, entries_node]
                      refine (List.Sublist.refl _).append ?_
                      refine List.Sublist.cons _ ?_
                      rw [hrest]
                      rw [hrest, List.tail_cons] at hsub3
                      exact List.Sublist.cons₂ _ hsub3
              · cases hrec : rbDelete_ r2 k with
                | error e => rw [hrec] at h; cases h
                | ok r3 =>
                  rw [hrec] at h
                  dsimp only at h
                  have hcr2 : count r2 ≤ n := by
                    have h1 : count (RBNode.node k2 v2 l2 r2 c2 s2)
                        = count (RBNode.node k1 v1 l1 r1 c1 s1) := by
                      rw [count_eq_entries_length, count_eq_entries_length, hent2]
                    have h2 : count (RBNode.node k1 v1 l1 r1 c1 s1)
                        = count (RBNode.node hk hv (.node lk lv ll lr lc ls) hr hc0 hs0) := by
                      rw [count_eq_entries_length, count_eq_entries_length, hent1]
                    simp only [count] at h1 h2 hc
                    omega
                  obtain ⟨hsub3, hsz3⟩ := ih r2 r3 hcr2 hrec hsr2
                  refine ⟨?_, sizeOkB_balance h (by simp [sok2, hsl2, hsz3])⟩
                  rw [entries_balance h, ← hent1, ← hent2, entries_node, entries_node]
                  exact (List.Sublist.refl _).append (List.Sublist.cons₂ _ hsub3)
/-! ### The public delete wrappers preserve the entry list and sizes. -/

theorem rbDelete_ok_facts [LinearOrder K] {t t2 : RBNode K V} {key : Option K}
    (h : rbDelete t key = .ok t2) (hs : sizeOkB t = true) :
    (entries t2).Sublist (entries t) ∧ sizeOkB t2 = true := by
  match key, t, h with
  | none, t, h => simp only [rbDelete] at h; cases h
  | some k, .nil, h => simp only [rbDelete] at h; cases h
  | some k, .node rk rv rl rr rc rs, h =>
    simp only [rbDelete] at h
    obtain ⟨c0, hc0⟩ : ∃ c0, (if (!isRed rl && !isRed rr) = true
        then RBNode.node rk rv rl rr RED rs else RBNode.node rk rv rl rr rc rs)
        = RBNode.node rk rv rl rr c0 rs := by
      split
      · exact ⟨RED, rfl⟩
      · exact ⟨rc, rfl⟩
    rw [hc0] at h
    have hs0 : sizeOkB (RBNode.node rk rv rl rr c0 rs) = true := by
      rw [sizeOkB_node] at hs ⊢
      exact hs
    cases hdel : rbDelete_ (RBNode.node rk rv rl rr c0 rs) k with
    | error e => rw [hdel] at h; cases h
    | ok u =>
      rw [hdel] at h
      obtain ⟨hsub, hsz⟩ := rbDelete__facts hdel hs0
      have hent0 : entries (RBNode.node rk rv rl rr c0 rs)
          = entries (RBNode.node rk rv rl rr rc rs) := by
        rw [entries_node, entries_node]
      cases u with
      | nil =>
        dsimp only at h
        cases h
        exact ⟨List.nil_sublist _, rfl⟩
      | node k2 v2 l2 r2 c2 s2 =>
        dsimp only at h
        cases h
        constructor
        · have hbe : entries (RBNode.node k2 v2 l2 r2 BLACK s2)
              = entries (RBNode.node k2 v2 l2 r2 c2 s2) := by
            rw [entries_node, entries_node]
          rw [hbe, ← hent0]
          exact hsub
        · rw [sizeOkB_node]
          rw [sizeOkB_node] at hsz
          exact hsz

theorem rbDeleteMin_ok_facts {t t2 : RBNode K V}
    (h : rbDeleteMin t = .ok t2) (hs : sizeOkB t = true) :
    (entries t2).Sublist (entries t) ∧ sizeOkB t2 = true := by
  match t, h with
  | .nil, h => simp only [rbDeleteMin] at h; cases h
  | .node rk rv rl rr rc rs, h =>
    simp only [rbDeleteMin] at h
    obtain ⟨c0, hc0⟩ : ∃ c0, (if (!isRed rl && !isRed rr) = true
        then RBNode.node rk rv rl rr RED rs else RBNode.node rk rv rl rr rc rs)
        = RBNode.node rk rv rl rr c0 rs := by
      split
      · exact ⟨RED, rfl⟩
      · exact ⟨rc, rfl⟩
    rw [hc0] at h
    have hs0 : sizeOkB (RBNode.node rk rv rl rr c0 rs) = true := by
      rw [sizeOkB_node] at hs ⊢
      exact hs
    cases hdel : rbDeleteMin_ (RBNode.node rk rv rl rr c0 rs) with
    | error e => rw [hdel] at h; cases h
    | ok u =>
      rw [hdel] at h
      obtain ⟨hsub, hsz⟩ := rbDeleteMin__facts hdel hs0
      have hent0 : entries (RBNode.node rk rv rl rr c0 rs)
          = entries (RBNode.node rk rv rl rr rc rs) := by
        rw [entries_node, entries_node]
      cases u with
      | nil =>
        dsimp only at h
        cases h
        exact ⟨List.nil_sublist _, rfl⟩
      | node k2 v2 l2 r2 c2 s2 =>
        dsimp only at h
        cases h
        constructor
        · have hbe : entries (RBNode.node k2 v2 l2 r2 BLACK s2)
              = entries (RBNode.node k2 v2 l2 r2 c2 s2) := by
            rw [entries_node, entries_node]
          rw [hbe, ← hent0]
          exact hsub.trans (List.tail_sublist _)
        · rw [sizeOkB_node]
          rw [sizeOkB_node] at hsz
          exact hsz

theorem rbDeleteMax_ok_facts {t t2 : RBNode K V}
    (h : rbDeleteMax t = .ok t2) (hs : sizeOkB t = true) :
    (entries t2).Sublist (entries t) ∧ sizeOkB t2 = true := by
  match t, h with
  | .nil, h => simp only [rbDeleteMax] at h; cases h
  | .node rk rv rl rr rc rs, h =>
    simp only [rbDeleteMax] at h
    obtain ⟨c0, hc0⟩ : ∃ c0, (if (!isRed rl && !isRed rr) = true
        then RBNode.node rk rv rl rr RED rs else RBNode.node rk rv rl rr rc rs)
        = RBNode.node rk rv rl rr c0 rs := by
      split
      · exact ⟨RED, rfl⟩
      · exact ⟨rc, rfl⟩
    rw [hc0] at h
    have hs0 : sizeOkB (RBNode.node rk rv rl rr c0 rs) = true := by
      rw [sizeOkB_node] at hs ⊢
      exact hs
    cases hdel : rbDeleteMax_ (RBNode.node rk rv rl rr c0 rs) with
    | error e => rw [hdel] at h; cases h
    | ok u =>
      rw [hdel] at h
      obtain ⟨hsub, hsz⟩ := rbDeleteMax__facts hdel hs0
      have hent0 : entries (RBNode.node rk rv rl rr c0 rs)
          = entries (RBNode.node rk rv rl rr rc rs) := by
        rw [entries_node, entries_node]
      cases u with
      | nil =>
        dsimp only at h
        cases h
        exact ⟨List.nil_sublist _, rfl⟩
      | node k2 v2 l2 r2 c2 s2 =>
        dsimp only at h
        cases h
        constructor
        · have hbe : entries (RBNode.node k2 v2 l2 r2 BLACK s2)
              = entries (RBNode.node k2 v2 l2 r2 c2 s2) := by
            rw [entries_node, entries_node]
          rw [hbe, ← hent0]
          exact hsub
        · rw [sizeOkB_node]
          rw [sizeOkB_node] at hsz
          exact hsz

theorem sublist_good [LinearOrder K] {t t2 : RBNode K V}
    (hsub : (entries t2).Sublist (entries t))
    (hb : IsBSTp t) (hn : noNoneB t = true) : IsBSTp t2 ∧ noNoneB t2 = true := by
  constructor
  · exact List.Pairwise.sublist (hsub.map Prod.fst) hb
  · rw [noNoneB_iff] at hn ⊢
    exact fun p hp => hn p (hsub.subset hp)

/-- The states reachable from the empty table through *successful* public
mutating calls (`put`, `delete`, `deleteMin`, `deleteMax`). -/
inductive ReachAPI [LinearOrder K] : RBNode K V → Prop where
  | empty : ReachAPI .nil
  | put : ∀ (t t' : RBNode K V) (key : Option K) (val : Option V),
      ReachAPI t → rbPut t key val = .ok t' → ReachAPI t'
  | del : ∀ (t t' : RBNode K V) (key : Option K),
      ReachAPI t → rbDelete t key = .ok t' → ReachAPI t'
  | delMin : ∀ (t t' : RBNode K V),
      ReachAPI t → rbDeleteMin t = .ok t' → ReachAPI t'
  | delMax : ∀ (t t' : RBNode K V),
      ReachAPI t → rbDeleteMax t = .ok t' → ReachAPI t'

theorem reach_good [LinearOrder K] {t : RBNode K V} (h : ReachAPI t) :
    IsBSTp t ∧ sizeOkB t = true ∧ noNoneB t = true := by
  induction h with
  | empty => exact ⟨List.Pairwise.nil, rfl, rfl⟩
  | put t0 t1 key val hr hp ih =>
    obtain ⟨hb, hs, hn⟩ := ih
    match key, hp with
    | none, hp => simp only [rbPut] at hp; cases hp
    | some k, hp =>
      match val, hp with
      | none, hp =>
        have hd : rbDelete t0 (some k) = .ok t1 := hp
        obtain ⟨hsub, hsz⟩ := rbDelete_ok_facts hd hs
        obtain ⟨hb2, hn2⟩ := sublist_good hsub hb hn
        exact ⟨hb2, hsz, hn2⟩
      | some v, hp =>
        have hp2 : rbPutVal t0 k v = .ok t1 := hp
        obtain ⟨t2, hput, he, hs2, _⟩ := rbPutVal_facts k v hb hs
        have ht12 : t2 = t1 := Except.ok.inj (hput.symm.trans hp2)
        subst ht12
        refine ⟨?_, hs2, ?_⟩
        · show ((entries t2).map Prod.fst).Pairwise (· < ·)
          rw [he]
          exact pairwise_insUpd hb
        · rw [noNoneB_iff]
          intro p hp3
          rw [he] at hp3
          rcases mem_insUpd hp3 with h1 | h1
          · rw [h1]; simp
          · exact (noNoneB_iff.mp hn) p h1
  | del t0 t1 key hr hd ih =>
    obtain ⟨hb, hs, hn⟩ := ih
    obtain ⟨hsub, hsz⟩ := rbDelete_ok_facts hd hs
    obtain ⟨hb2, hn2⟩ := sublist_good hsub hb hn
    exact ⟨hb2, hsz, hn2⟩
  | delMin t0 t1 hr hd ih =>
    obtain ⟨hb, hs, hn⟩ := ih
    obtain ⟨hsub, hsz⟩ := rbDeleteMin_ok_facts hd hs
    obtain ⟨hb2, hn2⟩ := sublist_good hsub hb hn
    exact ⟨hb2, hsz, hn2⟩
  | delMax t0 t1 hr hd ih =>
    obtain ⟨hb, hs, hn⟩ := ih
    obtain ⟨hsub, hsz⟩ := rbDeleteMax_ok_facts hd hs
    obtain ⟨hb2, hn2⟩ := sublist_good hsub hb hn
    exact ⟨hb2, hsz, hn2⟩

/-- **C9.** In every state reachable from the empty table through the public
API, no stored node has a `None` value; `put(k, None)` is exactly the
`delete(k)` call (definitionally, before touching any node); `get(k)` returns
`None` precisely when `k` is absent; and `contains(k)` returns exactly the
membership of `k` among the stored keys, i.e. `get(k) != None`. -/
theorem C9_no_none_values [LinearOrder K] {t : RBNode K V} (hr : ReachAPI t) :
    noNoneB t = true ∧
    (∀ k : K, rbPut t (some k) (none : Option V) = rbDelete t (some k)) ∧
    (∀ k : K, rbGet t (some k) = .ok none ↔ k ∉ keysList t) ∧
    (∀ k : K, rbContains t (some k) = .ok (decide (k ∈ keysList t))) := by
  obtain ⟨hb, hs, hn⟩ := reach_good hr
  refine ⟨hn, fun k => rfl, fun k => ?_, fun k => ?_⟩
  · have hg : rbGet t (some k) = .ok (lookupE (entries t) k) := rbGet__spec hb k
    rw [hg]
    constructor
    · intro hok hmem
      exact lookupE_isSome_mem (noNoneB_iff.mp hn) hmem (Except.ok.inj hok)
    · intro hmem
      rw [lookupE_none_of_not_mem hmem]
  · have hg : rbGet t (some k) = .ok (lookupE (entries t) k) := rbGet__spec hb k
    simp only [rbContains, hg, exBind_ok, exPure_def]
    by_cases hm : k ∈ keysList t
    · have h1 := lookupE_isSome_mem (noNoneB_iff.mp hn) hm
      simp [Option.isSome_iff_ne_none, h1, hm]
    · rw [lookupE_none_of_not_mem hm]
      simp [hm]

/-- Witness for C9 at the empty table (reachable by zero calls). -/
theorem C9_witness :
    noNoneB (.nil : RBNode Nat Nat) = true ∧
    (∀ k : Nat, rbPut (.nil : RBNode Nat Nat) (some k) (none : Option Nat)
      = rbDelete (.nil : RBNode Nat Nat) (some k)) ∧
    (∀ k : Nat, rbGet (.nil : RBNode Nat Nat) (some k) = .ok none
      ↔ k ∉ keysList (.nil : RBNode Nat Nat)) ∧
    (∀ k : Nat, rbContains (.nil : RBNode Nat Nat) (some k)
      = .ok (decide (k ∈ keysList (.nil : RBNode Nat Nat)))) :=
  C9_no_none_values ReachAPI.empty

/-! ### Color and black-height machinery for the global invariants (C5). -/

/-- Children fully satisfy the color invariants and the right link is black;
the root itself may be red with a red left child (the transient state `_put`
hands back to its caller). -/
def okColR : RBNode K V → Bool
  | .nil => true
  | .node _ _ l r _ _ => okColB l && okColB r && !isRed r

theorem okColB_node {k : K} {v : Option V} {l r : RBNode K V} {c : Bool} {s : Nat} :
    okColB (RBNode.node k v l r c s) = true ↔
      okColB l = true ∧ okColB r = true ∧ isRed r = false ∧
        (c = true → isRed l = false) := by
  simp only [okColB, Bool.and_eq_true, Bool.not_eq_true', Bool.or_eq_true]
  constructor
  · rintro ⟨⟨⟨h1, h2⟩, h3⟩, h4⟩
    refine ⟨h1, h2, h3, fun hc => ?_⟩
    rcases h4 with h4 | h4
    · rw [hc] at h4; cases h4
    · exact h4
  · rintro ⟨h1, h2, h3, h4⟩
    refine ⟨⟨⟨h1, h2⟩, h3⟩, ?_⟩
    cases c with
    | false => exact Or.inl rfl
    | true => exact Or.inr (h4 rfl)

theorem okColR_node {k : K} {v : Option V} {l r : RBNode K V} {c : Bool} {s : Nat} :
    okColR (RBNode.node k v l r c s) = true ↔
      okColB l = true ∧ okColB r = true ∧ isRed r = false := by
  simp [okColR, Bool.and_eq_true, Bool.not_eq_true', and_assoc]

theorem okColR_of_okColB {t : RBNode K V} (h : okColB t = true) : okColR t = true := by
  cases t with
  | nil => rfl
  | node k v l r c s =>
    rw [okColB_node] at h
    rw [okColR_node]
    exact ⟨h.1, h.2.1, h.2.2.1⟩

theorem okColB_of_okColR {t : RBNode K V} (h : okColR t = true)
    (h2 : isRed t = true → isRed t.leftC = false) : okColB t = true := by
  cases t with
  | nil => rfl
  | node k v l r c s =>
    rw [okColR_node] at h
    rw [okColB_node]
    exact ⟨h.1, h.2.1, h.2.2, fun hc => h2 (by simpa [isRed] using hc)⟩

theorem bh_node_some {k : K} {v : Option V} {l r : RBNode K V} {c : Bool} {s : Nat}
    {n : Nat} :
    bh (RBNode.node k v l r c s) = some n ↔
      ∃ a, bh l = some a ∧ bh r = some a ∧ n = if c then a else a + 1 := by
  simp only [bh]
  cases hbl : bh l with
  | none => simp
  | some a =>
    cases hbr : bh r with
    | none => simp
    | some b =>
      dsimp only
      by_cases hab : a = b
      · subst hab
        rw [if_pos rfl]
        constructor
        · intro h
          exact ⟨a, rfl, rfl, (Option.some.inj h).symm⟩
        · rintro ⟨a2, ha2, hb2, hn⟩
          cases Option.some.inj ha2
          rw [hn]
      · rw [if_neg hab]
        constructor
        · intro h; cases h
        · rintro ⟨a2, ha2, hb2, hn⟩
          exact absurd ((Option.some.inj ha2).trans (Option.some.inj hb2).symm) hab

theorem okColB_updateSize {t : RBNode K V} : okColB (updateSize t) = okColB t := by
  cases t <;> rfl

theorem okColR_updateSize {t : RBNode K V} : okColR (updateSize t) = okColR t := by
  cases t <;> rfl

theorem bh_updateSize {t : RBNode K V} : bh (updateSize t) = bh t := by
  cases t <;> rfl

theorem isRed_updateSize {t : RBNode K V} : isRed (updateSize t) = isRed t := by
  cases t <;> rfl

set_option maxHeartbeats 1000000 in
theorem put_chain_color [LinearOrder K] {nk : K} {nv : Option V} {L R : RBNode K V}
    {c : Bool} {s : Nat} {t1 t2 t3 : RBNode K V} {m : Nat}
    (hf1 : (if isRed (RBNode.node nk nv L R c s).rightC
          && !isRed (RBNode.node nk nv L R c s).leftC
        then rotate_left (RBNode.node nk nv L R c s)
        else Except.ok (RBNode.node nk nv L R c s)) = .ok t1)
    (hf2 : (if isRed t1.leftC && isRed t1.leftC.leftC then rotate_right t1
        else Except.ok t1) = .ok t2)
    (hf3 : (if isRed t2.leftC && isRed t2.rightC then flip_colors t2
        else Except.ok t2) = .ok t3)
    (hL : okColR L = true) (hR : okColB R = true)
    (hLfix : isRed L = true → isRed L.leftC = true → (c = false ∧ isRed R = false))
    (hLR2 : isRed L = true → isRed R = true → c = false)
    (hbhL : bh L = some m) (hbhR : bh R = some m) :
    bh t3 = some (if c then m else m + 1) ∧ okColR t3 = true ∧
      (c = false → okColB t3 = true) := by
  simp only [RBNode.leftC, RBNode.rightC] at hf1
  cases hR0 : isRed R with
  | true =>
    cases R with
    | nil => simp [isRed] at hR0
    | node rk rv RL RR rc rs =>
      simp only [isRed] at hR0
      subst hR0
      rw [okColB_node] at hR
      obtain ⟨hRL, hRR, hRRb, hRLb⟩ := hR
      obtain ⟨a, hbRL, hbRR, hma⟩ := bh_node_some.mp hbhR
      rw [if_pos rfl] at hma
      subst hma
      cases hL0 : isRed L with
      | false =>
        rw [if_pos (by rw [hL0]; rfl)] at hf1
        simp only [rotate_left, if_pos rfl] at hf1
        cases hf1
        rw [if_neg (by simp only [RBNode.leftC]; rw [hL0]; simp)] at hf2
        cases hf2
        rw [if_neg (by simp only [RBNode.leftC, RBNode.rightC]; rw [hRRb]; simp)] at hf3
        cases hf3
        have hLB : okColB L = true := okColB_of_okColR hL (by rw [hL0]; intro h; cases h)
        refine ⟨?_, ?_, ?_⟩
        · simp [bh, hbhL, hbRL, hbRR, RED]
        · rw [okColR_node, okColB_node]
          exact ⟨⟨hLB, hRL, hRLb rfl, fun _ => hL0⟩, hRR, hRRb⟩
        · intro hc
          rw [okColB_node, okColB_node]
          exact ⟨⟨hLB, hRL, hRLb rfl, fun _ => hL0⟩, hRR, hRRb, fun h => by rw [hc] at h; cases h⟩
      | true =>
        cases L with
        | nil => simp [isRed] at hL0
        | node lk lv LL LR lc ls =>
          simp only [isRed] at hL0
          subst hL0
          rw [okColR_node] at hL
          obtain ⟨hLL, hLR, hLRb⟩ := hL
          obtain ⟨b, hbLL, hbLR, hmb⟩ := bh_node_some.mp hbhL
          rw [if_pos rfl] at hmb
          subst hmb
          cases hLL0 : isRed LL with
          | true =>
            obtain ⟨-, hcon⟩ := hLfix rfl (by simpa [RBNode.leftC] using hLL0)
            simp [isRed] at hcon
          | false =>
            have hc0 : c = false := hLR2 rfl (by simp [isRed])
            subst hc0
            rw [if_neg (by simp [isRed])] at hf1
            cases hf1
            rw [if_neg (by simp only [RBNode.leftC]; rw [hLL0]; simp)] at hf2
            cases hf2
            rw [if_pos (by simp only [RBNode.leftC, RBNode.rightC]; simp [isRed])] at hf3
            simp only [flip_colors] at hf3
            cases hf3
            refine ⟨?_, ?_, ?_⟩
            · simp [bh, hbLL, hbLR, hbRL, hbRR, RED]
            · rw [okColR_node, okColB_node, okColB_node]
              refine ⟨⟨hLL, hLR, hLRb, fun h => by cases h⟩,
                ⟨hRL, hRR, hRRb, fun h => by cases h⟩, by simp [isRed, RED]⟩
            · intro _
              rw [okColB_node, okColB_node, okColB_node]
              exact ⟨⟨hLL, hLR, hLRb, fun h => by cases h⟩,
                ⟨hRL, hRR, hRRb, fun h => by cases h⟩, by simp [isRed, RED],
                fun _ => by simp [isRed, RED]⟩
  | false =>
    rw [if_neg (by rw [hR0]; simp)] at hf1
    cases hf1
    cases hL0 : isRed L with
    | false =>
      rw [if_neg (by simp only [RBNode.leftC]; rw [hL0]; simp)] at hf2
      cases hf2
      rw [if_neg (by simp only [RBNode.leftC, RBNode.rightC]; rw [hL0]; simp)] at hf3
      cases hf3
      have hLB : okColB L = true := okColB_of_okColR hL (by rw [hL0]; intro h; cases h)
      refine ⟨?_, ?_, ?_⟩
      · simp [bh, hbhL, hbhR]
      · rw [okColR_node]
        exact ⟨hLB, hR, hR0⟩
      · intro hc
        rw [okColB_node]
        exact ⟨hLB, hR, hR0, fun h => by rw [hc] at h; cases h⟩
    | true =>
      cases L with
      | nil => simp [isRed] at hL0
      | node lk lv LL LR lc ls =>
        simp only [isRed] at hL0
        subst hL0
        rw [okColR_node] at hL
        obtain ⟨hLL, hLR, hLRb⟩ := hL
        obtain ⟨b, hbLL, hbLR, hmb⟩ := bh_node_some.mp hbhL
        rw [if_pos rfl] at hmb
        subst hmb
        cases hLL0 : isRed LL with
        | false =>
          rw [if_neg (by simp only [RBNode.leftC]; rw [hLL0]; simp [isRed])] at hf2
          cases hf2
          rw [if_neg (by simp only [RBNode.leftC, RBNode.rightC]; rw [hR0]; simp)] at hf3
          cases hf3
          have hLB : okColB (RBNode.node lk lv LL LR true ls) = true := by
            rw [okColB_node]
            exact ⟨hLL, hLR, hLRb, fun _ => hLL0⟩
          refine ⟨?_, ?_, ?_⟩
          · exact bh_node_some.mpr ⟨_, hbhL, hbhR, rfl⟩
          · rw [okColR_node]
            exact ⟨hLB, hR, hR0⟩
          · intro hc
            rw [okColB_node]
            exact ⟨hLB, hR, hR0, fun h => by rw [hc] at h; cases h⟩
        | true =>
          obtain ⟨hc0, -⟩ := hLfix rfl (by simpa [RBNode.leftC] using hLL0)
          subst hc0
          cases LL with
          | nil => simp [isRed] at hLL0
          | node llk llv A B llc lls =>
            simp only [isRed] at hLL0
            subst hLL0
            rw [if_pos (by simp [RBNode.leftC, isRed, RED])] at hf2
            simp only [RBNode.leftC, rotate_right, if_pos rfl] at hf2
            cases hf2
            rw [if_pos (by simp [RBNode.leftC, RBNode.rightC, isRed, RED])] at hf3
            simp only [flip_colors] at hf3
            cases hf3
            rw [okColB_node] at hLL
            obtain ⟨hA, hB, hBb, hAb⟩ := hLL
            obtain ⟨d, hbA, hbB, hdb⟩ := bh_node_some.mp hbLL
            rw [if_pos rfl] at hdb
            subst hdb
            refine ⟨?_, ?_, ?_⟩
            · simp [bh, hbA, hbB, hbLR, hbhR, RED]
            · rw [okColR_node, okColB_node, okColB_node]
              exact ⟨⟨hA, hB, hBb, fun h => by cases h⟩,
                ⟨hLR, hR, hR0, fun h => by cases h⟩, by simp [isRed, RED]⟩
            · intro _
              rw [okColB_node, okColB_node, okColB_node]
              exact ⟨⟨hA, hB, hBb, fun h => by cases h⟩,
                ⟨hLR, hR, hR0, fun h => by cases h⟩, by simp [isRed, RED],
                fun _ => by simp [isRed]⟩

theorem okColB_red_left {t : RBNode K V} (h : okColB t = true) (hr : isRed t = true) :
    isRed t.leftC = false := by
  cases t with
  | nil => simp [isRed] at hr
  | node k v l r c s =>
    exact (okColB_node.mp h).2.2.2 (by simpa [isRed] using hr)

theorem rbPut__color [LinearOrder K] {t t' : RBNode K V} {k : K} {v : V} {m : Nat}
    (h : rbPut_ t k v = .ok t') (hc : okColB t = true) (hb : bh t = some m) :
    bh t' = some m ∧ okColR t' = true ∧ (isRed t = false → okColB t' = true) := by
  induction t generalizing t' m with
  | nil =>
    simp only [rbPut_] at h
    cases h
    cases Option.some.inj hb
    exact ⟨by simp [bh, RED], rfl, fun _ => rfl⟩
  | node nk nv l r c s ihl ihr =>
    rw [okColB_node] at hc
    obtain ⟨hcl, hcr, hcrb, hclb⟩ := hc
    obtain ⟨a, hbl, hbr, hm⟩ := bh_node_some.mp hb
    simp only [rbPut_] at h
    rcases lt_trichotomy k nk with hlt | heq | hgt
    · rw [if_pos hlt] at h
      cases hpl : rbPut_ l k v with
      | error e => rw [hpl] at h; dsimp only at h; cases h
      | ok l2 =>
        rw [hpl] at h
        dsimp only at h
        obtain ⟨hb2, hcR2, hcB2⟩ := ihl hpl hcl hbl
        cases hf1 : (if isRed (RBNode.node nk nv l2 r c s).rightC && !isRed (RBNode.node nk nv l2 r c s).leftC
            then rotate_left (RBNode.node nk nv l2 r c s) else Except.ok (RBNode.node nk nv l2 r c s)) with
        | error e => rw [hf1] at h; cases h
        | ok t1 =>
          rw [hf1] at h
          dsimp only at h
          cases hf2 : (if isRed t1.leftC && isRed t1.leftC.leftC
              then rotate_right t1 else Except.ok t1) with
          | error e => rw [hf2] at h; cases h
          | ok t2 =>
            rw [hf2] at h
            dsimp only at h
            cases hf3 : (if isRed t2.leftC && isRed t2.rightC
                then flip_colors t2 else Except.ok t2) with
            | error e => rw [hf3] at h; cases h
            | ok t3 =>
              rw [hf3] at h
              dsimp only at h
              cases h
              obtain ⟨hbh3, hcr3, hcb3⟩ := put_chain_color hf1 hf2 hf3
                hcR2 hcr
                (fun h1 h2 => by
                  cases hlr : isRed l with
                  | false => exact absurd (okColB_red_left (hcB2 hlr) h1) (by rw [h2]; intro hx; cases hx)
                  | true =>
                    refine ⟨?_, hcrb⟩
                    cases hcc : c with
                    | false => rfl
                    | true => exact absurd (hclb hcc) (by rw [hlr]; intro hx; cases hx))
                (fun h1 h2 => absurd hcrb (by rw [h2]; intro hx; cases hx))
                hb2 hbr
              refine ⟨?_, ?_, ?_⟩
              · rw [bh_updateSize, hbh3, hm]
              · rw [okColR_updateSize]; exact hcr3
              · intro hroot
                have hc0 : c = false := by simpa [isRed] using hroot
                rw [okColB_updateSize]
                exact hcb3 hc0
    · subst heq
      rw [if_neg (lt_irrefl k), if_neg (lt_irrefl k)] at h
      dsimp only at h
      cases hf1 : (if isRed (RBNode.node k (some v) l r c s).rightC && !isRed (RBNode.node k (some v) l r c s).leftC
          then rotate_left (RBNode.node k (some v) l r c s) else Except.ok (RBNode.node k (some v) l r c s)) with
      | error e => rw [hf1] at h; cases h
      | ok t1 =>
        rw [hf1] at h
        dsimp only at h
        cases hf2 : (if isRed t1.leftC && isRed t1.leftC.leftC
            then rotate_right t1 else Except.ok t1) with
        | error e => rw [hf2] at h; cases h
        | ok t2 =>
          rw [hf2] at h
          dsimp only at h
          cases hf3 : (if isRed t2.leftC && isRed t2.rightC
              then flip_colors t2 else Except.ok t2) with
          | error e => rw [hf3] at h; cases h
          | ok t3 =>
            rw [hf3] at h
            dsimp only at h
            cases h
            obtain ⟨hbh3, hcr3, hcb3⟩ := put_chain_color hf1 hf2 hf3
              (okColR_of_okColB hcl) hcr
              (fun h1 h2 => absurd (okColB_red_left hcl h1) (by rw [h2]; intro hx; cases hx))
              (fun h1 h2 => absurd hcrb (by rw [h2]; intro hx; cases hx))
              hbl hbr
            refine ⟨?_, ?_, ?_⟩
            · rw [bh_updateSize, hbh3, hm]
            · rw [okColR_updateSize]; exact hcr3
            · intro hroot
              have hc0 : c = false := by simpa [isRed] using hroot
              rw [okColB_updateSize]
              exact hcb3 hc0
    · rw [if_neg (lt_asymm hgt), if_pos hgt] at h
      cases hpr : rbPut_ r k v with
      | error e => rw [hpr] at h; dsimp only at h; cases h
      | ok r2 =>
        rw [hpr] at h
        dsimp only at h
        obtain ⟨hb2, hcR2, hcB2⟩ := ihr hpr hcr hbr
        cases hf1 : (if isRed (RBNode.node nk nv l r2 c s).rightC && !isRed (RBNode.node nk nv l r2 c s).leftC
            then rotate_left (RBNode.node nk nv l r2 c s) else Except.ok (RBNode.node nk nv l r2 c s)) with
        | error e => rw [hf1] at h; cases h
        | ok t1 =>
          rw [hf1] at h
          dsimp only at h
          cases hf2 : (if isRed t1.leftC && isRed t1.leftC.leftC
              then rotate_right t1 else Except.ok t1) with
          | error e => rw [hf2] at h; cases h
          | ok t2 =>
            rw [hf2] at h
            dsimp only at h
            cases hf3 : (if isRed t2.leftC && isRed t2.rightC
                then flip_colors t2 else Except.ok t2) with
            | error e => rw [hf3] at h; cases h
            | ok t3 =>
              rw [hf3] at h
              dsimp only at h
              cases h
              obtain ⟨hbh3, hcr3, hcb3⟩ := put_chain_color hf1 hf2 hf3
                (okColR_of_okColB hcl) (hcB2 hcrb)
                (fun h1 h2 => absurd (okColB_red_left hcl h1) (by rw [h2]; intro hx; cases hx))
                (fun h1 h2 => by
                  cases hcc : c with
                  | false => rfl
                  | true => exact absurd (hclb hcc) (by rw [h1]; intro hx; cases hx))
                hbl hb2
              refine ⟨?_, ?_, ?_⟩
              · rw [bh_updateSize, hbh3, hm]
              · rw [okColR_updateSize]; exact hcr3
              · intro hroot
                have hc0 : c = false := by simpa [isRed] using hroot
                rw [okColB_updateSize]
                exact hcb3 hc0

theorem rbPutVal_color [LinearOrder K] {t t' : RBNode K V} {k : K} {v : V} {m : Nat}
    (h : rbPutVal t k v = .ok t') (hc : okColB t = true) (hb : bh t = some m) :
    okColB t' = true ∧ (bh t').isSome = true ∧ isRed t' = false := by
  cases hp : rbPut_ t k v with
  | error e =>
    simp only [rbPutVal, hp, exBind_error] at h
    cases h
  | ok u =>
    simp only [rbPutVal, hp, exBind_ok] at h
    obtain ⟨hbu, hcru, -⟩ := rbPut__color hp hc hb
    cases u with
    | nil => cases h
    | node a b l2 r2 c2 s2 =>
      dsimp only at h
      rw [exPure_def] at h
      cases h
      rw [okColR_node] at hcru
      obtain ⟨h1, h2, h3⟩ := hcru
      obtain ⟨a2, hba, hbb, hmm⟩ := bh_node_some.mp hbu
      refine ⟨?_, ?_, rfl⟩
      · rw [okColB_node]
        exact ⟨h1, h2, h3, fun hx => by cases hx⟩
      · rw [show bh (RBNode.node a b l2 r2 BLACK s2) = some (a2 + 1) from
          bh_node_some.mpr ⟨a2, hba, hbb, rfl⟩]
        rfl

set_option maxHeartbeats 1000000 in
theorem balance_color {nk : K} {nv : Option V} {L R : RBNode K V} {c : Bool} {s : Nat}
    {u : RBNode K V} {m : Nat}
    (h : balance (RBNode.node nk nv L R c s) = .ok u)
    (hL : okColB L = true) (hR : okColB R = true)
    (hbL : bh L = some m) (hbR : bh R = some m)
    (hcc : c = true → isRed L = false ∧ isRed R = false) :
    okColB u = true ∧ bh u = some (if c then m else m + 1) ∧
      (isRed u = true → c = true ∨ (isRed L = true ∧ isRed R = true)) := by
  simp only [balance] at h
  cases hL0 : isRed L with
  | true =>
    have hc0 : c = false := by
      cases hcq : c with
      | false => rfl
      | true => exact absurd (hcc hcq).1 (by rw [hL0]; intro hx; cases hx)
    subst hc0
    have hLLb : isRed L.leftC = false := okColB_red_left hL hL0
    have hcond2 : ¬ ((isRed (RBNode.node nk nv L R false s).leftC
        && isRed (RBNode.node nk nv L R false s).leftC.leftC) = true) := by
      have e1 : isRed (RBNode.node nk nv L R false s).leftC.leftC = isRed L.leftC := rfl
      rw [e1, hLLb]
      simp
    cases hR0 : isRed R with
    | false =>
      rw [if_neg (by rw [hL0, hR0]; simp)] at h
      dsimp only at h
      rw [if_neg hcond2] at h
      dsimp only at h
      have hcond3 : ¬ ((isRed (RBNode.node nk nv L R false s).leftC
          && isRed (RBNode.node nk nv L R false s).rightC) = true) := by
        have e1 : isRed (RBNode.node nk nv L R false s).rightC = isRed R := rfl
        rw [e1, hR0]
        simp
      rw [if_neg hcond3] at h
      dsimp only at h
      cases h
      refine ⟨?_, ?_, ?_⟩
      · rw [okColB_updateSize, okColB_node]
        exact ⟨hL, hR, hR0, fun hx => by cases hx⟩
      · rw [bh_updateSize]
        exact bh_node_some.mpr ⟨m, hbL, hbR, rfl⟩
      · rw [isRed_updateSize]
        intro hred
        simp [isRed] at hred
    | true =>
      rw [if_neg (by rw [hL0]; simp)] at h
      dsimp only at h
      rw [if_neg hcond2] at h
      dsimp only at h
      have hcond3 : (isRed (RBNode.node nk nv L R false s).leftC
          && isRed (RBNode.node nk nv L R false s).rightC) = true := by
        have e1 : isRed (RBNode.node nk nv L R false s).leftC = isRed L := rfl
        have e2 : isRed (RBNode.node nk nv L R false s).rightC = isRed R := rfl
        rw [e1, e2, hL0, hR0]
        rfl
      rw [if_pos hcond3] at h
      cases L with
      | nil => simp [isRed] at hL0
      | node lk lv LL LR lc ls =>
        simp only [isRed] at hL0
        subst hL0
        cases R with
        | nil => simp [isRed] at hR0
        | node rk rv RL RR rc rs =>
          simp only [isRed] at hR0
          subst hR0
          simp only [flip_colors] at h
          cases h
          rw [okColB_node] at hL hR
          obtain ⟨hLL, hLR, hLRb, hLlb⟩ := hL
          obtain ⟨hRL, hRR, hRRb, hRlb⟩ := hR
          obtain ⟨a1, hbLL, hbLR, hm1⟩ := bh_node_some.mp hbL
          rw [if_pos rfl] at hm1
          subst hm1
          obtain ⟨a2, hbRL, hbRR, hm2⟩ := bh_node_some.mp hbR
          rw [if_pos rfl] at hm2
          cases hm2
          refine ⟨?_, ?_, ?_⟩
          · rw [okColB_updateSize, okColB_node, okColB_node, okColB_node]
            exact ⟨⟨hLL, hLR, hLRb, fun hx => by cases hx⟩,
              ⟨hRL, hRR, hRRb, fun hx => by cases hx⟩, by simp [isRed],
              fun _ => by simp [isRed]⟩
          · rw [bh_updateSize]
            refine bh_node_some.mpr ⟨m + 1, ?_, ?_, by simp⟩
            · exact bh_node_some.mpr ⟨m, hbLL, hbLR, by simp⟩
            · exact bh_node_some.mpr ⟨m, hbRL, hbRR, by simp⟩
          · rw [isRed_updateSize]
            intro _
            exact Or.inr ⟨by simp [isRed], by simp [isRed]⟩
  | false =>
    have hcond2 : ¬ ((isRed (RBNode.node nk nv L R c s).leftC
        && isRed (RBNode.node nk nv L R c s).leftC.leftC) = true) := by
      have e1 : isRed (RBNode.node nk nv L R c s).leftC = isRed L := rfl
      rw [e1, hL0]
      simp
    cases hR0 : isRed R with
    | false =>
      rw [if_neg (by rw [hR0]; simp)] at h
      dsimp only at h
      rw [if_neg hcond2] at h
      dsimp only at h
      have hcond3 : ¬ ((isRed (RBNode.node nk nv L R c s).leftC
          && isRed (RBNode.node nk nv L R c s).rightC) = true) := by
        have e1 : isRed (RBNode.node nk nv L R c s).leftC = isRed L := rfl
        rw [e1, hL0]
        simp
      rw [if_neg hcond3] at h
      dsimp only at h
      cases h
      refine ⟨?_, ?_, ?_⟩
      · rw [okColB_updateSize, okColB_node]
        exact ⟨hL, hR, hR0, fun _ => hL0⟩
      · rw [bh_updateSize]
        exact bh_node_some.mpr ⟨m, hbL, hbR, rfl⟩
      · rw [isRed_updateSize]
        intro hred
        simp only [isRed] at hred
        exact Or.inl hred
    | true =>
      have hc0 : c = false := by
        cases hcq : c with
        | false => rfl
        | true => exact absurd (hcc hcq).2 (by rw [hR0]; intro hx; cases hx)
      subst hc0
      rw [if_pos (by rw [hL0, hR0]; rfl)] at h
      cases R with
      | nil => simp [isRed] at hR0
      | node rk rv RL RR rc rs =>
        simp only [isRed] at hR0
        subst hR0
        simp only [rotate_left, eq_self_iff_true, if_true] at h
        rw [okColB_node] at hR
        obtain ⟨hRL, hRR, hRRb, hRlb⟩ := hR
        obtain ⟨a2, hbRL, hbRR, hm2⟩ := bh_node_some.mp hbR
        rw [if_pos rfl] at hm2
        subst hm2
        rw [if_neg (by
          have e1 : isRed (RBNode.node rk rv
              (RBNode.node nk nv L RL RED (1 + nodeSize L + nodeSize RL)) RR false s).leftC.leftC
              = isRed L := rfl
          rw [e1, hL0]
          simp)] at h
        dsimp only at h
        rw [if_neg (by
          have e1 : isRed (RBNode.node rk rv
              (RBNode.node nk nv L RL RED (1 + nodeSize L + nodeSize RL)) RR false s).rightC
              = isRed RR := rfl
          rw [e1, hRRb]
          simp)] at h
        dsimp only at h
        cases h
        refine ⟨?_, ?_, ?_⟩
        · rw [okColB_updateSize, okColB_node, okColB_node]
          exact ⟨⟨hL, hRL, hRlb rfl, fun _ => hL0⟩, hRR, hRRb, fun hx => by cases hx⟩
        · rw [bh_updateSize]
          refine bh_node_some.mpr ⟨m, ?_, hbRR, by simp⟩
          exact bh_node_some.mpr ⟨m, hbL, hbRL, by simp [RED]⟩
        · rw [isRed_updateSize]
          intro hred
          simp only [isRed] at hred
          exact Or.inl hred

/-- Entering invariant of the delete-minimum descent: children fully valid,
equal black heights, and exactly one red among the root and the left child
(the "current node or its left child is red" discipline). -/
def MinIn : RBNode K V → Bool
  | .nil => false
  | .node k v l r c s =>
    okColB l && okColB r && (bh (RBNode.node k v l r c s)).isSome &&
      ((c && !isRed l && !isRed r) || (!c && isRed l && !isRed r))

/-- Entering invariant of the `_delete` descent for target key `k`: like
`MinIn`, but a third state is allowed — a black root with a red *right*
child — and only when the search key is at or beyond the root key (a state
`move_red_right` creates while descending right). -/
def DelIn [LinearOrder K] (k : K) : RBNode K V → Bool
  | .nil => false
  | .node tk v l r c s =>
    okColB l && okColB r && (bh (RBNode.node tk v l r c s)).isSome &&
      ((c && !isRed l && !isRed r) || (!c && isRed l && !isRed r)
        || (!c && !isRed l && isRed r && decide (tk ≤ k)))

theorem bh_node_isSome {k : K} {v : Option V} {l r : RBNode K V} {c : Bool} {s : Nat} :
    (bh (RBNode.node k v l r c s)).isSome = true ↔
      ∃ a, bh l = some a ∧ bh r = some a := by
  rw [Option.isSome_iff_exists]
  constructor
  · rintro ⟨n, hn⟩
    obtain ⟨a, h1, h2, -⟩ := bh_node_some.mp hn
    exact ⟨a, h1, h2⟩
  · rintro ⟨a, h1, h2⟩
    exact ⟨if c then a else a + 1, bh_node_some.mpr ⟨a, h1, h2, rfl⟩⟩

theorem MinIn_node {k : K} {v : Option V} {l r : RBNode K V} {c : Bool} {s : Nat} :
    MinIn (RBNode.node k v l r c s) = true ↔
      okColB l = true ∧ okColB r = true ∧ (∃ a, bh l = some a ∧ bh r = some a) ∧
        ((c = true ∧ isRed l = false ∧ isRed r = false)
          ∨ (c = false ∧ isRed l = true ∧ isRed r = false)) := by
  simp only [MinIn, Bool.and_eq_true, Bool.or_eq_true, Bool.not_eq_true', bh_node_isSome]
  constructor
  · rintro ⟨⟨⟨h1, h2⟩, h3⟩, h4⟩
    refine ⟨h1, h2, h3, ?_⟩
    rcases h4 with ⟨⟨hc, hl⟩, hr⟩ | ⟨⟨hc, hl⟩, hr⟩
    · exact Or.inl ⟨hc, hl, hr⟩
    · exact Or.inr ⟨by simpa using hc, by simpa using hl, hr⟩
  · rintro ⟨h1, h2, h3, h4⟩
    refine ⟨⟨⟨h1, h2⟩, h3⟩, ?_⟩
    rcases h4 with ⟨hc, hl, hr⟩ | ⟨hc, hl, hr⟩
    · exact Or.inl ⟨⟨hc, hl⟩, hr⟩
    · exact Or.inr ⟨⟨by simpa using hc, by simpa using hl⟩, hr⟩

theorem DelIn_node [LinearOrder K] {kk : K} {tk : K} {v : Option V} {l r : RBNode K V}
    {c : Bool} {s : Nat} :
    DelIn kk (RBNode.node tk v l r c s) = true ↔
      okColB l = true ∧ okColB r = true ∧ (∃ a, bh l = some a ∧ bh r = some a) ∧
        ((c = true ∧ isRed l = false ∧ isRed r = false)
          ∨ (c = false ∧ isRed l = true ∧ isRed r = false)
          ∨ (c = false ∧ isRed l = false ∧ isRed r = true ∧ tk ≤ kk)) := by
  simp only [DelIn, Bool.and_eq_true, Bool.or_eq_true, Bool.not_eq_true',
    bh_node_isSome, decide_eq_true_eq]
  constructor
  · rintro ⟨⟨⟨h1, h2⟩, h3⟩, h4⟩
    refine ⟨h1, h2, h3, ?_⟩
    rcases h4 with (⟨⟨hc, hl⟩, hr⟩ | ⟨⟨hc, hl⟩, hr⟩) | ⟨⟨⟨hc, hl⟩, hr⟩, hk⟩
    · exact Or.inl ⟨hc, hl, hr⟩
    · exact Or.inr (Or.inl ⟨by simpa using hc, by simpa using hl, hr⟩)
    · exact Or.inr (Or.inr ⟨by simpa using hc, by simpa using hl, hr, hk⟩)
  · rintro ⟨h1, h2, h3, h4⟩
    refine ⟨⟨⟨h1, h2⟩, h3⟩, ?_⟩
    rcases h4 with ⟨hc, hl, hr⟩ | ⟨hc, hl, hr⟩ | ⟨hc, hl, hr, hk⟩
    · exact Or.inl (Or.inl ⟨⟨hc, hl⟩, hr⟩)
    · exact Or.inl (Or.inr ⟨⟨by simpa using hc, by simpa using hl⟩, hr⟩)
    · exact Or.inr ⟨⟨⟨by simpa using hc, by simpa using hl⟩, hr⟩, by simpa using hk⟩

theorem MinIn_DelIn [LinearOrder K] {t : RBNode K V} {k : K} (h : MinIn t = true) :
    DelIn k t = true := by
  cases t with
  | nil => cases h
  | node tk v l r c s =>
    rw [MinIn_node] at h
    rw [DelIn_node]
    obtain ⟨h1, h2, h3, h4⟩ := h
    exact ⟨h1, h2, h3, h4.imp id Or.inl⟩

set_option maxHeartbeats 1000000 in
theorem mrl_massage {hk : K} {hv : Option V} {lk : K} {lv : Option V}
    {ll lr : RBNode K V} {lc : Bool} {ls : Nat} {hr : RBNode K V} {hc : Bool} {hs : Nat}
    {k1 : K} {v1 : Option V} {l1 r1 : RBNode K V} {c1 : Bool} {s1 : Nat}
    (hch : (if isRed (RBNode.node lk lv ll lr lc ls) then
              Except.ok (RBNode.node hk hv (.node lk lv ll lr lc ls) hr hc hs)
            else if isRed ll then
              Except.ok (RBNode.node hk hv (.node lk lv ll lr lc ls) hr hc hs)
            else move_red_left (RBNode.node hk hv (.node lk lv ll lr lc ls) hr hc hs))
          = .ok (RBNode.node k1 v1 l1 r1 c1 s1))
    (hin : MinIn (RBNode.node hk hv (.node lk lv ll lr lc ls) hr hc hs) = true) :
    okColB l1 = true ∧ okColB r1 = true ∧
    bh (RBNode.node k1 v1 l1 r1 c1 s1)
      = bh (RBNode.node hk hv (.node lk lv ll lr lc ls) hr hc hs) ∧
    (c1 = true → isRed r1 = false ∧ isRed l1 = false ∧ hc = true) ∧
    (isRed l1 = true → isRed r1 = true → hc = true) ∧
    MinIn l1 = true := by
  rw [MinIn_node] at hin
  obtain ⟨hHL, hhr, ⟨a, hbHL, hbhr⟩, hpat⟩ := hin
  rw [okColB_node] at hHL
  obtain ⟨hll, hlr, hlrb, hllb⟩ := hHL
  cases lc with
  | true =>
    rw [if_pos (by rfl)] at hch
    have he := Except.ok.inj hch
    injection he with e1 e2 e3 e4 e5 e6
    subst e1; subst e2; subst e3; subst e4; subst e5; subst e6
    rcases hpat with ⟨hc1, hHLb, -⟩ | ⟨hc0, -, hhrb⟩
    · simp [isRed] at hHLb
    · subst hc0
      refine ⟨?_, hhr, rfl, fun hx => absurd hx (by simp),
        fun _ h2 => absurd h2 (by rw [hhrb]; simp), ?_⟩
      · rw [okColB_node]
        exact ⟨hll, hlr, hlrb, fun _ => hllb rfl⟩
      · rw [MinIn_node]
        obtain ⟨x, hbll, hblr, hax⟩ := bh_node_some.mp hbHL
        exact ⟨hll, hlr, ⟨x, hbll, hblr⟩, Or.inl ⟨rfl, hllb rfl, hlrb⟩⟩
  | false =>
    rw [if_neg (by simp [isRed])] at hch
    have hpat2 : hc = true ∧ isRed hr = false := by
      rcases hpat with ⟨hc1, -, hhrb⟩ | ⟨-, hHLr, -⟩
      · exact ⟨hc1, hhrb⟩
      · simp [isRed] at hHLr
    obtain ⟨hc1, hhrb⟩ := hpat2
    subst hc1
    obtain ⟨x, hbll, hblr, hax⟩ := bh_node_some.mp hbHL
    rw [if_neg (by simp)] at hax
    cases hll0 : isRed ll with
    | true =>
      rw [if_pos hll0] at hch
      have he := Except.ok.inj hch
      injection he with e1 e2 e3 e4 e5 e6
      subst e1; subst e2; subst e3; subst e4; subst e5; subst e6
      refine ⟨?_, hhr, rfl, fun _ => ⟨hhrb, by simp [isRed], rfl⟩,
        fun h1 _ => rfl, ?_⟩
      · rw [okColB_node]
        exact ⟨hll, hlr, hlrb, fun hx => absurd hx (by simp)⟩
      · rw [MinIn_node]
        exact ⟨hll, hlr, ⟨x, hbll, hblr⟩, Or.inr ⟨rfl, hll0, hlrb⟩⟩
    | false =>
      rw [if_neg (by rw [hll0]; simp)] at hch
      cases hr with
      | nil => simp [move_red_left, flip_colors] at hch
      | node rk rv rl rr rc0 rs =>
        have hrc0 : rc0 = false := by simpa [isRed] using hhrb
        subst hrc0
        rw [okColB_node] at hhr
        obtain ⟨hrl, hrr, hrrb, -⟩ := hhr
        obtain ⟨y, hbrl, hbrr, hay⟩ := bh_node_some.mp hbhr
        rw [if_neg (by simp)] at hay
        have hxy : x = y := by omega
        subst hxy
        simp only [move_red_left, flip_colors, Bool.not_false, Bool.not_true,
          exBind_ok] at hch
        cases hrl0 : isRed rl with
        | false =>
          rw [if_neg (by rw [hrl0]; simp)] at hch
          have he := Except.ok.inj hch
          injection he with e1 e2 e3 e4 e5 e6
          subst e1; subst e2; subst e3; subst e4; subst e5; subst e6
          refine ⟨?_, ?_, ?_, fun hx => absurd hx (by simp), fun _ _ => rfl, ?_⟩
          · rw [okColB_node]
            exact ⟨hll, hlr, hlrb, fun _ => hll0⟩
          · rw [okColB_node]
            exact ⟨hrl, hrr, hrrb, fun _ => hrl0⟩
          · have eL : bh (RBNode.node lk lv ll lr true ls) = some x :=
              bh_node_some.mpr ⟨x, hbll, hblr, by simp⟩
            have eR : bh (RBNode.node rk rv rl rr true rs) = some x :=
              bh_node_some.mpr ⟨x, hbrl, hbrr, by simp⟩
            have eM : bh (RBNode.node hk hv (RBNode.node lk lv ll lr true ls)
                (RBNode.node rk rv rl rr true rs) false hs) = some (x + 1) :=
              bh_node_some.mpr ⟨x, eL, eR, by simp⟩
            have eS : bh (RBNode.node hk hv (RBNode.node lk lv ll lr false ls)
                (RBNode.node rk rv rl rr false rs) true hs) = some (x + 1) :=
              bh_node_some.mpr ⟨x + 1, bh_node_some.mpr ⟨x, hbll, hblr, by simp⟩,
                bh_node_some.mpr ⟨x, hbrl, hbrr, by simp⟩, by simp⟩
            rw [eM, eS]
          · rw [MinIn_node]
            exact ⟨hll, hlr, ⟨x, hbll, hblr⟩, Or.inl ⟨rfl, hll0, hlrb⟩⟩
        | true =>
          cases rl with
          | nil => simp [isRed] at hrl0
          | node rlk rlv A B rlc rls =>
            simp only [isRed] at hrl0
            subst hrl0
            rw [if_pos (show isRed (RBNode.node rlk rlv A B true rls) = true from rfl)] at hch
            simp only [rotate_right, eq_self_iff_true, if_true, exBind_ok] at hch
            simp only [rotate_left, eq_self_iff_true, if_true, exBind_ok] at hch
            simp only [flip_colors, RED, Bool.not_true, Bool.not_false] at hch
            have he := Except.ok.inj hch
            injection he with e1 e2 e3 e4 e5 e6
            subst e1; subst e2; subst e3; subst e4; subst e5; subst e6
            rw [okColB_node] at hrl
            obtain ⟨hA, hB, hBb, hAb⟩ := hrl
            obtain ⟨z, hbA, hbB, hz⟩ := bh_node_some.mp hbrl
            rw [if_pos rfl] at hz
            subst hz
            have eHL : bh (RBNode.node lk lv ll lr true ls) = some x :=
              bh_node_some.mpr ⟨x, hbll, hblr, by simp⟩
            refine ⟨?_, ?_, ?_, fun _ => ⟨by simp [isRed], by simp [isRed], rfl⟩,
              fun _ _ => rfl, ?_⟩
            · rw [okColB_node, okColB_node]
              exact ⟨⟨hll, hlr, hlrb, fun _ => hll0⟩, hA, hAb rfl,
                fun hx => absurd hx (by simp)⟩
            · rw [okColB_node]
              exact ⟨hB, hrr, hrrb, fun hx => absurd hx (by simp)⟩
            · have eL1 : bh (RBNode.node hk hv (RBNode.node lk lv ll lr true ls) A false
                  (1 + nodeSize (RBNode.node lk lv ll lr true ls) + nodeSize A))
                  = some (x + 1) :=
                bh_node_some.mpr ⟨x, eHL, hbA, by simp⟩
              have eR1 : bh (RBNode.node rk rv B rr false
                  (1 + nodeSize B + nodeSize rr)) = some (x + 1) :=
                bh_node_some.mpr ⟨x, hbB, hbrr, by simp⟩
              have eM : bh (RBNode.node rlk rlv
                  (RBNode.node hk hv (RBNode.node lk lv ll lr true ls) A false
                    (1 + nodeSize (RBNode.node lk lv ll lr true ls) + nodeSize A))
                  (RBNode.node rk rv B rr false (1 + nodeSize B + nodeSize rr))
                  true hs) = some (x + 1) :=
                bh_node_some.mpr ⟨x + 1, eL1, eR1, by simp⟩
              have eS : bh (RBNode.node hk hv (RBNode.node lk lv ll lr false ls)
                  (RBNode.node rk rv (RBNode.node rlk rlv A B true rls) rr false rs)
                  true hs) = some (x + 1) :=
                bh_node_some.mpr ⟨x + 1, bh_node_some.mpr ⟨x, hbll, hblr, by simp⟩,
                  bh_node_some.mpr ⟨x, hbrl, hbrr, by simp⟩, by simp⟩
              rw [eM, eS]
            · rw [MinIn_node]
              exact ⟨by rw [okColB_node]; exact ⟨hll, hlr, hlrb, fun _ => hll0⟩,
                hA, ⟨x, eHL, hbA⟩, Or.inr ⟨rfl, by simp [isRed], hAb rfl⟩⟩

theorem rbDeleteMin__color {t t' : RBNode K V} (h : rbDeleteMin_ t = .ok t')
    (hin : MinIn t = true) :
    okColB t' = true ∧ bh t' = bh t ∧ (isRed t' = true → isRed t = true) := by
  suffices H : ∀ n (t t' : RBNode K V), count t ≤ n → rbDeleteMin_ t = .ok t' →
      MinIn t = true →
      okColB t' = true ∧ bh t' = bh t ∧ (isRed t' = true → isRed t = true) by
    exact H (count t) t t' le_rfl h hin
  intro n
  induction n with
  | zero =>
    intro t t' hc h hin
    match t with
    | .nil => simp [rbDeleteMin_] at h
    | .node hk hv hl hr hc0 hs0 => simp [count] at hc
  | succ n ih =>
    intro t t' hc h hin
    match t with
    | .nil => simp [rbDeleteMin_] at h
    | .node hk hv .nil hr hc0 hs0 =>
      simp only [rbDeleteMin_] at h
      cases h
      rw [MinIn_node] at hin
      obtain ⟨-, -, ⟨a, ha1, ha2⟩, hpat⟩ := hin
      have ha0 : a = 0 := (Option.some.inj ha1).symm
      subst ha0
      have hc1 : hc0 = true := by
        rcases hpat with ⟨hx, -, -⟩ | ⟨-, hnl, -⟩
        · exact hx
        · simp [isRed] at hnl
      subst hc1
      refine ⟨rfl, ?_, fun hx => by cases hx⟩
      rw [show bh (RBNode.node hk hv .nil hr true hs0) = some 0 from
        bh_node_some.mpr ⟨0, rfl, ha2, by simp⟩]
      rfl
    | .node hk hv (.node lk lv ll lr lc ls) hr hc0 hs0 =>
      simp only [rbDeleteMin_] at h
      split at h
      · cases h
      · cases h
      · rename_i k1 v1 l1 r1 c1 s1 hmv
        obtain ⟨hcl1, hcr1, hbm, hc1f, hlrf, hminl1⟩ := mrl_massage hmv hin
        have hent1 : entries (RBNode.node k1 v1 l1 r1 c1 s1)
            = entries (RBNode.node hk hv (.node lk lv ll lr lc ls) hr hc0 hs0) := by
          split at hmv
          · exact congrArg entries (Except.ok.inj hmv).symm
          · split at hmv
            · exact congrArg entries (Except.ok.inj hmv).symm
            · exact entries_move_red_left hmv
        cases hrec : rbDeleteMin_ l1 with
        | error e => rw [hrec] at h; cases h
        | ok l2 =>
          rw [hrec] at h
          dsimp only at h
          have hcl1c : count l1 ≤ n := by
            have h1 : count (RBNode.node k1 v1 l1 r1 c1 s1)
                = count (RBNode.node hk hv (.node lk lv ll lr lc ls) hr hc0 hs0) := by
              rw [count_eq_entries_length, count_eq_entries_length, hent1]
            simp only [count] at h1 hc
            omega
          obtain ⟨hokb2, hbh2, hred2⟩ := ih l1 l2 hcl1c hrec hminl1
          -- black heights at the recombination node
          have hbt : (bh (RBNode.node hk hv (.node lk lv ll lr lc ls) hr hc0 hs0)).isSome
              = true := by
            cases hbq : bh (RBNode.node hk hv (.node lk lv ll lr lc ls) hr hc0 hs0) with
            | none =>
              rw [MinIn_node] at hin
              obtain ⟨-, -, ⟨a, ha1, ha2⟩, -⟩ := hin
              rw [bh_node_some.mpr ⟨a, ha1, ha2, rfl⟩] at hbq
              cases hbq
            | some v2 => rfl
          obtain ⟨nm, hnm⟩ := Option.isSome_iff_exists.mp (hbm ▸ hbt)
          obtain ⟨am, hbl1, hbr1, hnmv⟩ := bh_node_some.mp hnm
          have hbl2 : bh l2 = some am := by rw [hbh2, hbl1]
          have hside : c1 = true → isRed l2 = false ∧ isRed r1 = false := by
            intro hcc
            obtain ⟨hr1b, hl1b, -⟩ := hc1f hcc
            refine ⟨?_, hr1b⟩
            cases hq : isRed l2 with
            | false => rfl
            | true => exact absurd (hred2 hq) (by rw [hl1b]; simp)
          obtain ⟨hokF, hbhF, hredF⟩ := balance_color h hokb2 hcr1 hbl2 hbr1 hside
          refine ⟨hokF, ?_, ?_⟩
          · rw [hbhF, ← hbm, hnm, hnmv]
          · intro hredT
            have := hredF hredT
            rcases this with hcc | ⟨hl2r, hr1r⟩
            · have := (hc1f hcc).2.2
              simpa [isRed] using this
            · have := hlrf (hred2 hl2r) hr1r
              simpa [isRed] using this

set_option maxHeartbeats 1000000 in
theorem mrr_massage {k1 : K} {v1 : Option V} {l1 : RBNode K V} {rk : K} {rv : Option V}
    {rl rr : RBNode K V} {rc : Bool} {rs : Nat} {c1 : Bool} {s1 : Nat}
    {k2 : K} {v2 : Option V} {l2 r2 : RBNode K V} {c2 : Bool} {s2 : Nat}
    (hch : (if isRed (RBNode.node rk rv rl rr rc rs) then
              Except.ok (RBNode.node k1 v1 l1 (.node rk rv rl rr rc rs) c1 s1)
            else if isRed rl then
              Except.ok (RBNode.node k1 v1 l1 (.node rk rv rl rr rc rs) c1 s1)
            else move_red_right (RBNode.node k1 v1 l1 (.node rk rv rl rr rc rs) c1 s1))
          = .ok (RBNode.node k2 v2 l2 r2 c2 s2))
    (hl1 : okColB l1 = true) (hl1b : isRed l1 = false)
    (hr1 : okColB (RBNode.node rk rv rl rr rc rs) = true)
    (hone : (c1 = true ∧ rc = false) ∨ (c1 = false ∧ rc = true))
    (hbb : ∃ a, bh l1 = some a ∧ bh (RBNode.node rk rv rl rr rc rs) = some a) :
    okColB l2 = true ∧
    bh (RBNode.node k2 v2 l2 r2 c2 s2)
      = bh (RBNode.node k1 v1 l1 (.node rk rv rl rr rc rs) c1 s1) ∧
    (c2 = true → isRed l2 = false ∧ isRed r2 = false) ∧
    (isRed l2 = true → isRed r2 = true → c1 = true) ∧
    (c2 = true → c1 = true) ∧
    ((k2 = k1 ∧ MinIn r2 = true) ∨
      (∃ lv2 llx lrx ls2, l1 = RBNode.node k2 lv2 llx lrx false ls2 ∧
        ∃ rv2 l2x r2x s2x, r2 = RBNode.node k1 rv2 l2x r2x false s2x ∧
          okColB l2x = true ∧ okColB r2x = true ∧ isRed l2x = false ∧
          isRed r2x = true ∧ (∃ a, bh l2x = some a ∧ bh r2x = some a))) := by
  rw [okColB_node] at hr1
  obtain ⟨hrl, hrr, hrrb, hrlb⟩ := hr1
  obtain ⟨a, hbl1, hbr1⟩ := hbb
  cases rc with
  | true =>
    have hc10 : c1 = false := by
      rcases hone with ⟨-, hx⟩ | ⟨hx, -⟩
      · cases hx
      · exact hx
    subst hc10
    rw [if_pos (by rfl)] at hch
    have he := Except.ok.inj hch
    injection he with e1 e2 e3 e4 e5 e6
    subst e1; subst e2; subst e3; subst e4; subst e5; subst e6
    obtain ⟨y, hbrl, hbrr, hya⟩ := bh_node_some.mp hbr1
    rw [if_pos rfl] at hya
    subst hya
    refine ⟨hl1, rfl, fun hx => absurd hx (by simp),
      fun hx => absurd hx (by rw [hl1b]; simp), fun hx => absurd hx (by simp), ?_⟩
    left
    refine ⟨rfl, ?_⟩
    rw [MinIn_node]
    exact ⟨hrl, hrr, ⟨a, hbrl, hbrr⟩, Or.inl ⟨rfl, hrlb rfl, hrrb⟩⟩
  | false =>
    have hc11 : c1 = true := by
      rcases hone with ⟨hx, -⟩ | ⟨-, hx⟩
      · exact hx
      · cases hx
    subst hc11
    rw [if_neg (by simp [isRed])] at hch
    obtain ⟨y, hbrl, hbrr, hya⟩ := bh_node_some.mp hbr1
    rw [if_neg (by simp)] at hya
    cases hrl0 : isRed rl with
    | true =>
      rw [if_pos hrl0] at hch
      have he := Except.ok.inj hch
      injection he with e1 e2 e3 e4 e5 e6
      subst e1; subst e2; subst e3; subst e4; subst e5; subst e6
      refine ⟨hl1, rfl, fun _ => ⟨hl1b, by simp [isRed]⟩, fun _ _ => rfl,
        fun _ => rfl, ?_⟩
      left
      refine ⟨rfl, ?_⟩
      rw [MinIn_node]
      exact ⟨hrl, hrr, ⟨y, hbrl, hbrr⟩, Or.inr ⟨rfl, hrl0, hrrb⟩⟩
    | false =>
      rw [if_neg (by rw [hrl0]; simp)] at hch
      cases l1 with
      | nil => simp [move_red_right, flip_colors] at hch
      | node l1k l1v LL1 LR1 l1c l1s =>
        have hl1c : l1c = false := by simpa [isRed] using hl1b
        subst hl1c
        rw [okColB_node] at hl1
        obtain ⟨hLL1, hLR1, hLR1b, -⟩ := hl1
        obtain ⟨x, hbLL1, hbLR1, hxa⟩ := bh_node_some.mp hbl1
        rw [if_neg (by simp)] at hxa
        have hxy : x = y := by omega
        subst hxy
        simp only [move_red_right, flip_colors, Bool.not_false, Bool.not_true,
          exBind_ok] at hch
        cases hLL0 : isRed LL1 with
        | false =>
          rw [if_neg (by rw [hLL0]; simp)] at hch
          have he := Except.ok.inj hch
          injection he with e1 e2 e3 e4 e5 e6
          subst e1; subst e2; subst e3; subst e4; subst e5; subst e6
          refine ⟨?_, ?_, fun hx => absurd hx (by simp), fun _ _ => rfl,
            fun hx => absurd hx (by simp), ?_⟩
          · rw [okColB_node]
            exact ⟨hLL1, hLR1, hLR1b, fun _ => hLL0⟩
          · have eL : bh (RBNode.node l1k l1v LL1 LR1 true l1s) = some x :=
              bh_node_some.mpr ⟨x, hbLL1, hbLR1, by simp⟩
            have eR : bh (RBNode.node rk rv rl rr true rs) = some x :=
              bh_node_some.mpr ⟨x, hbrl, hbrr, by simp⟩
            have eM : bh (RBNode.node k1 v1 (RBNode.node l1k l1v LL1 LR1 true l1s)
                (RBNode.node rk rv rl rr true rs) false s1) = some (x + 1) :=
              bh_node_some.mpr ⟨x, eL, eR, by simp⟩
            have eS : bh (RBNode.node k1 v1 (RBNode.node l1k l1v LL1 LR1 false l1s)
                (RBNode.node rk rv rl rr false rs) true s1) = some (x + 1) :=
              bh_node_some.mpr ⟨x + 1, bh_node_some.mpr ⟨x, hbLL1, hbLR1, by simp⟩,
                bh_node_some.mpr ⟨x, hbrl, hbrr, by simp⟩, by simp⟩
            rw [eM, eS]
          · left
            refine ⟨rfl, ?_⟩
            rw [MinIn_node]
            exact ⟨hrl, hrr, ⟨x, hbrl, hbrr⟩, Or.inl ⟨rfl, hrl0, hrrb⟩⟩
        | true =>
          cases LL1 with
          | nil => simp [isRed] at hLL0
          | node ak av A1 A2 ac as2 =>
            simp only [isRed] at hLL0
            subst hLL0
            rw [if_pos (show isRed (RBNode.node ak av A1 A2 true as2) = true from rfl)] at hch
            simp only [rotate_right, eq_self_iff_true, if_true, exBind_ok] at hch
            simp only [flip_colors, RED, Bool.not_true, Bool.not_false] at hch
            have he := Except.ok.inj hch
            injection he with e1 e2 e3 e4 e5 e6
            subst e1; subst e2; subst e3; subst e4; subst e5; subst e6
            rw [okColB_node] at hLL1
            obtain ⟨hA1, hA2, hA2b, hA1b⟩ := hLL1
            obtain ⟨z, hbA1, hbA2, hza⟩ := bh_node_some.mp hbLL1
            rw [if_pos rfl] at hza
            subst hza
            refine ⟨?_, ?_, fun _ => ⟨by simp [isRed], by simp [isRed]⟩,
              fun hx => absurd hx (by simp [isRed]), fun _ => rfl, ?_⟩
            · rw [okColB_node]
              exact ⟨hA1, hA2, hA2b, fun _ => hA1b rfl⟩
            · have eInner : bh (RBNode.node rk rv rl rr true rs) = some x :=
                bh_node_some.mpr ⟨x, hbrl, hbrr, by simp⟩
              have eR2 : bh (RBNode.node k1 v1 LR1 (RBNode.node rk rv rl rr true rs)
                  false (1 + nodeSize LR1 + nodeSize (RBNode.node rk rv rl rr true rs)))
                  = some (x + 1) :=
                bh_node_some.mpr ⟨x, hbLR1, eInner, by simp⟩
              have eL2 : bh (RBNode.node ak av A1 A2 false as2) = some (x + 1) :=
                bh_node_some.mpr ⟨x, hbA1, hbA2, by simp⟩
              have eM : bh (RBNode.node l1k l1v (RBNode.node ak av A1 A2 false as2)
                  (RBNode.node k1 v1 LR1 (RBNode.node rk rv rl rr true rs) false
                    (1 + nodeSize LR1 + nodeSize (RBNode.node rk rv rl rr true rs)))
                  true s1) = some (x + 1) :=
                bh_node_some.mpr ⟨x + 1, eL2, eR2, by simp⟩
              have eS : bh (RBNode.node k1 v1
                  (RBNode.node l1k l1v (RBNode.node ak av A1 A2 true as2) LR1 false l1s)
                  (RBNode.node rk rv rl rr false rs) true s1) = some (x + 1) :=
                bh_node_some.mpr ⟨x + 1,
                  bh_node_some.mpr ⟨x, bh_node_some.mpr ⟨x, hbA1, hbA2, by simp⟩,
                    hbLR1, by simp⟩,
                  bh_node_some.mpr ⟨x, hbrl, hbrr, by simp⟩, by simp⟩
              rw [eM, eS]
            · right
              refine ⟨l1v, RBNode.node ak av A1 A2 true as2, LR1, l1s, rfl,
                v1, LR1, RBNode.node rk rv rl rr true rs, _, rfl,
                hLR1, ?_, hLR1b, by simp [isRed], ?_⟩
              · rw [okColB_node]
                exact ⟨hrl, hrr, hrrb, fun _ => hrl0⟩
              · exact ⟨x, hbLR1, bh_node_some.mpr ⟨x, hbrl, hbrr, by simp⟩⟩

/-- Facts established by the optional `rotate_right` at the top of `_delete`'s
right branch: the resulting root still carries the one-red pattern, black
height is unchanged, and the new root key stays at or below the search key. -/
theorem rot_massage [LinearOrder K] {hk : K} {hv : Option V} {hl hr : RBNode K V}
    {hc : Bool} {hs : Nat} {k1 : K} {v1 : Option V} {l1 r1 : RBNode K V}
    {c1 : Bool} {s1 : Nat} {k : K}
    (hrot : (if isRed hl then rotate_right (RBNode.node hk hv hl hr hc hs)
             else Except.ok (RBNode.node hk hv hl hr hc hs))
            = .ok (RBNode.node k1 v1 l1 r1 c1 s1))
    (hin : DelIn k (RBNode.node hk hv hl hr hc hs) = true)
    (hb : IsBSTp (RBNode.node hk hv hl hr hc hs))
    (hkk : hk ≤ k) :
    okColB l1 = true ∧ isRed l1 = false ∧ okColB r1 = true ∧
    ((c1 = true ∧ isRed r1 = false) ∨ (c1 = false ∧ isRed r1 = true)) ∧
    (∃ a, bh l1 = some a ∧ bh r1 = some a) ∧
    bh (RBNode.node k1 v1 l1 r1 c1 s1) = bh (RBNode.node hk hv hl hr hc hs) ∧
    (c1 = true → hc = true) ∧
    k1 ≤ k ∧
    IsBSTp (RBNode.node k1 v1 l1 r1 c1 s1) ∧
    count (RBNode.node k1 v1 l1 r1 c1 s1) = count (RBNode.node hk hv hl hr hc hs) := by
  rw [DelIn_node] at hin
  obtain ⟨hhl, hhr, ⟨a, hbhl, hbhr⟩, hpat⟩ := hin
  cases hhl0 : isRed hl with
  | false =>
    rw [if_neg (by rw [hhl0]; simp)] at hrot
    have he := Except.ok.inj hrot
    injection he with e1 e2 e3 e4 e5 e6
    subst e1; subst e2; subst e3; subst e4; subst e5; subst e6
    rcases hpat with ⟨hc1, -, hrb⟩ | ⟨-, hlr, -⟩ | ⟨hc0, -, hrr, -⟩
    · exact ⟨hhl, hhl0, hhr, Or.inl ⟨hc1, hrb⟩, ⟨a, hbhl, hbhr⟩, rfl,
        fun _ => hc1, hkk, hb, rfl⟩
    · rw [hhl0] at hlr; cases hlr
    · exact ⟨hhl, hhl0, hhr, Or.inr ⟨hc0, hrr⟩, ⟨a, hbhl, hbhr⟩, rfl,
        fun hx => absurd (hc0 ▸ hx) (by simp), hkk, hb, rfl⟩
  | true =>
    cases hl with
    | nil => simp [isRed] at hhl0
    | node lk lv ll lr lc ls =>
      simp only [isRed] at hhl0
      subst hhl0
      have hpat2 : hc = false ∧ isRed hr = false := by
        rcases hpat with ⟨-, hlb, -⟩ | ⟨hc0, -, hrb⟩ | ⟨-, hlb, -⟩
        · simp [isRed] at hlb
        · exact ⟨hc0, hrb⟩
        · simp [isRed] at hlb
      obtain ⟨hc0, hhrb⟩ := hpat2
      subst hc0
      rw [if_pos (show isRed (RBNode.node lk lv ll lr true ls) = true from rfl)] at hrot
      simp only [rotate_right, eq_self_iff_true, if_true, RED] at hrot
      have he := Except.ok.inj hrot
      injection he with e1 e2 e3 e4 e5 e6
      subst e1; subst e2; subst e3; subst e4; subst e5; subst e6
      rw [okColB_node] at hhl
      obtain ⟨hll, hlr2, hlrb, hllb⟩ := hhl
      obtain ⟨x, hbll, hblr, hax⟩ := bh_node_some.mp hbhl
      rw [if_pos rfl] at hax
      subst hax
      have hbr1 : bh (RBNode.node hk hv lr hr true (1 + nodeSize lr + nodeSize hr))
          = some a := bh_node_some.mpr ⟨a, hblr, hbhr, by simp⟩
      refine ⟨hll, hllb rfl, ?_, Or.inr ⟨rfl, rfl⟩, ⟨a, hbll, hbr1⟩, ?_, ?_, ?_, ?_, ?_⟩
      · rw [okColB_node]
        exact ⟨hlr2, hhr, hhrb, fun _ => hlrb⟩
      · have eM : bh (RBNode.node lk lv ll
            (RBNode.node hk hv lr hr true (1 + nodeSize lr + nodeSize hr))
            false hs) = some (a + 1) :=
          bh_node_some.mpr ⟨a, hbll, hbr1, by simp⟩
        have eS : bh (RBNode.node hk hv (RBNode.node lk lv ll lr true ls) hr
            false hs) = some (a + 1) :=
          bh_node_some.mpr ⟨a, bh_node_some.mpr ⟨a, hbll, hblr, by simp⟩, hbhr,
            by simp⟩
        rw [eM, eS]
      · intro hx; cases hx
      · have hmem : lk ∈ keysList (RBNode.node lk lv ll lr true ls) := by
          rw [keysList_node]; simp
        have hlt : lk < hk := (isBSTp_node.mp hb).2.2.1 lk hmem
        exact le_of_lt (lt_of_lt_of_le hlt hkk)
      · have hkeq : keysList (RBNode.node lk lv ll
            (RBNode.node hk hv lr hr true (1 + nodeSize lr + nodeSize hr)) false hs)
            = keysList (RBNode.node hk hv (RBNode.node lk lv ll lr true ls) hr
                false hs) := by
          simp [keysList_node, List.append_assoc]
        rw [IsBSTp, hkeq]
        exact hb
      · simp only [count]
        omega

set_option maxHeartbeats 4000000 in
theorem rbDelete__color [LinearOrder K] {t t' : RBNode K V} {k : K}
    (h : rbDelete_ t k = .ok t') (hb : IsBSTp t) (hin : DelIn k t = true) :
    okColB t' = true ∧ bh t' = bh t ∧ (isRed t' = true → isRed t = true) := by
  suffices H : ∀ n (t t' : RBNode K V), count t ≤ n → rbDelete_ t k = .ok t' →
      IsBSTp t → DelIn k t = true →
      okColB t' = true ∧ bh t' = bh t ∧ (isRed t' = true → isRed t = true) by
    exact H (count t) t t' le_rfl h hb hin
  intro n
  induction n with
  | zero =>
    intro t t' hc h hb hin
    match t with
    | .nil => simp only [rbDelete_] at h; cases h
    | .node hk hv hl hr hc0 hs0 => simp [count] at hc
  | succ n ih =>
    intro t t' hc h hb hin
    match t with
    | .nil => simp only [rbDelete_] at h; cases h
    | .node hk hv .nil hr hc0 hs0 =>
      simp only [rbDelete_] at h
      split at h
      · cases h
      · rename_i hge
        split at h
        · cases h
        · cases h
        · rename_i k1 v1 l1 r1 c1 s1 hrot
          have hge2 : hk ≤ k := le_of_not_lt hge
          obtain ⟨hl1, hl1b, hr1, hone, ⟨a, hbl1, hbr1⟩, hbm1, hc1hc, hk1k,
            hbst1, hcm1⟩ := rot_massage hrot hin hb hge2
          split at h
          · rename_i hcond
            cases h
            have hr1n : r1 = RBNode.nil := by
              cases r1 with
              | nil => rfl
              | node a1 a2 a3 a4 a5 a6 => simp [isEmptyW] at hcond
            subst hr1n
            have ha0 : a = 0 := by
              simp [bh] at hbr1
              omega
            subst ha0
            have hc1t : c1 = true := by
              rcases hone with ⟨hx, -⟩ | ⟨-, hx⟩
              · exact hx
              · simp [isRed] at hx
            subst hc1t
            have hbm0 : bh (RBNode.node k1 v1 l1 RBNode.nil true s1)
                = some 0 := bh_node_some.mpr ⟨0, hbl1, rfl, by simp⟩
            refine ⟨rfl, ?_, fun hx => by cases hx⟩
            rw [← hbm1, hbm0]
            rfl
          · rename_i hcond2
            split at h
            · cases h
            · cases h
            · rename_i k2 v2 l2 r2 c2 s2 hmv2
              cases r1 with
              | nil => cases hmv2
              | node rk rv rl rr rc rs =>
                dsimp only at hmv2
                simp only [isRed] at hone
                obtain ⟨hl2ok, hbm2, hc2blk, hlrc1, hc2c1, halt⟩ :=
                  mrr_massage hmv2 hl1 hl1b hr1 hone ⟨a, hbl1, hbr1⟩
                have hent2 : entries (RBNode.node k2 v2 l2 r2 c2 s2)
                    = entries (RBNode.node k1 v1 l1
                        (RBNode.node rk rv rl rr rc rs) c1 s1) := by
                  split at hmv2
                  · exact congrArg entries (Except.ok.inj hmv2).symm
                  · split at hmv2
                    · exact congrArg entries (Except.ok.inj hmv2).symm
                    · exact entries_move_red_right hmv2
                have hbst2 : IsBSTp (RBNode.node k2 v2 l2 r2 c2 s2) := by
                  rw [IsBSTp, keysList, hent2]
                  exact hbst1
                have hcm2 : count (RBNode.node k2 v2 l2 r2 c2 s2)
                    = count (RBNode.node k1 v1 l1
                        (RBNode.node rk rv rl rr rc rs) c1 s1) := by
                  rw [count_eq_entries_length, count_eq_entries_length, hent2]
                have hbm1v : bh (RBNode.node k1 v1 l1
                    (RBNode.node rk rv rl rr rc rs) c1 s1)
                    = some (if c1 then a else a + 1) :=
                  bh_node_some.mpr ⟨a, hbl1, hbr1, rfl⟩
                obtain ⟨am, hbl2, hbr2, hamv⟩ :=
                  bh_node_some.mp (hbm2.trans hbm1v)
                split at h
                · rename_i hkk2
                  have hMinr2 : MinIn r2 = true := by
                    rcases halt with ⟨-, hm⟩ | ⟨lv2, llx, lrx, ls2, hl1eq, -⟩
                    · exact hm
                    · exfalso
                      have hmem : k2 ∈ keysList l1 := by
                        rw [hl1eq, keysList_node]
                        simp
                      have hlt2 : k2 < k1 := (isBSTp_node.mp hbst1).2.2.1 k2 hmem
                      have : k1 < k1 := lt_of_le_of_lt (hkk2 ▸ hk1k) hlt2
                      exact lt_irrefl k1 this
                  cases hmin : rbMinNode r2 with
                  | error e => rw [hmin] at h; cases h
                  | ok u =>
                    rw [hmin] at h
                    cases u with
                    | nil => dsimp only at h; cases h
                    | node xk xv u1 u2 u3 u4 =>
                      dsimp only at h
                      cases hdm : rbDeleteMin_ r2 with
                      | error e => rw [hdm] at h; cases h
                      | ok r3 =>
                        rw [hdm] at h
                        dsimp only at h
                        obtain ⟨hokr3, hbhr3, hredr3⟩ :=
                          rbDeleteMin__color hdm hMinr2
                        have hbr3 : bh r3 = some am := by rw [hbhr3, hbr2]
                        have hside : c2 = true →
                            isRed l2 = false ∧ isRed r3 = false := by
                          intro hcc
                          obtain ⟨h1a, h2a⟩ := hc2blk hcc
                          refine ⟨h1a, ?_⟩
                          cases hq : isRed r3 with
                          | false => rfl
                          | true => exact absurd (hredr3 hq) (by rw [h2a]; simp)
                        obtain ⟨hokF, hbhF, hredF⟩ :=
                          balance_color h hl2ok hokr3 hbl2 hbr3 hside
                        refine ⟨hokF, ?_, ?_⟩
                        · rw [hbhF, ← hamv, ← hbm1v, hbm1]
                        · intro hredT
                          rcases hredF hredT with hcc | ⟨hl2r, hr3r⟩
                          · exact hc1hc (hc2c1 hcc)
                          · exact hc1hc (hlrc1 hl2r (hredr3 hr3r))
                · rename_i hkk2
                  have hdel2 : DelIn k r2 = true := by
                    rcases halt with ⟨-, hm⟩ | ⟨lv2, llx, lrx, ls2, hl1eq,
                      rv2, l2x, r2x, s2x, hr2eq, hok1, hok2, hl2xb, hr2xr, hbhx⟩
                    · exact MinIn_DelIn hm
                    · rw [hr2eq, DelIn_node]
                      exact ⟨hok1, hok2, hbhx,
                        Or.inr (Or.inr ⟨rfl, hl2xb, hr2xr, hk1k⟩)⟩
                  have hbstr2 : IsBSTp r2 := (isBSTp_node.mp hbst2).2.1
                  cases hrec : rbDelete_ r2 k with
                  | error e => rw [hrec] at h; cases h
                  | ok r3 =>
                    rw [hrec] at h
                    dsimp only at h
                    have hcr2 : count r2 ≤ n := by
                      simp only [count] at hcm2 hcm1 hc
                      omega
                    obtain ⟨hokr3, hbhr3, hredr3⟩ :=
                      ih r2 r3 hcr2 hrec hbstr2 hdel2
                    have hbr3 : bh r3 = some am := by rw [hbhr3, hbr2]
                    have hside : c2 = true →
                        isRed l2 = false ∧ isRed r3 = false := by
                      intro hcc
                      obtain ⟨h1a, h2a⟩ := hc2blk hcc
                      refine ⟨h1a, ?_⟩
                      cases hq : isRed r3 with
                      | false => rfl
                      | true => exact absurd (hredr3 hq) (by rw [h2a]; simp)
                    obtain ⟨hokF, hbhF, hredF⟩ :=
                      balance_color h hl2ok hokr3 hbl2 hbr3 hside
                    refine ⟨hokF, ?_, ?_⟩
                    · rw [hbhF, ← hamv, ← hbm1v, hbm1]
                    · intro hredT
                      rcases hredF hredT with hcc | ⟨hl2r, hr3r⟩
                      · exact hc1hc (hc2c1 hcc)
                      · exact hc1hc (hlrc1 hl2r (hredr3 hr3r))

    | .node hk hv (.node lk lv ll lr lc ls) hr hc0 hs0 =>
      simp only [rbDelete_] at h
      split at h
      · rename_i hlt
        split at h
        · cases h
        · cases h
        · rename_i k1 v1 l1 r1 c1 s1 hmv
          have hmint : MinIn (RBNode.node hk hv
              (.node lk lv ll lr lc ls) hr hc0 hs0) = true := by
            rw [DelIn_node] at hin
            rw [MinIn_node]
            obtain ⟨h1, h2, h3, h4⟩ := hin
            refine ⟨h1, h2, h3, ?_⟩
            rcases h4 with hA | hB | ⟨-, -, -, hge⟩
            · exact Or.inl hA
            · exact Or.inr hB
            · exact absurd hlt (not_lt.mpr hge)
          obtain ⟨hcl1, hcr1, hbm, hc1f, hlrf, hminl1⟩ := mrl_massage hmv hmint
          have hent1 : entries (RBNode.node k1 v1 l1 r1 c1 s1)
              = entries (RBNode.node hk hv (.node lk lv ll lr lc ls) hr hc0 hs0) := by
            split at hmv
            · exact congrArg entries (Except.ok.inj hmv).symm
            · split at hmv
              · exact congrArg entries (Except.ok.inj hmv).symm
              · exact entries_move_red_left hmv
          cases hrec : rbDelete_ l1 k with
          | error e => rw [hrec] at h; cases h
          | ok l2 =>
            rw [hrec] at h
            dsimp only at h
            have hcl1c : count l1 ≤ n := by
              have h1 : count (RBNode.node k1 v1 l1 r1 c1 s1)
                  = count (RBNode.node hk hv (.node lk lv ll lr lc ls) hr hc0 hs0) := by
                rw [count_eq_entries_length, count_eq_entries_length, hent1]
              simp only [count] at h1 hc
              omega
            have hbst1 : IsBSTp (RBNode.node k1 v1 l1 r1 c1 s1) := by
              rw [IsBSTp, keysList, hent1]
              exact hb
            have hbstl1 : IsBSTp l1 := (isBSTp_node.mp hbst1).1
            obtain ⟨hokb2, hbh2, hred2⟩ :=
              ih l1 l2 hcl1c hrec hbstl1 (MinIn_DelIn hminl1)
            have hbt : (bh (RBNode.node hk hv
                (.node lk lv ll lr lc ls) hr hc0 hs0)).isSome = true := by
              cases hbq : bh (RBNode.node hk hv
                  (.node lk lv ll lr lc ls) hr hc0 hs0) with
              | none =>
                rw [MinIn_node] at hmint
                obtain ⟨-, -, ⟨a, ha1, ha2⟩, -⟩ := hmint
                rw [bh_node_some.mpr ⟨a, ha1, ha2, rfl⟩] at hbq
                cases hbq
              | some v2 => rfl
            obtain ⟨nm, hnm⟩ := Option.isSome_iff_exists.mp (hbm ▸ hbt)
            obtain ⟨am, hbl1, hbr1, hnmv⟩ := bh_node_some.mp hnm
            have hbl2 : bh l2 = some am := by rw [hbh2, hbl1]
            have hside : c1 = true → isRed l2 = false ∧ isRed r1 = false := by
              intro hcc
              obtain ⟨hr1b, hl1b, -⟩ := hc1f hcc
              refine ⟨?_, hr1b⟩
              cases hq : isRed l2 with
              | false => rfl
              | true => exact absurd (hred2 hq) (by rw [hl1b]; simp)
            obtain ⟨hokF, hbhF, hredF⟩ := balance_color h hokb2 hcr1 hbl2 hbr1 hside
            refine ⟨hokF, ?_, ?_⟩
            · rw [hbhF, ← hbm, hnm, hnmv]
            · intro hredT
              rcases hredF hredT with hcc | ⟨hl2r, hr1r⟩
              · have := (hc1f hcc).2.2
                simpa [isRed] using this
              · have := hlrf (hred2 hl2r) hr1r
                simpa [isRed] using this
      · rename_i hge
        split at h
        · cases h
        · cases h
        · rename_i k1 v1 l1 r1 c1 s1 hrot
          have hge2 : hk ≤ k := le_of_not_lt hge
          obtain ⟨hl1, hl1b, hr1, hone, ⟨a, hbl1, hbr1⟩, hbm1, hc1hc, hk1k,
            hbst1, hcm1⟩ := rot_massage hrot hin hb hge2
          split at h
          · rename_i hcond
            cases h
            have hr1n : r1 = RBNode.nil := by
              cases r1 with
              | nil => rfl
              | node a1 a2 a3 a4 a5 a6 => simp [isEmptyW] at hcond
            subst hr1n
            have ha0 : a = 0 := by
              simp [bh] at hbr1
              omega
            subst ha0
            have hc1t : c1 = true := by
              rcases hone with ⟨hx, -⟩ | ⟨-, hx⟩
              · exact hx
              · simp [isRed] at hx
            subst hc1t
            have hbm0 : bh (RBNode.node k1 v1 l1 RBNode.nil true s1)
                = some 0 := bh_node_some.mpr ⟨0, hbl1, rfl, by simp⟩
            refine ⟨rfl, ?_, fun hx => by cases hx⟩
            rw [← hbm1, hbm0]
            rfl
          · rename_i hcond2
            split at h
            · cases h
            · cases h
            · rename_i k2 v2 l2 r2 c2 s2 hmv2
              cases r1 with
              | nil => cases hmv2
              | node rk rv rl rr rc rs =>
                dsimp only at hmv2
                simp only [isRed] at hone
                obtain ⟨hl2ok, hbm2, hc2blk, hlrc1, hc2c1, halt⟩ :=
                  mrr_massage hmv2 hl1 hl1b hr1 hone ⟨a, hbl1, hbr1⟩
                have hent2 : entries (RBNode.node k2 v2 l2 r2 c2 s2)
                    = entries (RBNode.node k1 v1 l1
                        (RBNode.node rk rv rl rr rc rs) c1 s1) := by
                  split at hmv2
                  · exact congrArg entries (Except.ok.inj hmv2).symm
                  · split at hmv2
                    · exact congrArg entries (Except.ok.inj hmv2).symm
                    · exact entries_move_red_right hmv2
                have hbst2 : IsBSTp (RBNode.node k2 v2 l2 r2 c2 s2) := by
                  rw [IsBSTp, keysList, hent2]
                  exact hbst1
                have hcm2 : count (RBNode.node k2 v2 l2 r2 c2 s2)
                    = count (RBNode.node k1 v1 l1
                        (RBNode.node rk rv rl rr rc rs) c1 s1) := by
                  rw [count_eq_entries_length, count_eq_entries_length, hent2]
                have hbm1v : bh (RBNode.node k1 v1 l1
                    (RBNode.node rk rv rl rr rc rs) c1 s1)
                    = some (if c1 then a else a + 1) :=
                  bh_node_some.mpr ⟨a, hbl1, hbr1, rfl⟩
                obtain ⟨am, hbl2, hbr2, hamv⟩ :=
                  bh_node_some.mp (hbm2.trans hbm1v)
                split at h
                · rename_i hkk2
                  have hMinr2 : MinIn r2 = true := by
                    rcases halt with ⟨-, hm⟩ | ⟨lv2, llx, lrx, ls2, hl1eq, -⟩
                    · exact hm
                    · exfalso
                      have hmem : k2 ∈ keysList l1 := by
                        rw [hl1eq, keysList_node]
                        simp
                      have hlt2 : k2 < k1 := (isBSTp_node.mp hbst1).2.2.1 k2 hmem
                      have : k1 < k1 := lt_of_le_of_lt (hkk2 ▸ hk1k) hlt2
                      exact lt_irrefl k1 this
                  cases hmin : rbMinNode r2 with
                  | error e => rw [hmin] at h; cases h
                  | ok u =>
                    rw [hmin] at h
                    cases u with
                    | nil => dsimp only at h; cases h
                    | node xk xv u1 u2 u3 u4 =>
                      dsimp only at h
                      cases hdm : rbDeleteMin_ r2 with
                      | error e => rw [hdm] at h; cases h
                      | ok r3 =>
                        rw [hdm] at h
                        dsimp only at h
                        obtain ⟨hokr3, hbhr3, hredr3⟩ :=
                          rbDeleteMin__color hdm hMinr2
                        have hbr3 : bh r3 = some am := by rw [hbhr3, hbr2]
                        have hside : c2 = true →
                            isRed l2 = false ∧ isRed r3 = false := by
                          intro hcc
                          obtain ⟨h1a, h2a⟩ := hc2blk hcc
                          refine ⟨h1a, ?_⟩
                          cases hq : isRed r3 with
                          | false => rfl
                          | true => exact absurd (hredr3 hq) (by rw [h2a]; simp)
                        obtain ⟨hokF, hbhF, hredF⟩ :=
                          balance_color h hl2ok hokr3 hbl2 hbr3 hside
                        refine ⟨hokF, ?_, ?_⟩
                        · rw [hbhF, ← hamv, ← hbm1v, hbm1]
                        · intro hredT
                          rcases hredF hredT with hcc | ⟨hl2r, hr3r⟩
                          · exact hc1hc (hc2c1 hcc)
                          · exact hc1hc (hlrc1 hl2r (hredr3 hr3r))
                · rename_i hkk2
                  have hdel2 : DelIn k r2 = true := by
                    rcases halt with ⟨-, hm⟩ | ⟨lv2, llx, lrx, ls2, hl1eq,
                      rv2, l2x, r2x, s2x, hr2eq, hok1, hok2, hl2xb, hr2xr, hbhx⟩
                    · exact MinIn_DelIn hm
                    · rw [hr2eq, DelIn_node]
                      exact ⟨hok1, hok2, hbhx,
                        Or.inr (Or.inr ⟨rfl, hl2xb, hr2xr, hk1k⟩)⟩
                  have hbstr2 : IsBSTp r2 := (isBSTp_node.mp hbst2).2.1
                  cases hrec : rbDelete_ r2 k with
                  | error e => rw [hrec] at h; cases h
                  | ok r3 =>
                    rw [hrec] at h
                    dsimp only at h
                    have hcr2 : count r2 ≤ n := by
                      simp only [count] at hcm2 hcm1 hc
                      omega
                    obtain ⟨hokr3, hbhr3, hredr3⟩ :=
                      ih r2 r3 hcr2 hrec hbstr2 hdel2
                    have hbr3 : bh r3 = some am := by rw [hbhr3, hbr2]
                    have hside : c2 = true →
                        isRed l2 = false ∧ isRed r3 = false := by
                      intro hcc
                      obtain ⟨h1a, h2a⟩ := hc2blk hcc
                      refine ⟨h1a, ?_⟩
                      cases hq : isRed r3 with
                      | false => rfl
                      | true => exact absurd (hredr3 hq) (by rw [h2a]; simp)
                    obtain ⟨hokF, hbhF, hredF⟩ :=
                      balance_color h hl2ok hokr3 hbl2 hbr3 hside
                    refine ⟨hokF, ?_, ?_⟩
                    · rw [hbhF, ← hamv, ← hbm1v, hbm1]
                    · intro hredT
                      rcases hredF hredT with hcc | ⟨hl2r, hr3r⟩
                      · exact hc1hc (hc2c1 hcc)
                      · exact hc1hc (hlrc1 hl2r (hredr3 hr3r))

/-- The public `delete(key)` wrapper keeps the color invariants: from a
black-rooted, color-correct, balanced tree, a successful delete returns a
black-rooted, color-correct, balanced tree (lines 141-157: the root is
pre-colored red when both children are black, `_delete` runs, and a non-empty
result is re-blackened). -/
theorem rbDelete_ok_color [LinearOrder K] {t t2 : RBNode K V} {key : Option K}
    (h : rbDelete t key = .ok t2) (hb : IsBSTp t)
    (hc : okColB t = true) (hbh : (bh t).isSome = true) (hrt : isRed t = false) :
    okColB t2 = true ∧ (bh t2).isSome = true ∧ isRed t2 = false := by
  match key, t, h with
  | none, t, h => simp only [rbDelete] at h; cases h
  | some k, .nil, h => simp only [rbDelete] at h; cases h
  | some k, .node rk rv rl rr rc rs, h =>
    simp only [rbDelete] at h
    have hrc : rc = false := by simpa [isRed] using hrt
    subst hrc
    rw [okColB_node] at hc
    obtain ⟨hcl, hcr, hcrb, -⟩ := hc
    obtain ⟨a, hba, hbb⟩ := bh_node_isSome.mp hbh
    obtain ⟨c0, hc0, hdin⟩ : ∃ c0,
        (if (!isRed rl && !isRed rr) = true
          then RBNode.node rk rv rl rr RED rs
          else RBNode.node rk rv rl rr false rs) = RBNode.node rk rv rl rr c0 rs ∧
        DelIn k (RBNode.node rk rv rl rr c0 rs) = true := by
      cases hrl0 : isRed rl with
      | false =>
        refine ⟨RED, by rw [if_pos (by simp [hrl0, hcrb])], ?_⟩
        rw [DelIn_node]
        exact ⟨hcl, hcr, ⟨a, hba, hbb⟩, Or.inl ⟨rfl, hrl0, hcrb⟩⟩
      | true =>
        refine ⟨false, by rw [if_neg (by simp)], ?_⟩
        rw [DelIn_node]
        exact ⟨hcl, hcr, ⟨a, hba, hbb⟩, Or.inr (Or.inl ⟨rfl, hrl0, hcrb⟩)⟩
    rw [hc0] at h
    have hbst0 : IsBSTp (RBNode.node rk rv rl rr c0 rs) := hb
    cases hdel : rbDelete_ (RBNode.node rk rv rl rr c0 rs) k with
    | error e => rw [hdel] at h; cases h
    | ok u =>
      rw [hdel] at h
      obtain ⟨hoku, hbhu, -⟩ := rbDelete__color hdel hbst0 hdin
      have hbh0 : (bh (RBNode.node rk rv rl rr c0 rs)).isSome = true :=
        bh_node_isSome.mpr ⟨a, hba, hbb⟩
      cases u with
      | nil =>
        dsimp only at h
        cases h
        exact ⟨rfl, rfl, rfl⟩
      | node k2 v2 l2 r2 c2 s2 =>
        dsimp only at h
        cases h
        rw [okColB_node] at hoku
        obtain ⟨h1, h2, h3, -⟩ := hoku
        have hbhu2 : (bh (RBNode.node k2 v2 l2 r2 c2 s2)).isSome = true := by
          rw [hbhu]
          exact hbh0
        obtain ⟨a2, hba2, hbb2⟩ := bh_node_isSome.mp hbhu2
        refine ⟨?_, ?_, rfl⟩
        · rw [okColB_node]
          exact ⟨h1, h2, h3, fun hx => by cases hx⟩
        · exact bh_node_isSome.mpr ⟨a2, hba2, hbb2⟩

/-- The states reachable from the empty table through successful public
`put`/`delete` calls only (the call sequences claim C5 quantifies over). -/
inductive ReachPD [LinearOrder K] : RBNode K V → Prop where
  | empty : ReachPD .nil
  | put : ∀ (t t' : RBNode K V) (key : Option K) (val : Option V),
      ReachPD t → rbPut t key val = .ok t' → ReachPD t'
  | del : ∀ (t t' : RBNode K V) (key : Option K),
      ReachPD t → rbDelete t key = .ok t' → ReachPD t'

theorem reachPD_invariants [LinearOrder K] {t : RBNode K V} (h : ReachPD t) :
    IsBSTp t ∧ sizeOkB t = true ∧ okColB t = true ∧ (bh t).isSome = true ∧
      isRed t = false := by
  induction h with
  | empty => exact ⟨List.Pairwise.nil, rfl, rfl, rfl, rfl⟩
  | put t0 t1 key val hr hp ih =>
    obtain ⟨hb, hs, hcol, hbh, hrt⟩ := ih
    match key, hp with
    | none, hp => simp only [rbPut] at hp; cases hp
    | some k, hp =>
      match val, hp with
      | none, hp =>
        have hd : rbDelete t0 (some k) = .ok t1 := hp
        obtain ⟨hsub, hsz⟩ := rbDelete_ok_facts hd hs
        have hb2 : IsBSTp t1 := List.Pairwise.sublist (hsub.map Prod.fst) hb
        obtain ⟨hc2, hbh2, hrt2⟩ := rbDelete_ok_color hd hb hcol hbh hrt
        exact ⟨hb2, hsz, hc2, hbh2, hrt2⟩
      | some v, hp =>
        have hp2 : rbPutVal t0 k v = .ok t1 := hp
        obtain ⟨t2, hput, he, hs2, hred2⟩ := rbPutVal_facts k v hb hs
        have ht12 : t2 = t1 := Except.ok.inj (hput.symm.trans hp2)
        subst ht12
        obtain ⟨m, hm⟩ := Option.isSome_iff_exists.mp hbh
        obtain ⟨hc2, hbh2, hrt2⟩ := rbPutVal_color hp2 hcol hm
        refine ⟨?_, hs2, hc2, hbh2, hrt2⟩
        show ((entries t2).map Prod.fst).Pairwise (· < ·)
        rw [he]
        exact pairwise_insUpd hb
  | del t0 t1 key hr hd ih =>
    obtain ⟨hb, hs, hcol, hbh, hrt⟩ := ih
    obtain ⟨hsub, hsz⟩ := rbDelete_ok_facts hd hs
    have hb2 : IsBSTp t1 := List.Pairwise.sublist (hsub.map Prod.fst) hb
    obtain ⟨hc2, hbh2, hrt2⟩ := rbDelete_ok_color hd hb hcol hbh hrt
    exact ⟨hb2, hsz, hc2, hbh2, hrt2⟩

theorem sortedLtB_iff_pairwise [LinearOrder K] (xs : List K) :
    sortedLtB xs = true ↔ xs.Pairwise (· < ·) := by
  induction xs with
  | nil => simp [sortedLtB]
  | cons a ys ih =>
    cases ys with
    | nil => simp [sortedLtB]
    | cons b zs =>
      rw [sortedLtB, Bool.and_eq_true, decide_eq_true_eq, ih]
      constructor
      · rintro ⟨hab, hp⟩
        refine List.Pairwise.cons ?_ hp
        intro x hx
        rcases List.mem_cons.mp hx with rfl | hx2
        · exact hab
        · exact lt_trans hab (List.rel_of_pairwise_cons hp hx2)
      · intro hp
        exact ⟨List.rel_of_pairwise_cons hp (List.mem_cons_self b zs), hp.of_cons⟩

/-- **C5.** After every successful public `put(key, val)` and every successful
public `delete(key)` in any call sequence starting from the empty map, all the
global invariants hold together: strict BST order of the stored keys,
size-field consistency at every node, no red right link, no two consecutive
red left links, the same black-link count on every root-to-null path, and a
black root. -/
theorem C5_invariants [LinearOrder K] {t : RBNode K V} (h : ReachPD t) :
    invOkB t = true := by
  obtain ⟨hb, hs, hcol, hbh, hrt⟩ := reachPD_invariants h
  simp only [invOkB, Bool.and_eq_true]
  refine ⟨⟨⟨⟨(sortedLtB_iff_pairwise _).mpr hb, hs⟩, hcol⟩, hbh⟩, ?_⟩
  rw [hrt]
  rfl

/-- Witness for C5: the empty table is reachable by the empty call sequence. -/
theorem C5_witness : invOkB (.nil : RBNode Nat Nat) = true :=
  C5_invariants ReachPD.empty
